import Mathlib

/-!
# Interval arithmetic of `ary.c`

A shallow embedding of `src/ary.c`: the value type `wartosc` (a closed interval, the
complement of an open interval, or the empty set), its constructors, its queries and its
arithmetic, followed by theorems about them.

## The model of `double`

`Dbl` has one constructor for NaN, one for each infinity and one for the finite values.
A finite value carries a rational number. The sum, product or quotient of two finite
doubles (magnitude at most `DBL_MAX`) overflows to the infinity of its sign when its
magnitude reaches `2^1024 - 2^970`, the least magnitude that round-to-nearest takes to an
infinity, and is exact below that threshold: rounding is outside the model, and the
constant `EPS` is the rational `1/10^10`. A rational of magnitude above `DBL_MAX` is not a
`double`; on such an operand the operations are left exact, so that a statement about all
finite values is in particular a statement about all doubles. The special values follow
IEEE 754 (`inf - inf`, `0 * inf`, `0 / 0` are NaN, every comparison with NaN is false). The
two zeros are one value; the only operation that tells them apart, a division by zero,
occurs in `inverse`, where its result is overwritten before it is read.

## Assertions

A function of the source that contains an `assert` returns an `Option`: `none` is the
failed assertion. The short-circuit evaluation of `&&` and `||` is kept where an operand
can fail.
-/

namespace Ary

/-! ## Doubles -/

/-- The values of a C `double`. -/
inductive Dbl where
  | nan : Dbl
  | ninf : Dbl
  | pinf : Dbl
  | fin (q : ℚ) : Dbl
  deriving DecidableEq, Repr

namespace Dbl

/-- C `isnan`. -/
def isnan : Dbl → Bool
  | nan => true
  | _ => false

/-- C `isinf`. -/
def isinf : Dbl → Bool
  | ninf => true
  | pinf => true
  | _ => false

/-- The finite values. -/
def isFinite : Dbl → Bool
  | fin _ => true
  | _ => false

/-- C `a < b`: false as soon as one side is NaN. -/
def lt : Dbl → Dbl → Bool
  | nan, _ => false
  | _, nan => false
  | ninf, ninf => false
  | ninf, _ => true
  | _, ninf => false
  | pinf, _ => false
  | fin _, pinf => true
  | fin a, fin b => decide (a < b)

/-- C `a > b`. -/
def gt (a b : Dbl) : Bool := lt b a

/-- C `a <= b`: false as soon as one side is NaN. -/
def le : Dbl → Dbl → Bool
  | nan, _ => false
  | _, nan => false
  | ninf, _ => true
  | _, pinf => true
  | pinf, _ => false
  | fin _, ninf => false
  | fin a, fin b => decide (a ≤ b)

/-- The largest finite `double`, `DBL_MAX = 2^1024 - 2^971`. -/
def dblMax : ℚ := 2 ^ 1024 - 2 ^ 971

/-- The least magnitude that binary64 rounds to an infinity: `2^1024 - 2^970`, half a unit
in the last place above `DBL_MAX`. -/
def maxQ : ℚ := 2 ^ 1024 - 2 ^ 970

/-- The finite value `q` with overflow: the infinity of its sign when its magnitude
reaches `maxQ`, and `q` itself otherwise. -/
def ovf (q : ℚ) : Dbl :=
  if maxQ ≤ q then pinf else if q ≤ -maxQ then ninf else fin q

/-- A finite value within the range of `double`. -/
def inRange (q : ℚ) : Bool := decide (|q| ≤ dblMax)

/-- The result of an operation on the finite operands `a` and `b` whose exact result is
`q`: on operands within the range of `double` the result overflows as `ovf` says and is
exact otherwise (rounding is outside the model); on an operand outside that range, which
is not a `double`, the operation is left exact. -/
def finOp (a b q : ℚ) : Dbl :=
  if inRange a && inRange b then ovf q else fin q

/-- C unary minus. -/
def neg : Dbl → Dbl
  | nan => nan
  | ninf => pinf
  | pinf => ninf
  | fin q => fin (-q)

/-- C `a + b`. -/
def add : Dbl → Dbl → Dbl
  | nan, _ => nan
  | _, nan => nan
  | ninf, pinf => nan
  | pinf, ninf => nan
  | ninf, _ => ninf
  | _, ninf => ninf
  | pinf, _ => pinf
  | _, pinf => pinf
  | fin a, fin b => finOp a b (a + b)

/-- C `a - b`. -/
def sub (a b : Dbl) : Dbl := add a (neg b)

/-- An infinity of the sign of `q`, NaN when `q` is zero: the product of a
positive infinity and the finite `q`. -/
def infTimes (q : ℚ) : Dbl :=
  if q = 0 then nan else if 0 < q then pinf else ninf

/-- C `a * b`. -/
def mul : Dbl → Dbl → Dbl
  | nan, _ => nan
  | _, nan => nan
  | pinf, pinf => pinf
  | pinf, ninf => ninf
  | ninf, pinf => ninf
  | ninf, ninf => pinf
  | pinf, fin q => infTimes q
  | fin q, pinf => infTimes q
  | ninf, fin q => infTimes (-q)
  | fin q, ninf => infTimes (-q)
  | fin a, fin b => finOp a b (a * b)

/-- C `a / b`. A finite non-zero value divided by zero is an infinity of the sign
of the numerator (the zero is taken positive). -/
def div : Dbl → Dbl → Dbl
  | nan, _ => nan
  | _, nan => nan
  | pinf, pinf => nan
  | pinf, ninf => nan
  | ninf, pinf => nan
  | ninf, ninf => nan
  | pinf, fin q => if 0 ≤ q then pinf else ninf
  | ninf, fin q => if 0 ≤ q then ninf else pinf
  | fin _, pinf => fin 0
  | fin _, ninf => fin 0
  | fin a, fin b => if b = 0 then infTimes a else finOp a b (a / b)

/-- C `fabs`. -/
def fabs : Dbl → Dbl
  | nan => nan
  | ninf => pinf
  | pinf => pinf
  | fin q => fin |q|

end Dbl

open Dbl

/-! ## Utils -/

/-- `min` of the source: the minimum of `a` and `b`, or the other argument if one
is NaN. -/
def min (a b : Dbl) : Dbl :=
  if a.isnan then b
  else if b.isnan then a
  else if Dbl.lt a b then a
  else b

/-- `max` of the source: the maximum of `a` and `b`, or the other argument if one
is NaN. -/
def max (a b : Dbl) : Dbl :=
  if a.isnan then b
  else if b.isnan then a
  else if Dbl.lt a b then b
  else a

/-- The rational value of the constant `EPS`. -/
def epsQ : ℚ := 1 / 10 ^ 10

/-- `EPS` of the source. -/
def EPS : Dbl := fin epsQ

/-- `eq` of the source: `fabs(a - b) < EPS`. -/
def eq (a b : Dbl) : Bool := Dbl.lt (fabs (sub a b)) EPS

/-- `leq` of the source: `a < b || eq(a, b)`. -/
def leq (a b : Dbl) : Bool := Dbl.lt a b || eq a b

/-- `geq` of the source: `a > b || eq(a, b)`. -/
def geq (a b : Dbl) : Bool := Dbl.gt a b || eq a b

/-- `sgn` of the source. -/
def sgn (a : Dbl) : Int :=
  if eq a (fin 0) || a.isnan then 0
  else if Dbl.lt a (fin 0) then -1
  else 1

/-- `is_inf` of the source; `none` is the failed `assert(sign != 0)`. -/
def is_inf (x : Dbl) (sign : Int) : Option Bool :=
  if sign = 0 then none
  else if !x.isinf then some false
  else if Dbl.lt x (fin 0) && decide (sign < 0) then some true
  else if Dbl.gt x (fin 0) && decide (0 < sign) then some true
  else some false

/-! ## The value type -/

/-- The struct `wartosc`. -/
structure wartosc where
  first : Dbl
  second : Dbl
  is_flipped : Bool
  deriving DecidableEq, Repr

/-- `swap` of the source, on a pair of values (both pointers of the source are
addresses of local variables, so its assertion holds). -/
def swap (p : wartosc × wartosc) : wartosc × wartosc := (p.2, p.1)

/-- The canonical empty value `(NAN, NAN, false)`. -/
def emptyW : wartosc := ⟨nan, nan, false⟩

/-- The full line `(-HUGE_VAL, HUGE_VAL, false)`. -/
def fullW : wartosc := ⟨ninf, pinf, false⟩

/-! ## Constructors -/

/-- `wartosc_dokladnosc` of the source; `none` is the failed `assert(p > 0)`. -/
def wartosc_dokladnosc (x p : Dbl) : Option wartosc :=
  if Dbl.gt p (fin 0) then
    let a := div (mul x (sub (fin 100) p)) (fin 100)
    let b := div (mul x (add (fin 100) p)) (fin 100)
    some ⟨Ary.min a b, Ary.max a b, false⟩
  else none

/-- `wartosc_od_do` of the source; `none` is the failed `assert(x <= y)`. -/
def wartosc_od_do (x y : Dbl) : Option wartosc :=
  if Dbl.le x y then some ⟨x, y, false⟩ else none

/-- `wartosc_dokladna` of the source. -/
def wartosc_dokladna (x : Dbl) : wartosc := ⟨x, x, false⟩

/-! ## Queries -/

/-- `in_wartosc` of the source. -/
def in_wartosc (w : wartosc) (x : Dbl) : Bool :=
  if w.first.isnan then false
  else if w.is_flipped then geq x w.first || leq x w.second
  else geq x w.first && leq x w.second

/-- `min_wartosc` of the source. -/
def min_wartosc (w : wartosc) : Option Dbl :=
  if w.first.isnan then some nan
  else if w.is_flipped then some ninf
  else do
    let i ← is_inf w.first (-1)
    if i then some ninf else some w.first

/-- `max_wartosc` of the source. -/
def max_wartosc (w : wartosc) : Option Dbl :=
  if w.first.isnan then some nan
  else if w.is_flipped then some pinf
  else do
    let i ← is_inf w.second 1
    if i then some pinf else some w.second

/-- `sr_wartosc` of the source. -/
def sr_wartosc (w : wartosc) : Option Dbl := do
  let maxd ← max_wartosc w
  let mind ← min_wartosc w
  let i ← is_inf maxd 1
  if i then
    let j ← is_inf mind (-1)
    if j then some nan else some (div (add maxd mind) (fin 2))
  else some (div (add maxd mind) (fin 2))

/-! ## Operations -/

/-- `negative` of the source: the negation of `w`. -/
def negative (w : wartosc) : wartosc :=
  if w.first.isnan then ⟨nan, nan, false⟩
  else ⟨neg w.second, neg w.first, w.is_flipped⟩

/-- `is_all_negative` of the source. -/
def is_all_negative (w : wartosc) : Bool :=
  leq w.first (fin 0) && leq w.second (fin 0)

/-- `plus` of the source. -/
def plus (a b : wartosc) : wartosc :=
  if a.is_flipped && b.is_flipped then ⟨ninf, pinf, false⟩
  else
    let first := add a.first b.first
    let second := add a.second b.second
    if (a.is_flipped || b.is_flipped) && leq first second then ⟨ninf, pinf, false⟩
    else ⟨first, second, a.is_flipped || b.is_flipped⟩

/-- `minus` of the source. -/
def minus (a b : wartosc) : wartosc := plus a (negative b)

/-- `inverse` of the source: the reciprocal of `w`. -/
def inverse (w : wartosc) : wartosc :=
  if eq w.first (fin 0) && eq w.second (fin 0) then ⟨nan, nan, false⟩
  else
    let res : wartosc := ⟨div (fin 1) w.second, div (fin 1) w.first, w.is_flipped⟩
    let res : wartosc :=
      if sgn w.first * sgn w.second = -1 then
        if eq res.first res.second then ⟨ninf, pinf, false⟩
        else { res with is_flipped := !w.is_flipped }
      else res
    let res : wartosc :=
      if eq w.first (fin 0) then { res with second := pinf, is_flipped := false } else res
    let res : wartosc :=
      if eq w.second (fin 0) then { res with first := ninf, is_flipped := false } else res
    res

/-- `mult_not_flipped` of the source; `none` is the failed assertion. -/
def mult_not_flipped (a b : wartosc) : Option wartosc :=
  if !a.is_flipped && !b.is_flipped then
    let mind := nan
    let mind := Ary.min mind (mul a.first b.first)
    let mind := Ary.min mind (mul a.first b.second)
    let mind := Ary.min mind (mul a.second b.first)
    let mind := Ary.min mind (mul a.second b.second)
    let maxd := nan
    let maxd := Ary.max maxd (mul a.first b.first)
    let maxd := Ary.max maxd (mul a.first b.second)
    let maxd := Ary.max maxd (mul a.second b.first)
    let maxd := Ary.max maxd (mul a.second b.second)
    some ⟨mind, maxd, false⟩
  else none

/-- The body of `mult_one_flipped` after the swap: `a` is the operand that is not
flipped and `b` the flipped one. -/
def mult_one_flipped_body (a b : wartosc) : wartosc :=
  let sign : Int := 1
  let na := is_all_negative a
  let a := if na then negative a else a
  let sign := if na then sign * -1 else sign
  let nb := is_all_negative b
  let b := if nb then negative b else b
  let sign := if nb then sign * -1 else sign
  let res1 := Ary.min (mul a.first b.first) (mul a.second b.first)
  let res2 := Ary.max (mul a.first b.second) (mul a.second b.second)
  if leq res1 res2 then ⟨ninf, pinf, false⟩
  else
    let res : wartosc := ⟨res1, res2, true⟩
    if sign < 0 then negative res else res

/-- `mult_one_flipped` of the source; `none` is the failed assertion. -/
def mult_one_flipped (a b : wartosc) : Option wartosc :=
  if xor a.is_flipped b.is_flipped then
    let p := if a.is_flipped then swap (a, b) else (a, b)
    some (mult_one_flipped_body p.1 p.2)
  else none

/-- `mult_both_flipped` of the source; `none` is the failed assertion. -/
def mult_both_flipped (a b : wartosc) : Option wartosc :=
  if a.is_flipped && b.is_flipped then
    if in_wartosc a (fin 0) || in_wartosc b (fin 0) then some ⟨ninf, pinf, false⟩
    else some ⟨Ary.min (mul a.first b.first) (mul a.second b.second),
               Ary.max (mul a.first b.second) (mul a.second b.first), true⟩
  else none

/-- The zero-point guard of `razy`: one operand has both endpoints within `EPS`
of zero. -/
def zeroGuard (a b : wartosc) : Bool :=
  (eq a.first (fin 0) && eq a.second (fin 0)) || (eq b.first (fin 0) && eq b.second (fin 0))

/-- The full-line guard of `razy`, with the short-circuit order of the source. -/
def fullGuard (a b : wartosc) : Option Bool := do
  let a1 ← is_inf a.first (-1)
  let a2 ← if a1 then is_inf a.second 1 else some false
  if a2 then some true
  else
    let b1 ← is_inf b.first (-1)
    if b1 then is_inf b.second 1 else some false

/-- `razy` of the source. -/
def razy (a b : wartosc) : Option wartosc :=
  if a.first.isnan || b.first.isnan then some ⟨nan, nan, false⟩
  else if zeroGuard a b then some ⟨fin 0, fin 0, false⟩
  else do
    let g ← fullGuard a b
    if g then some ⟨ninf, pinf, false⟩
    else if a.is_flipped && b.is_flipped then mult_both_flipped a b
    else if a.is_flipped || b.is_flipped then mult_one_flipped a b
    else mult_not_flipped a b

/-- `podzielic` of the source. -/
def podzielic (a b : wartosc) : Option wartosc := razy a (inverse b)


/-! ## The representation invariant and the denoted set

The NOTES at the end of `ary.c`: a value whose first field is NaN is the empty set; a
flipped value is the set `[-inf, second] u [first, inf]` and `second < first` holds; a value
that is not flipped is the set `[first, second]` and `first <= second` holds. -/

/-- A well-formed bounded value: not flipped, no NaN endpoint, `first <= second`. -/
def wfBounded (w : wartosc) : Bool :=
  !w.is_flipped && !w.first.isnan && !w.second.isnan && Dbl.le w.first w.second

/-- A well-formed complement: flipped, finite endpoints, `second < first` and the two
endpoints not within `EPS` of each other. With `second < first`, an infinite endpoint
would be `first = +inf` or `second = -inf`, a tail without a finite member. -/
def wfComplement (w : wartosc) : Bool :=
  w.is_flipped && w.first.isFinite && w.second.isFinite && Dbl.lt w.second w.first
    && !eq w.first w.second

/-- A complement in the wide sense: flipped, `second < first` and the two endpoints not
within `EPS` of each other; an endpoint may be infinite. -/
def wfComplementExt (w : wartosc) : Bool :=
  w.is_flipped && Dbl.lt w.second w.first && !eq w.first w.second

/-- A well-formed bounded value other than `[+inf, +inf]` and `[-inf, -inf]`, the two
bounded values without a finite member, which the NOTES of `ary.c` list among those that
never occur. -/
def wfBoundedProper (w : wartosc) : Bool :=
  wfBounded w && w.first != pinf && w.second != ninf

/-- A well-formed value: the canonical empty value, a well-formed bounded value with a
finite member, or a well-formed complement. -/
def wfValue (w : wartosc) : Bool :=
  w == emptyW || wfBoundedProper w || wfComplement w

/-- An operand of the multiplication with a finite endpoint on each side that the
product reads: no NaN endpoint; when it is not flipped, `first` is not `+inf` and `second`
is not `-inf` (among the values with `first <= second` this leaves out `[+inf, +inf]` and
`[-inf, -inf]` only); when it is flipped, both endpoints are finite. The order of the
endpoints is not constrained. -/
def properOperand (w : wartosc) : Bool :=
  if w.is_flipped then w.first.isFinite && w.second.isFinite
  else !w.first.isnan && !w.second.isnan && w.first != pinf && w.second != ninf

/-- Membership of `x` in the set `w` denotes, with exact bounds (no tolerance). -/
def member (w : wartosc) (x : Dbl) : Bool :=
  if w.first.isnan then false
  else if w.is_flipped then Dbl.le w.first x || Dbl.le x w.second
  else Dbl.le w.first x && Dbl.le x w.second

/-- An endpoint that the tolerance does not move: exactly zero, or not within `EPS` of
zero. -/
def zeroExactOrFar (d : Dbl) : Bool := d == fin 0 || !eq d (fin 0)

/-- An operand that the zero-point guard of `razy` treats as it is: its endpoints are not
both within `EPS` of zero, or it is the zero point `(0, 0, false)` itself. -/
def zeroPointOrFar (w : wartosc) : Bool :=
  !(eq w.first (fin 0) && eq w.second (fin 0)) || w == ⟨fin 0, fin 0, false⟩

/-- A positive endpoint at distance at least `EPS` from zero. -/
def farPos : Dbl → Bool
  | pinf => true
  | fin q => decide (epsQ ≤ q)
  | _ => false

/-- A negative endpoint at distance at least `EPS` from zero. -/
def farNeg : Dbl → Bool
  | ninf => true
  | fin q => decide (q ≤ -epsQ)
  | _ => false

/-! ## Basic facts about the primitives -/

theorem isnan_iff (x : Dbl) : x.isnan = true ↔ x = nan := by
  cases x <;> simp [Dbl.isnan]

theorem isnan_false_iff (x : Dbl) : x.isnan = false ↔ x ≠ nan := by
  cases x <;> simp [Dbl.isnan]

theorem epsQ_pos : (0 : ℚ) < epsQ := by
  norm_num [epsQ]

theorem maxQ_pos : (0 : ℚ) < maxQ := by
  norm_num [maxQ]

theorem epsQ_lt_maxQ : epsQ < maxQ := by
  norm_num [epsQ, maxQ]

theorem dblMax_lt_maxQ : dblMax < maxQ := by
  norm_num [dblMax, maxQ]

/-- The three cases of `ovf`. -/
theorem ovf_cases (q : ℚ) :
    (maxQ ≤ q ∧ ovf q = pinf) ∨ (q ≤ -maxQ ∧ ovf q = ninf) ∨
    (-maxQ < q ∧ q < maxQ ∧ ovf q = fin q) := by
  by_cases h1 : maxQ ≤ q
  · exact Or.inl ⟨h1, by simp [ovf, h1]⟩
  · by_cases h2 : q ≤ -maxQ
    · exact Or.inr (Or.inl ⟨h2, by simp [ovf, h1, h2]⟩)
    · exact Or.inr (Or.inr ⟨not_le.1 h2, not_le.1 h1, by simp [ovf, h1, h2]⟩)

/-- Below the overflow threshold `ovf` is the identity. -/
theorem ovf_eq (q : ℚ) (h1 : -maxQ < q) (h2 : q < maxQ) : ovf q = fin q := by
  simp [ovf, not_le.2 h1, not_le.2 h2]

/-- A value that `ovf` leaves finite is below the overflow threshold. -/
theorem ovf_isFinite (q : ℚ) (h : (ovf q).isFinite = true) : -maxQ < q ∧ q < maxQ := by
  rcases ovf_cases q with ⟨_, h2⟩ | ⟨_, h2⟩ | ⟨h0, h1, _⟩
  · rw [h2] at h
    simp [Dbl.isFinite] at h
  · rw [h2] at h
    simp [Dbl.isFinite] at h
  · exact ⟨h0, h1⟩

/-- The three cases of the result of an operation on finite operands. -/
theorem finOp_cases (a b q : ℚ) :
    (maxQ ≤ q ∧ finOp a b q = pinf) ∨ (q ≤ -maxQ ∧ finOp a b q = ninf) ∨
    finOp a b q = fin q := by
  unfold finOp
  split
  · rcases ovf_cases q with h | h | ⟨_, _, h⟩
    · exact Or.inl h
    · exact Or.inr (Or.inl h)
    · exact Or.inr (Or.inr h)
  · exact Or.inr (Or.inr rfl)

/-- Below the overflow threshold the result of an operation is exact. -/
theorem finOp_eq (a b q : ℚ) (h1 : -maxQ < q) (h2 : q < maxQ) : finOp a b q = fin q := by
  rcases finOp_cases a b q with ⟨h, _⟩ | ⟨h, _⟩ | h
  · linarith
  · linarith
  · exact h

/-- A result of moderate size is exact. -/
theorem finOp_small (a b q : ℚ) (h1 : -(10 ^ 30) ≤ q) (h2 : q ≤ 10 ^ 30) :
    finOp a b q = fin q := by
  have h : (10 : ℚ) ^ 30 < maxQ := by norm_num [maxQ]
  exact finOp_eq a b q (by linarith) (by linarith)

theorem finOp_pinf (a b q : ℚ) (ha : |a| ≤ dblMax) (hb : |b| ≤ dblMax) (h : maxQ ≤ q) :
    finOp a b q = pinf := by
  simp [finOp, inRange, ha, hb, ovf, h]

theorem finOp_ninf (a b q : ℚ) (ha : |a| ≤ dblMax) (hb : |b| ≤ dblMax) (h : q ≤ -maxQ) :
    finOp a b q = ninf := by
  have h1 : ¬ maxQ ≤ q := by linarith [maxQ_pos]
  simp [finOp, inRange, ha, hb, ovf, h, h1]

theorem finOp_comm (a b q : ℚ) : finOp a b q = finOp b a q := by
  simp [finOp, Bool.and_comm]

theorem finOp_isnan (a b q : ℚ) : (finOp a b q).isnan = false := by
  rcases finOp_cases a b q with ⟨_, h⟩ | ⟨_, h⟩ | h <;> rw [h] <;> rfl

theorem finOp_ne_nan (a b q : ℚ) : finOp a b q ≠ nan :=
  (isnan_false_iff _).1 (finOp_isnan a b q)

/-- A result that is at most a finite value below the threshold, as a `double`. -/
theorem finOp_le_fin (a b p z : ℚ) (h : p ≤ z) (hz : z < maxQ) :
    Dbl.le (finOp a b p) (fin z) = true := by
  rcases finOp_cases a b p with ⟨h1, _⟩ | ⟨_, h2⟩ | h2
  · linarith
  · rw [h2]; rfl
  · rw [h2]; simpa [Dbl.le] using h

/-- A result that is at least a finite value above the negative threshold, as a
`double`. -/
theorem fin_le_finOp (a b p z : ℚ) (h : z ≤ p) (hz : -maxQ < z) :
    Dbl.le (fin z) (finOp a b p) = true := by
  rcases finOp_cases a b p with ⟨_, h2⟩ | ⟨h1, _⟩ | h2
  · rw [h2]; rfl
  · linarith
  · rw [h2]; simpa [Dbl.le] using h

theorem le_of_finOp_le_fin (a b p z : ℚ) (h : Dbl.le (finOp a b p) (fin z) = true)
    (hz : -maxQ < z) : p ≤ z := by
  rcases finOp_cases a b p with ⟨_, h2⟩ | ⟨h1, _⟩ | h2
  · rw [h2] at h; simp [Dbl.le] at h
  · linarith
  · rw [h2] at h; simpa [Dbl.le] using h

theorem le_of_fin_le_finOp (a b p z : ℚ) (h : Dbl.le (fin z) (finOp a b p) = true)
    (hz : z < maxQ) : z ≤ p := by
  rcases finOp_cases a b p with ⟨h1, _⟩ | ⟨_, h2⟩ | h2
  · linarith
  · rw [h2] at h; simp [Dbl.le] at h
  · rw [h2] at h; simpa [Dbl.le] using h

theorem add_fin_fin (p q : ℚ) : add (fin p) (fin q) = finOp p q (p + q) := rfl

theorem sub_fin_fin (p q : ℚ) : sub (fin p) (fin q) = finOp p (-q) (p - q) := by
  simp [Dbl.sub, Dbl.neg, Dbl.add, sub_eq_add_neg]

theorem eq_fin_fin (a b : ℚ) : eq (fin a) (fin b) = decide (|a - b| < epsQ) := by
  have := epsQ_lt_maxQ
  rw [eq, sub_fin_fin]
  rcases finOp_cases a (-b) (a - b) with ⟨h1, h⟩ | ⟨h1, h⟩ | h <;> rw [h]
  · have h3 : ¬ |a - b| < epsQ := by
      rw [abs_lt]
      intro h4
      linarith
    simp [Dbl.fabs, Dbl.lt, EPS, h3]
  · have h3 : ¬ |a - b| < epsQ := by
      rw [abs_lt]
      intro h4
      linarith [maxQ_pos, epsQ_pos]
    simp [Dbl.fabs, Dbl.lt, EPS, h3]
  · simp [Dbl.fabs, Dbl.lt, EPS]

theorem eq_fin_zero (q : ℚ) : eq (fin q) (fin 0) = decide (|q| < epsQ) := by
  simp [eq_fin_fin]

theorem eq_zero_zero : eq (fin 0) (fin 0) = true := by
  simp [eq_fin_fin, epsQ_pos]

theorem eq_nan_left (b : Dbl) : eq nan b = false := by
  cases b <;> simp [eq, Dbl.sub, Dbl.neg, Dbl.add, Dbl.fabs, Dbl.lt, EPS]

theorem eq_ninf_left (b : Dbl) : eq ninf b = false := by
  cases b <;> simp [eq, Dbl.sub, Dbl.neg, Dbl.add, Dbl.fabs, Dbl.lt, EPS]

theorem eq_pinf_left (b : Dbl) : eq pinf b = false := by
  cases b <;> simp [eq, Dbl.sub, Dbl.neg, Dbl.add, Dbl.fabs, Dbl.lt, EPS]

theorem dneg_neg (x : Dbl) : neg (neg x) = x := by
  cases x <;> simp [Dbl.neg]

theorem neg_eq_nan_iff (x : Dbl) : neg x = nan ↔ x = nan := by
  cases x <;> simp [Dbl.neg]

theorem dadd_comm (a b : Dbl) : add a b = add b a := by
  cases a <;> cases b <;> simp [Dbl.add, add_comm, finOp_comm]

theorem dmul_comm (a b : Dbl) : mul a b = mul b a := by
  cases a <;> cases b <;> simp [Dbl.mul, mul_comm, finOp_comm]

theorem is_inf_ninf_neg : is_inf ninf (-1) = some true := by
  simp [is_inf, Dbl.isinf, Dbl.lt]

theorem is_inf_pinf_pos : is_inf pinf 1 = some true := by
  simp [is_inf, Dbl.isinf, Dbl.lt, Dbl.gt]

theorem is_inf_neg_isSome (x : Dbl) : ∃ r, is_inf x (-1) = some r := by
  cases x <;> simp [is_inf, Dbl.isinf, Dbl.lt, Dbl.gt]

theorem is_inf_pos_isSome (x : Dbl) : ∃ r, is_inf x 1 = some r := by
  cases x <;> simp [is_inf, Dbl.isinf, Dbl.lt, Dbl.gt]

theorem is_inf_neg (x : Dbl) : is_inf x (-1) = some (decide (x = ninf)) := by
  cases x <;> simp [is_inf, Dbl.isinf, Dbl.lt, Dbl.gt]

theorem is_inf_pos (x : Dbl) : is_inf x 1 = some (decide (x = pinf)) := by
  cases x <;> simp [is_inf, Dbl.isinf, Dbl.lt, Dbl.gt]

theorem sgn_ninf : sgn ninf = -1 := by
  simp [sgn, eq_ninf_left, Dbl.isnan, Dbl.lt]

theorem sgn_pinf : sgn pinf = 1 := by
  simp [sgn, eq_pinf_left, Dbl.isnan, Dbl.lt]

theorem sgn_fin (q : ℚ) :
    sgn (fin q) = if |q| < epsQ then 0 else if q < 0 then -1 else 1 := by
  simp [sgn, eq_fin_zero, Dbl.isnan, Dbl.lt]

theorem div_one_fin (q : ℚ) (h : q ≠ 0) : div (fin 1) (fin q) = finOp 1 q (1 / q) := by
  simp [Dbl.div, h]

/-- The reciprocal of a finite value at distance at least `EPS` from zero is exact. -/
theorem div_one_far (q : ℚ) (h : epsQ ≤ |q|) : div (fin 1) (fin q) = fin (1 / q) := by
  have he := epsQ_pos
  have hq : q ≠ 0 := by
    rintro rfl
    simp at h
    linarith
  have hpos : 0 < |q| := abs_pos.2 hq
  have h1 : |1 / q| ≤ 1 / epsQ := by
    rw [abs_div, abs_one]
    exact one_div_le_one_div_of_le he h
  have h2 : 1 / epsQ < maxQ := by norm_num [epsQ, maxQ]
  have h3 := abs_le.1 h1
  rw [div_one_fin q hq, finOp_eq _ _ _ (by linarith) (by linarith)]

theorem div_one_ninf : div (fin 1) ninf = fin 0 := rfl

theorem div_one_pinf : div (fin 1) pinf = fin 0 := rfl

theorem mul_fin_fin (p q : ℚ) : mul (fin p) (fin q) = finOp p q (p * q) := rfl

/-- A product of moderate size is exact. -/
theorem mul_small (p q : ℚ) (h1 : -(10 ^ 30) ≤ p * q) (h2 : p * q ≤ 10 ^ 30) :
    mul (fin p) (fin q) = fin (p * q) := by
  rw [mul_fin_fin, finOp_small _ _ _ h1 h2]

/-- A sum of moderate size is exact. -/
theorem add_small (p q : ℚ) (h1 : -(10 ^ 30) ≤ p + q) (h2 : p + q ≤ 10 ^ 30) :
    add (fin p) (fin q) = fin (p + q) := by
  rw [add_fin_fin, finOp_small _ _ _ h1 h2]

theorem mul_ninf_fin (q : ℚ) : mul ninf (fin q) = infTimes (-q) := rfl

theorem mul_pinf_fin (q : ℚ) : mul pinf (fin q) = infTimes q := rfl

theorem mul_fin_ninf (q : ℚ) : mul (fin q) ninf = infTimes (-q) := rfl

theorem mul_fin_pinf (q : ℚ) : mul (fin q) pinf = infTimes q := rfl

theorem infTimes_pos (q : ℚ) (h : 0 < q) : infTimes q = pinf := by
  simp [infTimes, h, ne_of_gt h]

theorem infTimes_neg (q : ℚ) (h : q < 0) : infTimes q = ninf := by
  simp [infTimes, ne_of_lt h, not_lt.2 (le_of_lt h)]

theorem infTimes_zero : infTimes 0 = nan := by
  simp [infTimes]

theorem le_ninf (z : ℚ) : Dbl.le ninf (fin z) = true := rfl

theorem le_pinf (z : ℚ) : Dbl.le (fin z) pinf = true := rfl

theorem le_fin_fin (p q : ℚ) : Dbl.le (fin p) (fin q) = true ↔ p ≤ q := by
  simp [Dbl.le]

theorem le_fin_trans (d : Dbl) (u z : ℚ) (h : Dbl.le d (fin u) = true) (hz : u ≤ z) :
    Dbl.le d (fin z) = true := by
  cases d <;> simp [Dbl.le] at h ⊢
  linarith

theorem fin_le_trans (d : Dbl) (u z : ℚ) (h : Dbl.le (fin u) d = true) (hz : z ≤ u) :
    Dbl.le (fin z) d = true := by
  cases d <;> simp [Dbl.le] at h ⊢
  linarith

theorem infTimes_le (q z : ℚ) (h : Dbl.le (infTimes q) (fin z) = true) : q < 0 := by
  rcases lt_trichotomy q 0 with hq | hq | hq
  · exact hq
  · rw [hq, infTimes_zero] at h
    simp [Dbl.le] at h
  · rw [infTimes_pos q hq] at h
    simp [Dbl.le] at h

theorem le_infTimes (q z : ℚ) (h : Dbl.le (fin z) (infTimes q) = true) : 0 < q := by
  rcases lt_trichotomy q 0 with hq | hq | hq
  · rw [infTimes_neg q hq] at h
    simp [Dbl.le] at h
  · rw [hq, infTimes_zero] at h
    simp [Dbl.le] at h
  · exact hq

/-! ## Comparisons with tolerance -/

theorem leq_fin_fin (a b : ℚ) : leq (fin a) (fin b) = true ↔ a < b + epsQ := by
  have := epsQ_pos
  simp only [leq, eq_fin_fin, Dbl.lt, Bool.or_eq_true, decide_eq_true_eq, abs_lt]
  constructor
  · rintro (h | h)
    · linarith
    · linarith [h.2]
  · intro h
    by_cases h1 : a < b
    · exact Or.inl h1
    · exact Or.inr ⟨by linarith, by linarith⟩

theorem geq_fin_fin (a b : ℚ) : geq (fin a) (fin b) = true ↔ b < a + epsQ := by
  have := epsQ_pos
  simp only [geq, eq_fin_fin, Dbl.gt, Dbl.lt, Bool.or_eq_true, decide_eq_true_eq, abs_lt]
  constructor
  · rintro (h | h)
    · linarith
    · linarith [h.1]
  · intro h
    by_cases h1 : b < a
    · exact Or.inl h1
    · exact Or.inr ⟨by linarith, by linarith⟩

theorem geq_fin_ninf (a : ℚ) : geq (fin a) ninf = true := by
  simp [geq, Dbl.gt, Dbl.lt]

theorem leq_fin_pinf (a : ℚ) : leq (fin a) pinf = true := by
  simp [leq, Dbl.lt]

theorem leq_ninf_pinf : leq ninf pinf = true := by
  simp [leq, Dbl.lt]

theorem leq_ninf_fin (a : ℚ) : leq ninf (fin a) = true := by
  simp [leq, Dbl.lt]

theorem leq_fin_zero (q : ℚ) : leq (fin q) (fin 0) = true ↔ q < epsQ := by
  rw [leq_fin_fin]
  constructor <;> intro h <;> linarith

/-- An exact lower bound is a lower bound for `geq`, and it is not NaN. -/
theorem geq_of_le (m : Dbl) (z : ℚ) (h : Dbl.le m (fin z) = true) :
    m.isnan = false ∧ geq (fin z) m = true := by
  have he := epsQ_pos
  cases m <;> simp [Dbl.le] at h
  · exact ⟨rfl, geq_fin_ninf z⟩
  · refine ⟨rfl, ?_⟩
    rw [geq_fin_fin]
    linarith

/-- An exact upper bound is an upper bound for `leq`. -/
theorem leq_of_le (m : Dbl) (z : ℚ) (h : Dbl.le (fin z) m = true) :
    leq (fin z) m = true := by
  have he := epsQ_pos
  cases m <;> simp [Dbl.le] at h
  · exact leq_fin_pinf z
  · rw [leq_fin_fin]
    linarith

/-- Two values separated by finite bounds in the right order are in the relation `leq`. -/
theorem leq_of_sep (r1 r2 : Dbl) (z1 z2 : ℚ) (h1 : Dbl.le r1 (fin z1) = true)
    (h2 : Dbl.le (fin z2) r2 = true) (hz : z1 ≤ z2) : leq r1 r2 = true := by
  have he := epsQ_pos
  cases r1 <;> cases r2 <;> simp [Dbl.le] at h1 h2
  · exact leq_ninf_pinf
  · exact leq_ninf_fin _
  · exact leq_fin_pinf _
  · rw [leq_fin_fin]
    linarith

theorem geq_neg (r : Dbl) (z : ℚ) : geq (fin (-z)) (neg r) = leq (fin z) r := by
  cases r with
  | nan => simp [geq, leq, Dbl.neg, Dbl.gt, Dbl.lt, eq, Dbl.sub, Dbl.add, Dbl.fabs]
  | ninf => simp [geq, leq, Dbl.neg, Dbl.gt, Dbl.lt, eq, Dbl.sub, Dbl.add, Dbl.fabs]
  | pinf => simp [geq, leq, Dbl.neg, Dbl.gt, Dbl.lt, eq, Dbl.sub, Dbl.add, Dbl.fabs]
  | fin q =>
    rw [Bool.eq_iff_iff, Dbl.neg, geq_fin_fin, leq_fin_fin]
    constructor <;> intro h <;> linarith

theorem leq_neg (r : Dbl) (z : ℚ) : leq (fin (-z)) (neg r) = geq (fin z) r := by
  cases r with
  | nan => simp [geq, leq, Dbl.neg, Dbl.gt, Dbl.lt, eq, Dbl.sub, Dbl.add, Dbl.fabs]
  | ninf => simp [geq, leq, Dbl.neg, Dbl.gt, Dbl.lt, eq, Dbl.sub, Dbl.add, Dbl.fabs]
  | pinf => simp [geq, leq, Dbl.neg, Dbl.gt, Dbl.lt, eq, Dbl.sub, Dbl.add, Dbl.fabs]
  | fin q =>
    rw [Bool.eq_iff_iff, Dbl.neg, geq_fin_fin, leq_fin_fin]
    constructor <;> intro h <;> linarith

/-! ## The NaN-skipping minimum and maximum -/

theorem min_le_left (a b : Dbl) (z : ℚ) (h : Dbl.le a (fin z) = true) :
    Dbl.le (Ary.min a b) (fin z) = true := by
  cases a <;> cases b <;> simp [Ary.min, Dbl.isnan, Dbl.lt, Dbl.le] at h ⊢ <;>
    first
      | exact h
      | (split_ifs <;> simp [Dbl.le] <;> linarith)

theorem min_le_right (a b : Dbl) (z : ℚ) (h : Dbl.le b (fin z) = true) :
    Dbl.le (Ary.min a b) (fin z) = true := by
  cases a <;> cases b <;> simp [Ary.min, Dbl.isnan, Dbl.lt, Dbl.le] at h ⊢ <;>
    first
      | exact h
      | (split_ifs <;> simp [Dbl.le] <;> linarith)

theorem le_max_left (a b : Dbl) (z : ℚ) (h : Dbl.le (fin z) a = true) :
    Dbl.le (fin z) (Ary.max a b) = true := by
  cases a <;> cases b <;> simp [Ary.max, Dbl.isnan, Dbl.lt, Dbl.le] at h ⊢ <;>
    first
      | exact h
      | (split_ifs <;> simp [Dbl.le] <;> linarith)

theorem le_max_right (a b : Dbl) (z : ℚ) (h : Dbl.le (fin z) b = true) :
    Dbl.le (fin z) (Ary.max a b) = true := by
  cases a <;> cases b <;> simp [Ary.max, Dbl.isnan, Dbl.lt, Dbl.le] at h ⊢ <;>
    first
      | exact h
      | (split_ifs <;> simp [Dbl.le] <;> linarith)

theorem min_isnan_left (a b : Dbl) (h : a.isnan = false) : (Ary.min a b).isnan = false := by
  cases a <;> cases b <;> simp [Ary.min, Dbl.isnan, Dbl.lt] at h ⊢
  split_ifs <;> rfl

theorem max_isnan_left (a b : Dbl) (h : a.isnan = false) : (Ary.max a b).isnan = false := by
  cases a <;> cases b <;> simp [Ary.max, Dbl.isnan, Dbl.lt] at h ⊢
  split_ifs <;> rfl

theorem max_isnan_right (a b : Dbl) (h : b.isnan = false) : (Ary.max a b).isnan = false := by
  cases a <;> cases b <;> simp [Ary.max, Dbl.isnan, Dbl.lt] at h ⊢
  split_ifs <;> rfl

/-! ## Membership and well-formedness -/

theorem in_wartosc_bounded_of {f s x : Dbl} (hn : f.isnan = false) (h1 : geq x f = true)
    (h2 : leq x s = true) : in_wartosc ⟨f, s, false⟩ x = true := by
  simp [in_wartosc, hn, h1, h2]

theorem in_wartosc_flipped_of {f s x : Dbl} (hn : f.isnan = false)
    (h : geq x f = true ∨ leq x s = true) : in_wartosc ⟨f, s, true⟩ x = true := by
  simp [in_wartosc, hn, h]

theorem in_wartosc_empty (x : Dbl) : in_wartosc ⟨nan, nan, false⟩ x = false := by
  simp [in_wartosc, Dbl.isnan]

theorem in_wartosc_full (x : ℚ) : in_wartosc ⟨ninf, pinf, false⟩ (fin x) = true := by
  simp [in_wartosc, Dbl.isnan, geq_fin_ninf, leq_fin_pinf]

theorem in_wartosc_zero_point : in_wartosc ⟨fin 0, fin 0, false⟩ (fin 0) = true := by
  have he := epsQ_pos
  apply @in_wartosc_bounded_of (fin 0) (fin 0) (fin 0) rfl
  · rw [geq_fin_fin]
    linarith
  · rw [leq_fin_fin]
    linarith

theorem member_bounded {a1 a2 : Dbl} {x : Dbl} (h : member ⟨a1, a2, false⟩ x = true) :
    Dbl.le a1 x = true ∧ Dbl.le x a2 = true := by
  cases h1 : a1.isnan <;> simp [member, h1] at h
  exact h

theorem member_flipped {a1 a2 : Dbl} {x : Dbl} (h : member ⟨a1, a2, true⟩ x = true) :
    Dbl.le a1 x = true ∨ Dbl.le x a2 = true := by
  cases h1 : a1.isnan <;> simp [member, h1] at h
  exact h

/-- The negation of a flipped value without NaN endpoint contains `-z` when the value
contains `z`. -/
theorem in_wartosc_negative (r1 r2 : Dbl) (z : ℚ) (h2 : r2.isnan = false)
    (h : in_wartosc ⟨r1, r2, true⟩ (fin z) = true) :
    in_wartosc (negative ⟨r1, r2, true⟩) (fin (-z)) = true := by
  have h1 : r1.isnan = false := by
    cases hr : r1.isnan
    · rfl
    · simp [in_wartosc, hr] at h
  have h3 : (neg r2).isnan = false := by
    cases r2 <;> simp [Dbl.neg, Dbl.isnan] at h2 ⊢
  simp only [in_wartosc, h1, Bool.false_eq_true, if_false, if_true, Bool.or_eq_true] at h
  simp only [negative, h1, Bool.false_eq_true, if_false, in_wartosc, h3, if_true, geq_neg,
    leq_neg, Bool.or_eq_true]
  exact h.symm

theorem in_wartosc_fin_zero (a1 a2 : ℚ) (h : in_wartosc ⟨fin a1, fin a2, true⟩ (fin 0) = false) :
    epsQ ≤ a1 ∧ a2 ≤ -epsQ := by
  have h1 : ¬ geq (fin 0) (fin a1) = true := by
    intro hc
    simp [in_wartosc, Dbl.isnan, hc] at h
  have h2 : ¬ leq (fin 0) (fin a2) = true := by
    intro hc
    simp [in_wartosc, Dbl.isnan, hc] at h
  rw [geq_fin_fin] at h1
  rw [leq_fin_fin] at h2
  constructor <;> linarith

theorem wfBounded_iff (f s : Dbl) (fl : Bool) :
    wfBounded ⟨f, s, fl⟩ = true ↔
      fl = false ∧ f.isnan = false ∧ s.isnan = false ∧ Dbl.le f s = true := by
  simp [wfBounded, and_assoc]

theorem wfComplement_iff (w : wartosc) :
    wfComplement w = true ↔
      ∃ f s : ℚ, w = ⟨fin f, fin s, true⟩ ∧ s + epsQ ≤ f := by
  have he := epsQ_pos
  rcases w with ⟨f, s, fl⟩
  constructor
  · intro h
    simp only [wfComplement, Bool.and_eq_true, Bool.not_eq_true'] at h
    obtain ⟨⟨⟨⟨rfl, hf⟩, hs⟩, hlt⟩, heq⟩ := h
    cases f <;> simp [Dbl.isFinite] at hf
    cases s <;> simp [Dbl.isFinite] at hs
    rename_i p q
    refine ⟨p, q, rfl, ?_⟩
    have hlt' : q < p := by simpa [Dbl.lt] using hlt
    have h2 : ¬ |p - q| < epsQ := by simpa [eq_fin_fin] using heq
    rw [abs_of_pos (by linarith)] at h2
    linarith
  · rintro ⟨p, q, h, hg⟩
    injection h with h1 h2 h3
    subst h1 h2 h3
    have h2 : ¬ |p - q| < epsQ := by
      rw [abs_of_pos (by linarith)]
      linarith
    have h3 : q < p := by linarith
    simp [wfComplement, Dbl.isFinite, Dbl.lt, eq_fin_fin, h3]
    linarith [le_of_not_lt h2]

/-! ## The guards of `razy` -/

theorem razy_nan (a b : wartosc) (h : a.first = nan ∨ b.first = nan) :
    razy a b = some ⟨nan, nan, false⟩ := by
  have hn : (a.first.isnan || b.first.isnan) = true := by
    rcases h with h | h <;> simp [h, Dbl.isnan]
  simp [razy, hn]

theorem fullGuard_left (w : wartosc) : fullGuard fullW w = some true := by
  simp [fullGuard, fullW, is_inf_ninf_neg, is_inf_pinf_pos]

theorem fullGuard_right (w : wartosc) : fullGuard w fullW = some true := by
  obtain ⟨r1, h1⟩ := is_inf_neg_isSome w.first
  obtain ⟨r2, h2⟩ := is_inf_pos_isSome w.second
  cases r1 <;> cases r2 <;>
    simp [fullGuard, fullW, h1, h2, is_inf_ninf_neg, is_inf_pinf_pos]

theorem fullGuard_eq (a b : wartosc) :
    fullGuard a b = some (decide ((a.first = ninf ∧ a.second = pinf) ∨
      (b.first = ninf ∧ b.second = pinf))) := by
  simp only [fullGuard, is_inf_neg, is_inf_pos, Option.bind_eq_bind, Option.some_bind]
  by_cases h1 : a.first = ninf <;> by_cases h2 : a.second = pinf <;>
    by_cases h3 : b.first = ninf <;> by_cases h4 : b.second = pinf <;>
    simp [h1, h2, h3, h4]

/-- The dispatch of `razy` on operands that pass the three guards. -/
theorem razy_dispatch (a b : wartosc) (h1 : a.first.isnan = false)
    (h2 : b.first.isnan = false) (hz : zeroGuard a b = false)
    (hg : ¬ ((a.first = ninf ∧ a.second = pinf) ∨ (b.first = ninf ∧ b.second = pinf))) :
    razy a b =
      if (a.is_flipped && b.is_flipped) = true then mult_both_flipped a b
      else if (a.is_flipped || b.is_flipped) = true then mult_one_flipped a b
      else mult_not_flipped a b := by
  simp [razy, h1, h2, hz, fullGuard_eq, hg]

theorem razy_bounded_flipped (a1 a2 b1 b2 : Dbl) (h1 : a1.isnan = false)
    (h2 : b1.isnan = false) (hz : zeroGuard ⟨a1, a2, false⟩ ⟨b1, b2, true⟩ = false)
    (hg : ¬ (a1 = ninf ∧ a2 = pinf)) (hg2 : ¬ (b1 = ninf ∧ b2 = pinf)) :
    razy ⟨a1, a2, false⟩ ⟨b1, b2, true⟩ =
      some (mult_one_flipped_body ⟨a1, a2, false⟩ ⟨b1, b2, true⟩) := by
  rw [razy_dispatch _ _ h1 h2 hz (by simp [hg, hg2])]
  simp [mult_one_flipped]

theorem razy_flipped_bounded (a1 a2 b1 b2 : Dbl) (h1 : a1.isnan = false)
    (h2 : b1.isnan = false) (hz : zeroGuard ⟨a1, a2, true⟩ ⟨b1, b2, false⟩ = false)
    (hg : ¬ (a1 = ninf ∧ a2 = pinf)) (hg2 : ¬ (b1 = ninf ∧ b2 = pinf)) :
    razy ⟨a1, a2, true⟩ ⟨b1, b2, false⟩ =
      some (mult_one_flipped_body ⟨b1, b2, false⟩ ⟨a1, a2, true⟩) := by
  rw [razy_dispatch _ _ h1 h2 hz (by simp [hg, hg2])]
  simp [mult_one_flipped, swap]

theorem razy_flipped_flipped (a1 a2 b1 b2 : Dbl) (h1 : a1.isnan = false)
    (h2 : b1.isnan = false) (hz : zeroGuard ⟨a1, a2, true⟩ ⟨b1, b2, true⟩ = false)
    (hg : ¬ (a1 = ninf ∧ a2 = pinf)) (hg2 : ¬ (b1 = ninf ∧ b2 = pinf)) :
    razy ⟨a1, a2, true⟩ ⟨b1, b2, true⟩ =
      mult_both_flipped ⟨a1, a2, true⟩ ⟨b1, b2, true⟩ := by
  rw [razy_dispatch _ _ h1 h2 hz (by simp [hg, hg2])]
  simp

theorem min_self_fin (q : ℚ) : Ary.min (fin q) (fin q) = fin q := by
  simp [Ary.min, Dbl.isnan, Dbl.lt]

theorem max_self_fin (q : ℚ) : Ary.max (fin q) (fin q) = fin q := by
  simp [Ary.max, Dbl.isnan, Dbl.lt]

/-- The `zeroGuard` of two operands each with an endpoint not within `EPS` of zero. -/
theorem zeroGuard_false (a b : wartosc)
    (ha : eq a.first (fin 0) = false ∨ eq a.second (fin 0) = false)
    (hb : eq b.first (fin 0) = false ∨ eq b.second (fin 0) = false) :
    zeroGuard a b = false := by
  rcases ha with ha | ha <;> rcases hb with hb | hb <;> simp [zeroGuard, ha, hb]

/-- A finite value at distance at least `EPS` from zero is not `eq` to zero. -/
theorem eq_zero_false (q : ℚ) (h : epsQ ≤ |q|) : eq (fin q) (fin 0) = false := by
  rw [eq_fin_zero]
  simpa using h

/-! ## Empty operands -/

/-- C1. If the first field of `a` or of `b` is NaN, `razy a b` returns the canonical empty
value `(NaN, NaN, false)`; `min_wartosc` and `max_wartosc` of that result are NaN and
`in_wartosc` of it is false for every `x`. -/
theorem razy_empty_operand (a b : wartosc) (h : a.first = nan ∨ b.first = nan) :
    razy a b = some ⟨nan, nan, false⟩ ∧
    (razy a b).bind min_wartosc = some nan ∧
    (razy a b).bind max_wartosc = some nan ∧
    ∀ x : Dbl, (razy a b).map (fun r => in_wartosc r x) = some false := by
  rw [razy_nan a b h]
  refine ⟨rfl, ?_, ?_, ?_⟩
  · simp [min_wartosc, Dbl.isnan]
  · simp [max_wartosc, Dbl.isnan]
  · intro x
    simp [in_wartosc, Dbl.isnan]

/-- Witness of C1 on the operands of `test.c`, line 51. -/
theorem razy_empty_operand_witness :
    ((⟨nan, fin (-6), false⟩ : wartosc).first = nan ∨
      (⟨fin 2, fin 3, false⟩ : wartosc).first = nan) ∧
    razy ⟨nan, fin (-6), false⟩ ⟨fin 2, fin 3, false⟩ = some ⟨nan, nan, false⟩ :=
  ⟨Or.inl rfl, (razy_empty_operand ⟨nan, fin (-6), false⟩ ⟨fin 2, fin 3, false⟩ (Or.inl rfl)).1⟩

/-- C2 (the code at the failing input). With `c = (1, -1, true)`, the complement of
`(-1, 1)`, `plus c (NaN, NaN, false)` is `(NaN, NaN, true)`, an empty value (its first
field is NaN), and adding `c` to that value gives the full line `(-inf, +inf, false)`,
whose first field is not NaN. -/
theorem plus_drops_empty :
    plus ⟨fin 1, fin (-1), true⟩ ⟨nan, nan, false⟩ = ⟨nan, nan, true⟩ ∧
    plus ⟨nan, nan, true⟩ ⟨fin 1, fin (-1), true⟩ = ⟨ninf, pinf, false⟩ ∧
    (plus (plus ⟨fin 1, fin (-1), true⟩ ⟨nan, nan, false⟩) ⟨fin 1, fin (-1), true⟩).first
      ≠ nan := by
  refine ⟨?_, ?_, ?_⟩ <;>
    simp [plus, Dbl.add, leq, eq, Dbl.sub, Dbl.neg, Dbl.fabs, Dbl.lt, EPS]

theorem inverse_zero (b : wartosc) (h1 : eq b.first (fin 0) = true)
    (h2 : eq b.second (fin 0) = true) : inverse b = ⟨nan, nan, false⟩ := by
  simp [inverse, h1, h2]

/-- C3. For every `w` and every divisor `b` whose two endpoints are within `EPS` of zero,
`podzielic w b` returns the canonical empty value `(NaN, NaN, false)`, and `in_wartosc` of
that result is false for every `x`. -/
theorem podzielic_by_zero (w b : wartosc) (h1 : eq b.first (fin 0) = true)
    (h2 : eq b.second (fin 0) = true) :
    podzielic w b = some ⟨nan, nan, false⟩ ∧
    ∀ x : Dbl, (podzielic w b).map (fun r => in_wartosc r x) = some false := by
  have h : podzielic w b = some ⟨nan, nan, false⟩ := by
    unfold podzielic
    rw [inverse_zero b h1 h2]
    exact razy_nan w ⟨nan, nan, false⟩ (Or.inr rfl)
  refine ⟨h, fun x => ?_⟩
  rw [h]
  simp [in_wartosc_empty]

/-- Witness of C3: `[1, 2]` divided by `wartosc_dokladna(0.0)`. -/
theorem podzielic_by_zero_witness :
    eq (wartosc_dokladna (fin 0)).first (fin 0) = true ∧
    eq (wartosc_dokladna (fin 0)).second (fin 0) = true ∧
    podzielic ⟨fin 1, fin 2, false⟩ (wartosc_dokladna (fin 0)) = some ⟨nan, nan, false⟩ :=
  ⟨eq_zero_zero, eq_zero_zero,
    (podzielic_by_zero ⟨fin 1, fin 2, false⟩ (wartosc_dokladna (fin 0))
      eq_zero_zero eq_zero_zero).1⟩

/-! ## The zero point and the full line -/

/-- C4. For every `w` whose first field is not NaN, `razy (wartosc_dokladna 0) w` and
`razy w (wartosc_dokladna 0)` both return `(0, 0, false)`. -/
theorem razy_zero_annihilates (w : wartosc) (h : w.first ≠ nan) :
    razy (wartosc_dokladna (fin 0)) w = some ⟨fin 0, fin 0, false⟩ ∧
    razy w (wartosc_dokladna (fin 0)) = some ⟨fin 0, fin 0, false⟩ := by
  have hn : w.first.isnan = false := (isnan_false_iff _).2 h
  constructor <;>
    simp [razy, wartosc_dokladna, zeroGuard, hn, Dbl.isnan, eq_zero_zero]

/-- Witness of C4: the full line times zero. -/
theorem razy_zero_annihilates_witness :
    fullW.first ≠ nan ∧
    razy (wartosc_dokladna (fin 0)) fullW = some ⟨fin 0, fin 0, false⟩ ∧
    razy fullW (wartosc_dokladna (fin 0)) = some ⟨fin 0, fin 0, false⟩ :=
  ⟨by simp [fullW], razy_zero_annihilates fullW (by simp [fullW])⟩

/-- C5 (counterexample). `w = [-6/10^11, 6/10^11]` is not flipped, has no NaN endpoint, and
its endpoints are not within `EPS` of each other, yet both are within `EPS` of zero: the
zero-point guard of `razy` fires before the full-line guard and the product with the full
line is `(0, 0, false)`, not the full line. -/
theorem razy_full_line_counterexample :
    (⟨fin (-6 / 10 ^ 11), fin (6 / 10 ^ 11), false⟩ : wartosc).first ≠ nan ∧
    (⟨fin (-6 / 10 ^ 11), fin (6 / 10 ^ 11), false⟩ : wartosc).second ≠ nan ∧
    (⟨fin (-6 / 10 ^ 11), fin (6 / 10 ^ 11), false⟩ : wartosc).is_flipped = false ∧
    eq (fin (-6 / 10 ^ 11)) (fin (6 / 10 ^ 11)) = false ∧
    razy fullW ⟨fin (-6 / 10 ^ 11), fin (6 / 10 ^ 11), false⟩ = some ⟨fin 0, fin 0, false⟩ ∧
    razy fullW ⟨fin (-6 / 10 ^ 11), fin (6 / 10 ^ 11), false⟩ ≠ some fullW := by
  have h : razy fullW ⟨fin (-6 / 10 ^ 11), fin (6 / 10 ^ 11), false⟩
      = some ⟨fin 0, fin 0, false⟩ := by
    simp [razy, zeroGuard, fullW, Dbl.isnan, eq_fin_fin, epsQ]
    norm_num [abs_lt]
  refine ⟨by simp, by simp, rfl, ?_, h, ?_⟩
  · simp [eq_fin_fin, epsQ]
    norm_num [abs_le, le_abs]
  · rw [h]
    simp [fullW]

/-- C5 (amended). The full line is absorbing for every bounded `w` (no NaN endpoint, not
flipped, endpoints not within `EPS` of each other) whose two endpoints are not both within
`EPS` of zero: `razy fullW w` and `razy w fullW` both return the full line. -/
theorem razy_full_line_absorbs (w : wartosc) (h1 : w.first ≠ nan) (_h2 : w.second ≠ nan)
    (_hf : w.is_flipped = false) (_hd : eq w.first w.second = false)
    (hz : ¬ (eq w.first (fin 0) = true ∧ eq w.second (fin 0) = true)) :
    razy fullW w = some fullW ∧ razy w fullW = some fullW := by
  have hn : w.first.isnan = false := (isnan_false_iff _).2 h1
  have hz1 : zeroGuard fullW w = false := by
    simp only [zeroGuard, fullW, eq_ninf_left, eq_pinf_left, Bool.false_and, Bool.false_or]
    cases h3 : eq w.first (fin 0) <;> cases h4 : eq w.second (fin 0) <;> simp_all
  have hz2 : zeroGuard w fullW = false := by
    simp only [zeroGuard, fullW, eq_ninf_left, eq_pinf_left, Bool.false_and, Bool.or_false]
    cases h3 : eq w.first (fin 0) <;> cases h4 : eq w.second (fin 0) <;> simp_all
  constructor
  · simp [razy, hn, hz1, fullGuard_left]
    simp [fullW, Dbl.isnan]
  · simp [razy, hn, hz2, fullGuard_right]
    simp [fullW, Dbl.isnan]

/-- Witness of C5 (amended): the full line times `[1, 2]`. -/
theorem razy_full_line_absorbs_witness :
    razy fullW ⟨fin 1, fin 2, false⟩ = some fullW ∧
    razy ⟨fin 1, fin 2, false⟩ fullW = some fullW :=
  razy_full_line_absorbs ⟨fin 1, fin 2, false⟩ (by simp) (by simp) rfl
    (by simp [eq_fin_fin, epsQ]; norm_num [abs_le, le_abs])
    (by simp [eq_fin_fin, epsQ]; norm_num [abs_le, le_abs])

/-! ## The reciprocal

The closed forms of `inverse` below show that the quotient by an endpoint within `EPS` of
zero never reaches the result: it is replaced by an infinity, or the result is empty. -/

/-- C6 (counterexample). `w = [0, 1/2^34]` is a well-formed bounded value and the
reciprocal of `x = 2^34` is its upper endpoint; both endpoints of `w` are within `EPS` of
zero, so `inverse w` is the empty value and does not contain `x`. -/
theorem inverse_contains_counterexample :
    wfBounded ⟨fin 0, fin (1 / 2 ^ 34), false⟩ = true ∧
    (2 : ℚ) ^ 34 ≠ 0 ∧
    member ⟨fin 0, fin (1 / 2 ^ 34), false⟩ (div (fin 1) (fin (2 ^ 34))) = true ∧
    inverse ⟨fin 0, fin (1 / 2 ^ 34), false⟩ = ⟨nan, nan, false⟩ ∧
    in_wartosc (inverse ⟨fin 0, fin (1 / 2 ^ 34), false⟩) (fin (2 ^ 34)) = false := by
  have h : inverse ⟨fin 0, fin (1 / 2 ^ 34), false⟩ = ⟨nan, nan, false⟩ := by
    apply inverse_zero
    · exact eq_zero_zero
    · simp [eq_fin_fin, epsQ]
      norm_num [abs_lt]
  refine ⟨?_, by norm_num, ?_, h, ?_⟩
  · simp [wfBounded, Dbl.isnan, Dbl.le]
  · rw [div_one_far _ (by norm_num [epsQ])]
    simp [member, Dbl.isnan, Dbl.le]
  · rw [h]
    exact in_wartosc_empty _

theorem inverse_first_zero (f s : Dbl) (fl : Bool) (hf : eq f (fin 0) = true)
    (hs : eq s (fin 0) = false) :
    inverse ⟨f, s, fl⟩ = ⟨div (fin 1) s, pinf, false⟩ := by
  have h0 : sgn f = 0 := by simp [sgn, hf]
  simp [inverse, hf, hs, h0]

theorem inverse_second_zero (f s : Dbl) (fl : Bool) (hf : eq f (fin 0) = false)
    (hs : eq s (fin 0) = true) :
    inverse ⟨f, s, fl⟩ = ⟨ninf, div (fin 1) f, false⟩ := by
  have h0 : sgn s = 0 := by simp [sgn, hs]
  simp [inverse, hf, hs, h0]

theorem inverse_far (f s : Dbl) (fl : Bool) (hf : eq f (fin 0) = false)
    (hs : eq s (fin 0) = false) :
    inverse ⟨f, s, fl⟩ =
      if sgn f * sgn s = -1 then
        if eq (div (fin 1) s) (div (fin 1) f) then ⟨ninf, pinf, false⟩
        else ⟨div (fin 1) s, div (fin 1) f, !fl⟩
      else ⟨div (fin 1) s, div (fin 1) f, fl⟩ := by
  simp [inverse, hf, hs]

theorem endpoint_cases (d : Dbl) (hn : d ≠ nan) (h : zeroExactOrFar d = true) :
    d = fin 0 ∨ farPos d = true ∨ farNeg d = true := by
  cases d with
  | nan => exact absurd rfl hn
  | ninf => exact Or.inr (Or.inr rfl)
  | pinf => exact Or.inr (Or.inl rfl)
  | fin q =>
    simp only [zeroExactOrFar, eq_fin_zero, Bool.or_eq_true, beq_iff_eq, Bool.not_eq_true',
      decide_eq_false_iff_not, not_lt] at h
    rcases h with h | h
    · exact Or.inl h
    · rcases le_abs'.1 h with h' | h'
      · exact Or.inr (Or.inr (by simpa [farNeg] using h'))
      · exact Or.inr (Or.inl (by simpa [farPos] using h'))

theorem farPos_eq (d : Dbl) (h : farPos d = true) : eq d (fin 0) = false ∧ sgn d = 1 := by
  have he := epsQ_pos
  cases d with
  | nan => simp [farPos] at h
  | ninf => simp [farPos] at h
  | pinf => exact ⟨eq_pinf_left _, sgn_pinf⟩
  | fin q =>
    have hq : epsQ ≤ q := by simpa [farPos] using h
    have h1 : ¬ |q| < epsQ := by
      rw [abs_of_pos (by linarith)]
      linarith
    have h2 : ¬ q < 0 := by linarith
    simp [eq_fin_zero, sgn_fin, h1, h2]

theorem farNeg_eq (d : Dbl) (h : farNeg d = true) : eq d (fin 0) = false ∧ sgn d = -1 := by
  have he := epsQ_pos
  cases d with
  | nan => simp [farNeg] at h
  | pinf => simp [farNeg] at h
  | ninf => exact ⟨eq_ninf_left _, sgn_ninf⟩
  | fin q =>
    have hq : q ≤ -epsQ := by simpa [farNeg] using h
    have h1 : ¬ |q| < epsQ := by
      rw [abs_of_neg (by linarith)]
      linarith
    have h2 : q < 0 := by linarith
    simp [eq_fin_zero, sgn_fin, h1, h2]

/-- The reciprocal of a positive `t` below a positive endpoint `d` is at least `1 / d`. -/
theorem recip_geq_of_pos (d : Dbl) (t : ℚ) (hd : farPos d = true) (ht : 0 < t)
    (h : Dbl.le (fin t) d = true) : geq (fin (1 / t)) (div (fin 1) d) = true := by
  have he := epsQ_pos
  cases d with
  | nan => simp [farPos] at hd
  | ninf => simp [farPos] at hd
  | pinf =>
    rw [div_one_pinf, geq_fin_fin]
    have : 0 < 1 / t := one_div_pos.2 ht
    linarith
  | fin q =>
    have hq : epsQ ≤ q := by simpa [farPos] using hd
    have htq : t ≤ q := by simpa [Dbl.le] using h
    rw [div_one_far q (le_trans hq (le_abs_self q)), geq_fin_fin]
    have : 1 / q ≤ 1 / t := one_div_le_one_div_of_le ht htq
    linarith

/-- The reciprocal of a `t` above a positive endpoint `d` is at most `1 / d`. -/
theorem recip_leq_of_pos (d : Dbl) (t : ℚ) (hd : farPos d = true)
    (h : Dbl.le d (fin t) = true) : leq (fin (1 / t)) (div (fin 1) d) = true := by
  have he := epsQ_pos
  cases d with
  | nan => simp [farPos] at hd
  | ninf => simp [farPos] at hd
  | pinf => simp [Dbl.le] at h
  | fin q =>
    have hq : epsQ ≤ q := by simpa [farPos] using hd
    have htq : q ≤ t := by simpa [Dbl.le] using h
    rw [div_one_far q (le_trans hq (le_abs_self q)), leq_fin_fin]
    have : 1 / t ≤ 1 / q := one_div_le_one_div_of_le (by linarith) htq
    linarith

/-- The reciprocal of a negative `t` above a negative endpoint `d` is at most `1 / d`. -/
theorem recip_leq_of_neg (d : Dbl) (t : ℚ) (hd : farNeg d = true) (ht : t < 0)
    (h : Dbl.le d (fin t) = true) : leq (fin (1 / t)) (div (fin 1) d) = true := by
  have he := epsQ_pos
  cases d with
  | nan => simp [farNeg] at hd
  | pinf => simp [farNeg] at hd
  | ninf =>
    rw [div_one_ninf, leq_fin_fin]
    have : 1 / t < 0 := one_div_neg.2 ht
    linarith
  | fin q =>
    have hq : q ≤ -epsQ := by simpa [farNeg] using hd
    have htq : q ≤ t := by simpa [Dbl.le] using h
    rw [div_one_far q (le_trans (le_neg_of_le_neg hq) (neg_le_abs q)), leq_fin_fin]
    have : 1 / t ≤ 1 / q := (one_div_le_one_div_of_neg ht (by linarith)).2 htq
    linarith

/-- The reciprocal of a `t` below a negative endpoint `d` is at least `1 / d`. -/
theorem recip_geq_of_neg (d : Dbl) (t : ℚ) (hd : farNeg d = true)
    (h : Dbl.le (fin t) d = true) : geq (fin (1 / t)) (div (fin 1) d) = true := by
  have he := epsQ_pos
  cases d with
  | nan => simp [farNeg] at hd
  | pinf => simp [farNeg] at hd
  | ninf => simp [Dbl.le] at h
  | fin q =>
    have hq : q ≤ -epsQ := by simpa [farNeg] using hd
    have htq : t ≤ q := by simpa [Dbl.le] using h
    rw [div_one_far q (le_trans (le_neg_of_le_neg hq) (neg_le_abs q)), geq_fin_fin]
    have : 1 / q ≤ 1 / t := (one_div_le_one_div_of_neg (by linarith) (by linarith)).2 htq
    linarith

/-- A negative number is below the reciprocal of a positive endpoint. -/
theorem recip_pos_leq (d : Dbl) (x : ℚ) (hd : farPos d = true) (hx : x < 0) :
    leq (fin x) (div (fin 1) d) = true := by
  have he := epsQ_pos
  cases d with
  | nan => simp [farPos] at hd
  | ninf => simp [farPos] at hd
  | pinf =>
    rw [div_one_pinf, leq_fin_fin]
    linarith
  | fin q =>
    have hq : epsQ ≤ q := by simpa [farPos] using hd
    rw [div_one_far q (le_trans hq (le_abs_self q)), leq_fin_fin]
    have : 0 < 1 / q := one_div_pos.2 (by linarith)
    linarith

/-- A positive number is above the reciprocal of a negative endpoint. -/
theorem recip_neg_geq (d : Dbl) (x : ℚ) (hd : farNeg d = true) (hx : 0 < x) :
    geq (fin x) (div (fin 1) d) = true := by
  have he := epsQ_pos
  cases d with
  | nan => simp [farNeg] at hd
  | pinf => simp [farNeg] at hd
  | ninf =>
    rw [div_one_ninf, geq_fin_fin]
    linarith
  | fin q =>
    have hq : q ≤ -epsQ := by simpa [farNeg] using hd
    rw [div_one_far q (le_trans (le_neg_of_le_neg hq) (neg_le_abs q)), geq_fin_fin]
    have : 1 / q < 0 := one_div_neg.2 (by linarith)
    linarith

/-- The reciprocal of an endpoint that is not NaN is not NaN. -/
theorem recip_isnan (d : Dbl) (hd : d ≠ nan) : (div (fin 1) d).isnan = false := by
  cases d with
  | nan => exact absurd rfl hd
  | ninf => rfl
  | pinf => rfl
  | fin q =>
    by_cases hq : q = 0
    · simp [Dbl.div, hq, Dbl.infTimes, Dbl.isnan]
    · rw [div_one_fin q hq]
      exact finOp_isnan _ _ _

theorem pos_of_le_farPos (d : Dbl) (t : ℚ) (hd : farPos d = true)
    (h : Dbl.le d (fin t) = true) : 0 < t := by
  have he := epsQ_pos
  cases d <;> simp [farPos, Dbl.le] at hd h
  linarith

theorem neg_of_le_farNeg (d : Dbl) (t : ℚ) (hd : farNeg d = true)
    (h : Dbl.le (fin t) d = true) : t < 0 := by
  have he := epsQ_pos
  cases d <;> simp [farNeg, Dbl.le] at hd h
  linarith

theorem farPos_ne_nan (d : Dbl) (hd : farPos d = true) : d ≠ nan := by
  cases d <;> simp [farPos] at hd ⊢

theorem farNeg_ne_nan (d : Dbl) (hd : farNeg d = true) : d ≠ nan := by
  cases d <;> simp [farNeg] at hd ⊢

theorem le_farPos_farNeg (f s : Dbl) (hf : farPos f = true) (hs : farNeg s = true) :
    Dbl.le f s = false := by
  have he := epsQ_pos
  cases f <;> cases s <;> simp [farPos, farNeg, Dbl.le] at hf hs ⊢
  linarith

theorem lt_farPos_farNeg (f s : Dbl) (hf : farNeg f = true) (hs : farPos s = true) :
    Dbl.lt s f = false := by
  have he := epsQ_pos
  cases f <;> cases s <;> simp [farPos, farNeg, Dbl.lt] at hf hs ⊢
  linarith

theorem le_zero_farNeg (s : Dbl) (hs : farNeg s = true) : Dbl.le (fin 0) s = false := by
  have he := epsQ_pos
  cases s <;> simp [farNeg, Dbl.le] at hs ⊢
  linarith

theorem le_farPos_zero (f : Dbl) (hf : farPos f = true) : Dbl.le f (fin 0) = false := by
  have he := epsQ_pos
  cases f <;> simp [farPos, Dbl.le] at hf ⊢
  linarith

theorem lt_farPos_zero (s : Dbl) (hs : farPos s = true) : Dbl.lt s (fin 0) = false := by
  have he := epsQ_pos
  cases s <;> simp [farPos, Dbl.lt] at hs ⊢
  linarith

theorem lt_zero_farNeg (f : Dbl) (hf : farNeg f = true) : Dbl.lt (fin 0) f = false := by
  have he := epsQ_pos
  cases f <;> simp [farNeg, Dbl.lt] at hf ⊢
  linarith

/-- The result of `inverse` on endpoints of opposite signs contains what the toggled
naive reciprocal contains. -/
theorem in_inverse_opposite (f s : Dbl) (fl : Bool) (x : ℚ)
    (hf : eq f (fin 0) = false) (hs : eq s (fin 0) = false) (hsg : sgn f * sgn s = -1)
    (h : in_wartosc ⟨div (fin 1) s, div (fin 1) f, !fl⟩ (fin x) = true) :
    in_wartosc (inverse ⟨f, s, fl⟩) (fin x) = true := by
  rw [inverse_far f s fl hf hs, if_pos hsg]
  split
  · exact in_wartosc_full x
  · exact h

theorem inverse_same_sign (f s : Dbl) (fl : Bool)
    (hf : eq f (fin 0) = false) (hs : eq s (fin 0) = false) (hsg : sgn f * sgn s = 1) :
    inverse ⟨f, s, fl⟩ = ⟨div (fin 1) s, div (fin 1) f, fl⟩ := by
  rw [inverse_far f s fl hf hs, if_neg (by rw [hsg]; decide)]

/-- The enclosure of `inverse` in terms of the reciprocal `t` of the tested point. -/
theorem inverse_contains_aux (f s : Dbl) (fl : Bool) (t : ℚ) (ht : t ≠ 0)
    (hf : f = fin 0 ∨ farPos f = true ∨ farNeg f = true)
    (hs : s = fin 0 ∨ farPos s = true ∨ farNeg s = true)
    (hw : (fl = false ∧ Dbl.le f s = true) ∨ (fl = true ∧ Dbl.lt s f = true))
    (hm : member ⟨f, s, fl⟩ (fin t) = true) :
    in_wartosc (inverse ⟨f, s, fl⟩) (fin (1 / t)) = true := by
  have he := epsQ_pos
  have hz := eq_zero_zero
  rcases hf with rfl | hf | hf <;> rcases hs with rfl | hs | hs
  · -- both endpoints zero
    rcases hw with ⟨rfl, _⟩ | ⟨rfl, h⟩
    · have h := member_bounded hm
      simp only [Dbl.le, decide_eq_true_eq] at h
      exact absurd (le_antisymm h.2 h.1) ht
    · simp [Dbl.lt] at h
  · -- first zero, second positive
    rw [inverse_first_zero _ _ _ hz (farPos_eq s hs).1]
    rcases hw with ⟨rfl, _⟩ | ⟨rfl, h⟩
    · have h := member_bounded hm
      have htp : 0 < t := lt_of_le_of_ne (by simpa [Dbl.le] using h.1) (Ne.symm ht)
      exact in_wartosc_bounded_of (recip_isnan s (farPos_ne_nan s hs))
        (recip_geq_of_pos s t hs htp h.2) (leq_fin_pinf _)
    · rw [lt_farPos_zero s hs] at h
      exact absurd h (by decide)
  · -- first zero, second negative
    rw [inverse_first_zero _ _ _ hz (farNeg_eq s hs).1]
    rcases hw with ⟨rfl, h⟩ | ⟨rfl, _⟩
    · rw [le_zero_farNeg s hs] at h
      exact absurd h (by decide)
    · refine in_wartosc_bounded_of (recip_isnan s (farNeg_ne_nan s hs)) ?_ (leq_fin_pinf _)
      rcases member_flipped hm with h | h
      · have htp : 0 < t := lt_of_le_of_ne (by simpa [Dbl.le] using h) (Ne.symm ht)
        exact recip_neg_geq s (1 / t) hs (one_div_pos.2 htp)
      · exact recip_geq_of_neg s t hs h
  · -- first positive, second zero
    rw [inverse_second_zero _ _ _ (farPos_eq f hf).1 hz]
    rcases hw with ⟨rfl, h⟩ | ⟨rfl, _⟩
    · rw [le_farPos_zero f hf] at h
      exact absurd h (by decide)
    · refine in_wartosc_bounded_of rfl (geq_fin_ninf _) ?_
      rcases member_flipped hm with h | h
      · exact recip_leq_of_pos f t hf h
      · have htn : t < 0 := lt_of_le_of_ne (by simpa [Dbl.le] using h) ht
        exact recip_pos_leq f (1 / t) hf (one_div_neg.2 htn)
  · -- both positive
    rw [inverse_same_sign f s fl (farPos_eq f hf).1 (farPos_eq s hs).1
      (by rw [(farPos_eq f hf).2, (farPos_eq s hs).2]; rfl)]
    have hn := recip_isnan s (farPos_ne_nan s hs)
    rcases hw with ⟨rfl, _⟩ | ⟨rfl, _⟩
    · have h := member_bounded hm
      have htp := pos_of_le_farPos f t hf h.1
      exact in_wartosc_bounded_of hn (recip_geq_of_pos s t hs htp h.2)
        (recip_leq_of_pos f t hf h.1)
    · refine in_wartosc_flipped_of hn ?_
      rcases member_flipped hm with h | h
      · exact Or.inr (recip_leq_of_pos f t hf h)
      · rcases lt_or_gt_of_ne ht with htn | htp
        · exact Or.inr (recip_pos_leq f (1 / t) hf (one_div_neg.2 htn))
        · exact Or.inl (recip_geq_of_pos s t hs htp h)
  · -- first positive, second negative
    have hsg : sgn f * sgn s = -1 := by rw [(farPos_eq f hf).2, (farNeg_eq s hs).2]; rfl
    apply in_inverse_opposite f s fl _ (farPos_eq f hf).1 (farNeg_eq s hs).1 hsg
    have hn := recip_isnan s (farNeg_ne_nan s hs)
    rcases hw with ⟨rfl, h⟩ | ⟨rfl, _⟩
    · rw [le_farPos_farNeg f s hf hs] at h
      exact absurd h (by decide)
    · rcases member_flipped hm with h | h
      · have htp := pos_of_le_farPos f t hf h
        exact in_wartosc_bounded_of hn (recip_neg_geq s (1 / t) hs (one_div_pos.2 htp))
          (recip_leq_of_pos f t hf h)
      · have htn := neg_of_le_farNeg s t hs h
        exact in_wartosc_bounded_of hn (recip_geq_of_neg s t hs h)
          (recip_pos_leq f (1 / t) hf (one_div_neg.2 htn))
  · -- first negative, second zero
    rw [inverse_second_zero _ _ _ (farNeg_eq f hf).1 hz]
    rcases hw with ⟨rfl, _⟩ | ⟨rfl, h⟩
    · have h := member_bounded hm
      have htn : t < 0 := lt_of_le_of_ne (by simpa [Dbl.le] using h.2) ht
      exact in_wartosc_bounded_of rfl (geq_fin_ninf _) (recip_leq_of_neg f t hf htn h.1)
    · rw [lt_zero_farNeg f hf] at h
      exact absurd h (by decide)
  · -- first negative, second positive
    have hsg : sgn f * sgn s = -1 := by rw [(farNeg_eq f hf).2, (farPos_eq s hs).2]; rfl
    apply in_inverse_opposite f s fl _ (farNeg_eq f hf).1 (farPos_eq s hs).1 hsg
    have hn := recip_isnan s (farPos_ne_nan s hs)
    rcases hw with ⟨rfl, _⟩ | ⟨rfl, h⟩
    · have h := member_bounded hm
      refine in_wartosc_flipped_of hn ?_
      rcases lt_or_gt_of_ne ht with htn | htp
      · exact Or.inr (recip_leq_of_neg f t hf htn h.1)
      · exact Or.inl (recip_geq_of_pos s t hs htp h.2)
    · rw [lt_farPos_farNeg f s hf hs] at h
      exact absurd h (by decide)
  · -- both negative
    rw [inverse_same_sign f s fl (farNeg_eq f hf).1 (farNeg_eq s hs).1
      (by rw [(farNeg_eq f hf).2, (farNeg_eq s hs).2]; rfl)]
    have hn := recip_isnan s (farNeg_ne_nan s hs)
    rcases hw with ⟨rfl, _⟩ | ⟨rfl, _⟩
    · have h := member_bounded hm
      have htn := neg_of_le_farNeg s t hs h.2
      exact in_wartosc_bounded_of hn (recip_geq_of_neg s t hs h.2)
        (recip_leq_of_neg f t hf htn h.1)
    · refine in_wartosc_flipped_of hn ?_
      rcases member_flipped hm with h | h
      · rcases lt_or_gt_of_ne ht with htn | htp
        · exact Or.inr (recip_leq_of_neg f t hf htn h)
        · exact Or.inl (recip_neg_geq s (1 / t) hs (one_div_pos.2 htp))
      · exact Or.inl (recip_geq_of_neg s t hs h)

theorem recip_nonneg (d : Dbl) (hd : farPos d = true) :
    Dbl.le (fin 0) (div (fin 1) d) = true := by
  have he := epsQ_pos
  cases d with
  | nan => simp [farPos] at hd
  | ninf => simp [farPos] at hd
  | pinf => rfl
  | fin q =>
    have hq : epsQ ≤ q := by simpa [farPos] using hd
    rw [div_one_far q (le_trans hq (le_abs_self q)), le_fin_fin]
    exact le_of_lt (one_div_pos.2 (by linarith))

theorem recip_nonpos (d : Dbl) (hd : farNeg d = true) :
    Dbl.le (div (fin 1) d) (fin 0) = true := by
  have he := epsQ_pos
  cases d with
  | nan => simp [farNeg] at hd
  | pinf => simp [farNeg] at hd
  | ninf => rfl
  | fin q =>
    have hq : q ≤ -epsQ := by simpa [farNeg] using hd
    rw [div_one_far q (le_trans (le_neg_of_le_neg hq) (neg_le_abs q)), le_fin_fin]
    exact le_of_lt (one_div_neg.2 (by linarith))

/-- A point within `EPS` of zero is, for `leq`, at most every bound that is at least
zero. -/
theorem leq_tiny (x : ℚ) (d : Dbl) (hx : |x| < epsQ) (hd : Dbl.le (fin 0) d = true) :
    leq (fin x) d = true := by
  have h := abs_lt.1 hx
  cases d with
  | nan => simp [Dbl.le] at hd
  | ninf => simp [Dbl.le] at hd
  | pinf => exact leq_fin_pinf x
  | fin r =>
    rw [le_fin_fin] at hd
    rw [leq_fin_fin]
    linarith

/-- A point within `EPS` of zero is, for `geq`, at least every bound that is at most
zero. -/
theorem geq_tiny (x : ℚ) (d : Dbl) (hx : |x| < epsQ) (hd : Dbl.le d (fin 0) = true) :
    geq (fin x) d = true := by
  have h := abs_lt.1 hx
  cases d with
  | nan => simp [Dbl.le] at hd
  | pinf => simp [Dbl.le] at hd
  | ninf => exact geq_fin_ninf x
  | fin r =>
    rw [le_fin_fin] at hd
    rw [geq_fin_fin]
    linarith

/-- The enclosure of `inverse` at a point `x` so close to zero that its reciprocal
overflows: the value `w` then has an infinite member, and zero is a bound of each part of
`inverse w` that the point is compared with. -/
theorem inverse_contains_tiny (f s : Dbl) (fl : Bool) (x : ℚ) (hx : |x| < epsQ)
    (hf : f = fin 0 ∨ farPos f = true ∨ farNeg f = true)
    (hs : s = fin 0 ∨ farPos s = true ∨ farNeg s = true)
    (hw : (fl = false ∧ Dbl.le f s = true) ∨ (fl = true ∧ Dbl.lt s f = true))
    (hm : member ⟨f, s, fl⟩ pinf = true ∨ member ⟨f, s, fl⟩ ninf = true) :
    in_wartosc (inverse ⟨f, s, fl⟩) (fin x) = true := by
  have he := epsQ_pos
  have hz := eq_zero_zero
  have h00 : Dbl.le (fin 0) (fin 0) = true := by simp [Dbl.le]
  -- the infinite member, for a value that is not flipped
  have hb : fl = false → s = pinf ∨ f = ninf := by
    rintro rfl
    rcases hm with hm | hm
    · have h := (member_bounded hm).2
      left
      cases s <;> simp [Dbl.le] at h ⊢
    · have h := (member_bounded hm).1
      right
      cases f <;> simp [Dbl.le] at h ⊢
  rcases hf with rfl | hf | hf <;> rcases hs with rfl | hs | hs
  · -- both endpoints zero
    rcases hw with ⟨rfl, _⟩ | ⟨rfl, h⟩
    · rcases hb rfl with h | h <;> simp at h
    · simp [Dbl.lt] at h
  · -- first zero, second positive
    rw [inverse_first_zero _ _ _ hz (farPos_eq s hs).1]
    rcases hw with ⟨rfl, _⟩ | ⟨rfl, h⟩
    · rcases hb rfl with rfl | h
      · exact in_wartosc_bounded_of rfl (geq_tiny x _ hx h00) (leq_fin_pinf _)
      · simp at h
    · rw [lt_farPos_zero s hs] at h
      exact absurd h (by decide)
  · -- first zero, second negative
    rw [inverse_first_zero _ _ _ hz (farNeg_eq s hs).1]
    exact in_wartosc_bounded_of (recip_isnan s (farNeg_ne_nan s hs))
      (geq_tiny x _ hx (recip_nonpos s hs)) (leq_fin_pinf _)
  · -- first positive, second zero
    rw [inverse_second_zero _ _ _ (farPos_eq f hf).1 hz]
    exact in_wartosc_bounded_of rfl (geq_fin_ninf _) (leq_tiny x _ hx (recip_nonneg f hf))
  · -- both positive
    rw [inverse_same_sign f s fl (farPos_eq f hf).1 (farPos_eq s hs).1
      (by rw [(farPos_eq f hf).2, (farPos_eq s hs).2]; rfl)]
    have hn := recip_isnan s (farPos_ne_nan s hs)
    rcases hw with ⟨rfl, _⟩ | ⟨rfl, _⟩
    · rcases hb rfl with rfl | rfl
      · exact in_wartosc_bounded_of rfl (geq_tiny x _ hx h00)
          (leq_tiny x _ hx (recip_nonneg f hf))
      · simp [farPos] at hf
    · exact in_wartosc_flipped_of hn (Or.inr (leq_tiny x _ hx (recip_nonneg f hf)))
  · -- first positive, second negative
    have hsg : sgn f * sgn s = -1 := by rw [(farPos_eq f hf).2, (farNeg_eq s hs).2]; rfl
    apply in_inverse_opposite f s fl _ (farPos_eq f hf).1 (farNeg_eq s hs).1 hsg
    have hn := recip_isnan s (farNeg_ne_nan s hs)
    rcases hw with ⟨rfl, h⟩ | ⟨rfl, _⟩
    · rw [le_farPos_farNeg f s hf hs] at h
      exact absurd h (by decide)
    · exact in_wartosc_bounded_of hn (geq_tiny x _ hx (recip_nonpos s hs))
        (leq_tiny x _ hx (recip_nonneg f hf))
  · -- first negative, second zero
    rw [inverse_second_zero _ _ _ (farNeg_eq f hf).1 hz]
    rcases hw with ⟨rfl, _⟩ | ⟨rfl, h⟩
    · rcases hb rfl with h | rfl
      · simp at h
      · exact in_wartosc_bounded_of rfl (geq_fin_ninf _) (leq_tiny x _ hx h00)
    · rw [lt_zero_farNeg f hf] at h
      exact absurd h (by decide)
  · -- first negative, second positive
    have hsg : sgn f * sgn s = -1 := by rw [(farNeg_eq f hf).2, (farPos_eq s hs).2]; rfl
    apply in_inverse_opposite f s fl _ (farNeg_eq f hf).1 (farPos_eq s hs).1 hsg
    have hn := recip_isnan s (farPos_ne_nan s hs)
    rcases hw with ⟨rfl, _⟩ | ⟨rfl, h⟩
    · rcases hb rfl with rfl | rfl
      · exact in_wartosc_flipped_of rfl (Or.inl (geq_tiny x _ hx h00))
      · exact in_wartosc_flipped_of hn (Or.inr (leq_tiny x _ hx h00))
    · rw [lt_farPos_farNeg f s hf hs] at h
      exact absurd h (by decide)
  · -- both negative
    rw [inverse_same_sign f s fl (farNeg_eq f hf).1 (farNeg_eq s hs).1
      (by rw [(farNeg_eq f hf).2, (farNeg_eq s hs).2]; rfl)]
    have hn := recip_isnan s (farNeg_ne_nan s hs)
    rcases hw with ⟨rfl, _⟩ | ⟨rfl, _⟩
    · rcases hb rfl with rfl | rfl
      · simp [farNeg] at hs
      · exact in_wartosc_bounded_of hn (geq_tiny x _ hx (recip_nonpos s hs))
          (leq_tiny x _ hx h00)
    · exact in_wartosc_flipped_of hn (Or.inl (geq_tiny x _ hx (recip_nonpos s hs)))

/-- A non-zero `x` whose reciprocal reaches the overflow threshold is within `EPS` of
zero. -/
theorem abs_lt_of_recip_overflow (x : ℚ) (hx : x ≠ 0) (h : maxQ ≤ 1 / x ∨ 1 / x ≤ -maxQ) :
    |x| < epsQ := by
  have hm : 1 / epsQ < maxQ := by norm_num [epsQ, maxQ]
  have he := epsQ_pos
  have hr : 1 / epsQ < |1 / x| := by
    rcases h with h | h
    · exact lt_of_lt_of_le (lt_of_lt_of_le hm h) (le_abs_self _)
    · exact lt_of_lt_of_le (by linarith) (neg_le_abs _)
  rw [abs_div, abs_one] at hr
  have hpos : 0 < |x| := abs_pos.2 hx
  exact (one_div_lt_one_div he hpos).1 hr

/-- C6 (amended). For every well-formed non-empty `w` (bounded with `first <= second`, or
flipped with `second < first` and the endpoints not within `EPS` of each other) each of
whose endpoints is exactly zero or not within `EPS` of zero, and every finite non-zero `x`
whose reciprocal belongs to the set `w` denotes (exact bounds), `in_wartosc (inverse w) x`
is true. -/
theorem inverse_contains_reciprocals (w : wartosc) (x : ℚ)
    (hw : wfBounded w = true ∨ wfComplementExt w = true)
    (h1 : zeroExactOrFar w.first = true) (h2 : zeroExactOrFar w.second = true)
    (hx : x ≠ 0) (hm : member w (div (fin 1) (fin x)) = true) :
    in_wartosc (inverse w) (fin x) = true := by
  rcases w with ⟨f, s, fl⟩
  have hn : f ≠ nan ∧ s ≠ nan ∧
      ((fl = false ∧ Dbl.le f s = true) ∨ (fl = true ∧ Dbl.lt s f = true)) := by
    rcases hw with hw | hw
    · simp only [wfBounded, Bool.and_eq_true, Bool.not_eq_true', isnan_false_iff] at hw
      exact ⟨hw.1.1.2, hw.1.2, Or.inl ⟨hw.1.1.1, hw.2⟩⟩
    · simp only [wfComplementExt, Bool.and_eq_true, Bool.not_eq_true'] at hw
      refine ⟨?_, ?_, Or.inr ⟨hw.1.1, hw.1.2⟩⟩
      · rintro rfl
        cases s <;> simp [Dbl.lt] at hw
      · rintro rfl
        simp [Dbl.lt] at hw
  rw [div_one_fin x hx] at hm
  rcases finOp_cases 1 x (1 / x) with ⟨ho, he⟩ | ⟨ho, he⟩ | he <;> rw [he] at hm
  · exact inverse_contains_tiny f s fl x (abs_lt_of_recip_overflow x hx (Or.inl ho))
      (endpoint_cases f hn.1 h1) (endpoint_cases s hn.2.1 h2) hn.2.2 (Or.inl hm)
  · exact inverse_contains_tiny f s fl x (abs_lt_of_recip_overflow x hx (Or.inr ho))
      (endpoint_cases f hn.1 h1) (endpoint_cases s hn.2.1 h2) hn.2.2 (Or.inr hm)
  · have h := inverse_contains_aux f s fl (1 / x) (one_div_ne_zero hx)
      (endpoint_cases f hn.1 h1) (endpoint_cases s hn.2.1 h2) hn.2.2 hm
    rwa [one_div_one_div] at h

/-- Witness of C6 (amended): `w = [-200, 100]` (`test.c`, line 111) and `x = 1/100`. -/
theorem inverse_contains_reciprocals_witness :
    in_wartosc (inverse ⟨fin (-200), fin 100, false⟩) (fin (1 / 100)) = true :=
  inverse_contains_reciprocals ⟨fin (-200), fin 100, false⟩ (1 / 100)
    (Or.inl (by simp [wfBounded, Dbl.isnan, Dbl.le]; norm_num))
    (by simp [zeroExactOrFar, eq_fin_fin, epsQ]; norm_num [le_abs])
    (by simp [zeroExactOrFar, eq_fin_fin, epsQ]; norm_num [le_abs])
    (by norm_num)
    (by rw [div_one_far _ (by norm_num [epsQ, le_abs])]; simp [member, Dbl.isnan, Dbl.le]; norm_num)

/-! ## The sum -/

/-- A lower bound of `x` and a lower bound of `y` add up to a lower bound of `x + y`
that is not NaN, when `x + y` is below the overflow threshold. -/
theorem geq_add_of_le (a b : Dbl) (x y : ℚ) (ha : Dbl.le a (fin x) = true)
    (hb : Dbl.le b (fin y) = true) (hz : x + y < maxQ) :
    (add a b).isnan = false ∧ geq (fin (x + y)) (add a b) = true := by
  apply geq_of_le
  cases a <;> cases b <;> simp [Dbl.le] at ha hb
  all_goals first
    | rfl
    | exact finOp_le_fin _ _ _ _ (by linarith) hz

/-- An upper bound of `x` and an upper bound of `y` add up to an upper bound of `x + y`
that is not NaN, when `x + y` is above the negative overflow threshold. -/
theorem leq_add_of_le (a b : Dbl) (x y : ℚ) (ha : Dbl.le (fin x) a = true)
    (hb : Dbl.le (fin y) b = true) (hz : -maxQ < x + y) :
    (add a b).isnan = false ∧ leq (fin (x + y)) (add a b) = true := by
  have h : Dbl.le (fin (x + y)) (add a b) = true := by
    cases a <;> cases b <;> simp [Dbl.le] at ha hb
    all_goals first
      | rfl
      | exact fin_le_finOp _ _ _ _ (by linarith) hz
  refine ⟨?_, leq_of_le _ _ h⟩
  cases hab : add a b <;> simp [hab, Dbl.le, Dbl.isnan] at h ⊢

/-- The sum of a bounded value and a flipped one contains the sums of their members that
do not overflow. -/
theorem plus_mixed (a1 a2 b1 b2 : Dbl) (x y : ℚ)
    (hx : Dbl.le a1 (fin x) = true ∧ Dbl.le (fin x) a2 = true)
    (hy : Dbl.le b1 (fin y) = true ∨ Dbl.le (fin y) b2 = true)
    (hb1 : b1.isFinite = true) (hz : -maxQ < x + y ∧ x + y < maxQ) :
    (if leq (add a1 b1) (add a2 b2) then in_wartosc ⟨ninf, pinf, false⟩ (fin (x + y))
      else in_wartosc ⟨add a1 b1, add a2 b2, true⟩ (fin (x + y))) = true := by
  split
  · exact in_wartosc_full _
  · rcases hy with hy | hy
    · obtain ⟨h1, h2⟩ := geq_add_of_le a1 b1 x y hx.1 hy hz.2
      exact in_wartosc_flipped_of h1 (Or.inl h2)
    · obtain ⟨_, h2⟩ := leq_add_of_le a2 b2 x y hx.2 hy hz.1
      have h1 : (add a1 b1).isnan = false := by
        cases a1 <;> cases b1 <;> simp [Dbl.le, Dbl.isFinite] at hx hb1 <;>
          first
            | rfl
            | exact finOp_isnan _ _ _
      exact in_wartosc_flipped_of h1 (Or.inr h2)

/-- C7 (counterexample). `a = [2^1023, 2^1023]` is a well-formed bounded value and
`x = 2^1023` belongs to it; the sum `x + x` overflows to `+inf`, `plus a a` is
`[+inf, +inf]`, and `in_wartosc` of it at `x + x` is false (`inf - inf` is NaN). -/
theorem plus_contains_counterexample :
    wfBounded ⟨fin (2 ^ 1023), fin (2 ^ 1023), false⟩ = true ∧
    member ⟨fin (2 ^ 1023), fin (2 ^ 1023), false⟩ (fin (2 ^ 1023)) = true ∧
    add (fin (2 ^ 1023)) (fin (2 ^ 1023)) = pinf ∧
    plus ⟨fin (2 ^ 1023), fin (2 ^ 1023), false⟩ ⟨fin (2 ^ 1023), fin (2 ^ 1023), false⟩
      = ⟨pinf, pinf, false⟩ ∧
    in_wartosc ⟨pinf, pinf, false⟩ pinf = false := by
  have h : add (fin (2 ^ 1023)) (fin (2 ^ 1023)) = pinf := by
    rw [add_fin_fin, finOp_pinf _ _ _ (by norm_num [dblMax]) (by norm_num [dblMax])
      (by norm_num [maxQ])]
  refine ⟨?_, ?_, h, ?_, ?_⟩
  · simp [wfBounded, Dbl.isnan, Dbl.le]
  · simp [member, Dbl.isnan, Dbl.le]
  · simp [plus, h]
  · simp [in_wartosc, Dbl.isnan, geq, leq, Dbl.gt, Dbl.lt, eq_pinf_left]

/-- C7 (amended). For all well-formed non-empty `a` and `b` (each a bounded value with
`first <= second` or a complement with finite endpoints) and all finite `x`, `y` such that
`x` belongs to the set `a` denotes and `y` to the set `b` denotes (exact bounds) and the
sum `x + y` is finite (it does not overflow), `in_wartosc (plus a b) (x + y)` is true. -/
theorem plus_contains_sums (a b : wartosc) (x y : ℚ)
    (ha : wfBounded a = true ∨ wfComplement a = true)
    (hb : wfBounded b = true ∨ wfComplement b = true)
    (hx : member a (fin x) = true) (hy : member b (fin y) = true)
    (hfin : (ovf (x + y)).isFinite = true) :
    in_wartosc (plus a b) (add (fin x) (fin y)) = true := by
  rcases a with ⟨a1, a2, fa⟩
  rcases b with ⟨b1, b2, fb⟩
  obtain ⟨hz1, hz2⟩ := ovf_isFinite _ hfin
  rw [add_fin_fin, finOp_eq _ _ _ hz1 hz2]
  cases fa <;> cases fb
  · -- both bounded
    have hx2 := member_bounded hx
    have hy2 := member_bounded hy
    obtain ⟨h1, h2⟩ := geq_add_of_le a1 b1 x y hx2.1 hy2.1 hz2
    obtain ⟨_, h4⟩ := leq_add_of_le a2 b2 x y hx2.2 hy2.2 hz1
    simpa [plus] using in_wartosc_bounded_of h1 h2 h4
  · -- `a` bounded, `b` flipped
    have hx2 := member_bounded hx
    have hy2 := member_flipped hy
    have hb1 : b1.isFinite = true := by
      simp [wfBounded, wfComplement] at hb
      exact hb.1.1.1
    have h := plus_mixed a1 a2 b1 b2 x y hx2 hy2 hb1 ⟨hz1, hz2⟩
    simp only [plus, Bool.false_and, Bool.false_or, Bool.true_and, Bool.or_true,
      Bool.false_eq_true, if_false]
    split at h <;> simp_all
  · -- `a` flipped, `b` bounded
    have hx2 := member_flipped hx
    have hy2 := member_bounded hy
    have ha1 : a1.isFinite = true := by
      simp [wfBounded, wfComplement] at ha
      exact ha.1.1.1
    have h := plus_mixed b1 b2 a1 a2 y x hy2 hx2 ha1 (by constructor <;> linarith)
    rw [dadd_comm b1 a1, dadd_comm b2 a2, add_comm y x] at h
    simp only [plus, Bool.and_false, Bool.true_or, Bool.true_and, Bool.or_false,
      Bool.false_eq_true, if_false]
    split at h <;> simp_all
  · -- both flipped
    simpa [plus] using in_wartosc_full (x + y)

/-- Witness of C7 (amended): the complement of `(-100, 100)` plus `[1, 1]` (`test.c`,
line 233), at `x = 100` and `y = 1`. -/
theorem plus_contains_sums_witness :
    in_wartosc (plus ⟨fin 100, fin (-100), true⟩ ⟨fin 1, fin 1, false⟩)
      (add (fin 100) (fin 1)) = true :=
  plus_contains_sums ⟨fin 100, fin (-100), true⟩ ⟨fin 1, fin 1, false⟩ 100 1
    (Or.inr (by simp [wfComplement, Dbl.isFinite, Dbl.lt, eq_fin_fin, epsQ]; norm_num [le_abs]))
    (Or.inl (by simp [wfBounded, Dbl.isnan, Dbl.le]))
    (by simp [member, Dbl.isnan, Dbl.le])
    (by simp [member, Dbl.isnan, Dbl.le])
    (by rw [ovf_eq _ (by norm_num [maxQ]) (by norm_num [maxQ])]; rfl)

/-! ## The product -/

/-- Scaling a member `x` of `[a1, a2]` by a finite `c`: one of the scaled endpoints is a
lower bound of `x * c`, unless the interval is the full line. -/
theorem scale_lower (a1 a2 : Dbl) (x c : ℚ) (h1 : Dbl.le a1 (fin x) = true)
    (h2 : Dbl.le (fin x) a2 = true) (hnf : ¬ (a1 = ninf ∧ a2 = pinf))
    (hz : x * c < maxQ) :
    Dbl.le (mul a1 (fin c)) (fin (x * c)) = true ∨
    Dbl.le (mul a2 (fin c)) (fin (x * c)) = true := by
  cases a1 with
  | nan => simp [Dbl.le] at h1
  | pinf => simp [Dbl.le] at h1
  | ninf =>
    cases a2 with
    | nan => simp [Dbl.le] at h2
    | ninf => simp [Dbl.le] at h2
    | pinf => exact absurd ⟨rfl, rfl⟩ hnf
    | fin p2 =>
      rw [le_fin_fin] at h2
      rcases lt_or_le 0 c with hc | hc
      · left
        rw [mul_ninf_fin, infTimes_neg _ (by linarith)]
        rfl
      · right
        exact finOp_le_fin _ _ _ _ (mul_le_mul_of_nonpos_right h2 hc) hz
  | fin p1 =>
    rw [le_fin_fin] at h1
    cases a2 with
    | nan => simp [Dbl.le] at h2
    | ninf => simp [Dbl.le] at h2
    | pinf =>
      rcases lt_or_le c 0 with hc | hc
      · right
        rw [mul_pinf_fin, infTimes_neg _ hc]
        rfl
      · left
        exact finOp_le_fin _ _ _ _ (mul_le_mul_of_nonneg_right h1 hc) hz
    | fin p2 =>
      rw [le_fin_fin] at h2
      rcases lt_or_le c 0 with hc | hc
      · right
        exact finOp_le_fin _ _ _ _ (mul_le_mul_of_nonpos_right h2 (le_of_lt hc)) hz
      · left
        exact finOp_le_fin _ _ _ _ (mul_le_mul_of_nonneg_right h1 hc) hz

/-- Scaling a member `x` of `[a1, a2]` by a finite `c`: one of the scaled endpoints is an
upper bound of `x * c`, unless the interval is the full line. -/
theorem scale_upper (a1 a2 : Dbl) (x c : ℚ) (h1 : Dbl.le a1 (fin x) = true)
    (h2 : Dbl.le (fin x) a2 = true) (hnf : ¬ (a1 = ninf ∧ a2 = pinf))
    (hz : -maxQ < x * c) :
    Dbl.le (fin (x * c)) (mul a1 (fin c)) = true ∨
    Dbl.le (fin (x * c)) (mul a2 (fin c)) = true := by
  cases a1 with
  | nan => simp [Dbl.le] at h1
  | pinf => simp [Dbl.le] at h1
  | ninf =>
    cases a2 with
    | nan => simp [Dbl.le] at h2
    | ninf => simp [Dbl.le] at h2
    | pinf => exact absurd ⟨rfl, rfl⟩ hnf
    | fin p2 =>
      rw [le_fin_fin] at h2
      rcases lt_or_le c 0 with hc | hc
      · left
        rw [mul_ninf_fin, infTimes_pos _ (by linarith)]
        rfl
      · right
        exact fin_le_finOp _ _ _ _ (mul_le_mul_of_nonneg_right h2 hc) hz
  | fin p1 =>
    rw [le_fin_fin] at h1
    cases a2 with
    | nan => simp [Dbl.le] at h2
    | ninf => simp [Dbl.le] at h2
    | pinf =>
      rcases lt_or_le 0 c with hc | hc
      · right
        rw [mul_pinf_fin, infTimes_pos _ hc]
        rfl
      · left
        exact fin_le_finOp _ _ _ _ (mul_le_mul_of_nonpos_right h1 hc) hz
    | fin p2 =>
      rw [le_fin_fin] at h2
      rcases lt_or_le c 0 with hc | hc
      · left
        exact fin_le_finOp _ _ _ _ (mul_le_mul_of_nonpos_right h1 (le_of_lt hc)) hz
      · right
        exact fin_le_finOp _ _ _ _ (mul_le_mul_of_nonneg_right h2 hc) hz

/-- Replacing the member `y` of `[b1, b2]` by an endpoint in a product with `d` that is
at most `z`: one of the two products with an endpoint is at most `z`. -/
theorem spread_lower (d b1 b2 : Dbl) (y z : ℚ) (h1 : Dbl.le b1 (fin y) = true)
    (h2 : Dbl.le (fin y) b2 = true) (hnf : ¬ (b1 = ninf ∧ b2 = pinf))
    (h : Dbl.le (mul d (fin y)) (fin z) = true) (hz : -maxQ < z ∧ z < maxQ) :
    Dbl.le (mul d b1) (fin z) = true ∨ Dbl.le (mul d b2) (fin z) = true := by
  cases d with
  | nan => simp [Dbl.mul, Dbl.le] at h
  | ninf =>
    have hy : 0 < y := by
      have := infTimes_le _ _ h
      linarith
    right
    cases b2 with
    | nan => simp [Dbl.le] at h2
    | ninf => simp [Dbl.le] at h2
    | pinf => rfl
    | fin q =>
      rw [le_fin_fin] at h2
      rw [mul_ninf_fin, infTimes_neg _ (by linarith)]
      rfl
  | pinf =>
    have hy : y < 0 := infTimes_le _ _ h
    left
    cases b1 with
    | nan => simp [Dbl.le] at h1
    | pinf => simp [Dbl.le] at h1
    | ninf => rfl
    | fin q =>
      rw [le_fin_fin] at h1
      rw [mul_pinf_fin, infTimes_neg _ (by linarith)]
      rfl
  | fin p =>
    have hyp : y * p ≤ z := by
      have := le_of_finOp_le_fin _ _ _ _ h hz.1
      linarith [mul_comm p y]
    rcases scale_lower b1 b2 y p h1 h2 hnf (by linarith) with h3 | h3
    · left
      rw [dmul_comm]
      exact le_fin_trans _ _ _ h3 hyp
    · right
      rw [dmul_comm]
      exact le_fin_trans _ _ _ h3 hyp

/-- Replacing the member `y` of `[b1, b2]` by an endpoint in a product with `d` that is
at least `z`: one of the two products with an endpoint is at least `z`. -/
theorem spread_upper (d b1 b2 : Dbl) (y z : ℚ) (h1 : Dbl.le b1 (fin y) = true)
    (h2 : Dbl.le (fin y) b2 = true) (hnf : ¬ (b1 = ninf ∧ b2 = pinf))
    (h : Dbl.le (fin z) (mul d (fin y)) = true) (hz : -maxQ < z ∧ z < maxQ) :
    Dbl.le (fin z) (mul d b1) = true ∨ Dbl.le (fin z) (mul d b2) = true := by
  cases d with
  | nan => simp [Dbl.mul, Dbl.le] at h
  | ninf =>
    have hy : y < 0 := by
      have := le_infTimes _ _ h
      linarith
    left
    cases b1 with
    | nan => simp [Dbl.le] at h1
    | pinf => simp [Dbl.le] at h1
    | ninf => rfl
    | fin q =>
      rw [le_fin_fin] at h1
      rw [mul_ninf_fin, infTimes_pos _ (by linarith)]
      rfl
  | pinf =>
    have hy : 0 < y := le_infTimes _ _ h
    right
    cases b2 with
    | nan => simp [Dbl.le] at h2
    | ninf => simp [Dbl.le] at h2
    | pinf => rfl
    | fin q =>
      rw [le_fin_fin] at h2
      rw [mul_pinf_fin, infTimes_pos _ (by linarith)]
      rfl
  | fin p =>
    have hyp : z ≤ y * p := by
      have := le_of_fin_le_finOp _ _ _ _ h hz.2
      linarith [mul_comm p y]
    rcases scale_upper b1 b2 y p h1 h2 hnf (by linarith) with h3 | h3
    · left
      rw [dmul_comm]
      exact fin_le_trans _ _ _ h3 hyp
    · right
      rw [dmul_comm]
      exact fin_le_trans _ _ _ h3 hyp

/-- One of the four products of endpoints is at most the product of two members. -/
theorem corner_lower (a1 a2 b1 b2 : Dbl) (x y : ℚ)
    (ha1 : Dbl.le a1 (fin x) = true) (ha2 : Dbl.le (fin x) a2 = true)
    (hb1 : Dbl.le b1 (fin y) = true) (hb2 : Dbl.le (fin y) b2 = true)
    (ha : ¬ (a1 = ninf ∧ a2 = pinf)) (hb : ¬ (b1 = ninf ∧ b2 = pinf))
    (hz : -maxQ < x * y ∧ x * y < maxQ) :
    (Dbl.le (mul a1 b1) (fin (x * y)) = true ∨ Dbl.le (mul a1 b2) (fin (x * y)) = true) ∨
    (Dbl.le (mul a2 b1) (fin (x * y)) = true ∨ Dbl.le (mul a2 b2) (fin (x * y)) = true) := by
  rcases scale_lower a1 a2 x y ha1 ha2 ha hz.2 with h | h
  · exact Or.inl (spread_lower a1 b1 b2 y _ hb1 hb2 hb h hz)
  · exact Or.inr (spread_lower a2 b1 b2 y _ hb1 hb2 hb h hz)

/-- One of the four products of endpoints is at least the product of two members. -/
theorem corner_upper (a1 a2 b1 b2 : Dbl) (x y : ℚ)
    (ha1 : Dbl.le a1 (fin x) = true) (ha2 : Dbl.le (fin x) a2 = true)
    (hb1 : Dbl.le b1 (fin y) = true) (hb2 : Dbl.le (fin y) b2 = true)
    (ha : ¬ (a1 = ninf ∧ a2 = pinf)) (hb : ¬ (b1 = ninf ∧ b2 = pinf))
    (hz : -maxQ < x * y ∧ x * y < maxQ) :
    (Dbl.le (fin (x * y)) (mul a1 b1) = true ∨ Dbl.le (fin (x * y)) (mul a1 b2) = true) ∨
    (Dbl.le (fin (x * y)) (mul a2 b1) = true ∨ Dbl.le (fin (x * y)) (mul a2 b2) = true) := by
  rcases scale_upper a1 a2 x y ha1 ha2 ha hz.1 with h | h
  · exact Or.inl (spread_upper a1 b1 b2 y _ hb1 hb2 hb h hz)
  · exact Or.inr (spread_upper a2 b1 b2 y _ hb1 hb2 hb h hz)

/-- The product of two bounded values, neither of them the full line, contains the
products of their members. -/
theorem mult_not_flipped_contains (a1 a2 b1 b2 : Dbl) (x y : ℚ)
    (ha1 : Dbl.le a1 (fin x) = true) (ha2 : Dbl.le (fin x) a2 = true)
    (hb1 : Dbl.le b1 (fin y) = true) (hb2 : Dbl.le (fin y) b2 = true)
    (ha : ¬ (a1 = ninf ∧ a2 = pinf)) (hb : ¬ (b1 = ninf ∧ b2 = pinf))
    (hz : -maxQ < x * y ∧ x * y < maxQ) :
    ∃ r, mult_not_flipped ⟨a1, a2, false⟩ ⟨b1, b2, false⟩ = some r ∧
      in_wartosc r (fin (x * y)) = true := by
  refine ⟨_, rfl, ?_⟩
  have hlo : Dbl.le (Ary.min (Ary.min (Ary.min (Ary.min nan (mul a1 b1)) (mul a1 b2))
      (mul a2 b1)) (mul a2 b2)) (fin (x * y)) = true := by
    rcases corner_lower a1 a2 b1 b2 x y ha1 ha2 hb1 hb2 ha hb hz with (h | h) | (h | h)
    · exact min_le_left _ _ _ (min_le_left _ _ _ (min_le_left _ _ _ (min_le_right _ _ _ h)))
    · exact min_le_left _ _ _ (min_le_left _ _ _ (min_le_right _ _ _ h))
    · exact min_le_left _ _ _ (min_le_right _ _ _ h)
    · exact min_le_right _ _ _ h
  have hhi : Dbl.le (fin (x * y)) (Ary.max (Ary.max (Ary.max (Ary.max nan (mul a1 b1))
      (mul a1 b2)) (mul a2 b1)) (mul a2 b2)) = true := by
    rcases corner_upper a1 a2 b1 b2 x y ha1 ha2 hb1 hb2 ha hb hz with (h | h) | (h | h)
    · exact le_max_left _ _ _ (le_max_left _ _ _ (le_max_left _ _ _ (le_max_right _ _ _ h)))
    · exact le_max_left _ _ _ (le_max_left _ _ _ (le_max_right _ _ _ h))
    · exact le_max_left _ _ _ (le_max_right _ _ _ h)
    · exact le_max_right _ _ _ h
  obtain ⟨hn, hg⟩ := geq_of_le _ _ hlo
  exact in_wartosc_bounded_of hn hg (leq_of_le _ _ hhi)

/-- The product of two complements with finite endpoints contains the products of their
members that do not overflow. -/
theorem mult_both_flipped_contains (a1 a2 b1 b2 x y : ℚ)
    (hx : a1 ≤ x ∨ x ≤ a2) (hy : b1 ≤ y ∨ y ≤ b2) (hz : -maxQ < x * y ∧ x * y < maxQ) :
    ∃ r, mult_both_flipped ⟨fin a1, fin a2, true⟩ ⟨fin b1, fin b2, true⟩ = some r ∧
      in_wartosc r (fin (x * y)) = true := by
  have he := epsQ_pos
  cases h0 : (in_wartosc ⟨fin a1, fin a2, true⟩ (fin 0) ||
      in_wartosc ⟨fin b1, fin b2, true⟩ (fin 0))
  · rw [Bool.or_eq_false_iff] at h0
    obtain ⟨ha1, ha2⟩ := in_wartosc_fin_zero a1 a2 h0.1
    obtain ⟨hb1, hb2⟩ := in_wartosc_fin_zero b1 b2 h0.2
    refine ⟨⟨Ary.min (mul (fin a1) (fin b1)) (mul (fin a2) (fin b2)),
      Ary.max (mul (fin a1) (fin b2)) (mul (fin a2) (fin b1)), true⟩,
      by simp [mult_both_flipped, h0.1, h0.2], ?_⟩
    have hn : (Ary.min (mul (fin a1) (fin b1)) (mul (fin a2) (fin b2))).isnan = false :=
      min_isnan_left _ _ (finOp_isnan _ _ _)
    apply in_wartosc_flipped_of hn
    rcases hx with hx | hx <;> rcases hy with hy | hy
    · left
      refine (geq_of_le _ _ (min_le_left _ _ _ (finOp_le_fin _ _ _ _ ?_ hz.2))).2
      nlinarith [mul_nonneg (sub_nonneg.2 hx) (le_of_lt (lt_of_lt_of_le he hb1)),
        mul_nonneg (sub_nonneg.2 hy) (le_trans (le_of_lt (lt_of_lt_of_le he ha1)) hx)]
    · right
      refine leq_of_le _ _ (le_max_left _ _ _ (fin_le_finOp _ _ _ _ ?_ hz.1))
      nlinarith [mul_nonneg (sub_nonneg.2 hx) (sub_nonneg.2 hy),
        mul_nonneg (sub_nonneg.2 hy) (le_of_lt (lt_of_lt_of_le he ha1))]
    · right
      refine leq_of_le _ _ (le_max_right _ _ _ (fin_le_finOp _ _ _ _ ?_ hz.1))
      nlinarith [mul_nonneg (sub_nonneg.2 hx) (sub_nonneg.2 hy),
        mul_nonneg (sub_nonneg.2 hx) (le_of_lt (lt_of_lt_of_le he hb1))]
    · left
      refine (geq_of_le _ _ (min_le_right _ _ _ (finOp_le_fin _ _ _ _ ?_ hz.2))).2
      nlinarith [mul_nonneg (sub_nonneg.2 hx) (sub_nonneg.2 hy),
        mul_nonneg (sub_nonneg.2 hx) (show (0 : ℚ) ≤ -b2 by linarith),
        mul_nonneg (sub_nonneg.2 hy) (show (0 : ℚ) ≤ -a2 by linarith)]
  · exact ⟨⟨ninf, pinf, false⟩, by simp [mult_both_flipped, h0], in_wartosc_full _⟩

/-- The formula of `mult_one_flipped` on normalised operands: the bounded operand
`[a1, a2]` has a positive upper endpoint, the first endpoint `b1` of the complement is
positive. Either the candidate endpoints overlap (zero separates them), or the candidate
complement contains the product, when the product does not overflow. -/
theorem one_flipped_core (a1 a2 : Dbl) (b1 b2 x y : ℚ)
    (hx1 : Dbl.le a1 (fin x) = true) (hx2 : Dbl.le (fin x) a2 = true)
    (ha : ¬ (a1 = ninf ∧ a2 = pinf)) (ha2 : Dbl.lt (fin 0) a2 = true) (hb1 : 0 < b1)
    (hy : b1 ≤ y ∨ y ≤ b2) (hz : -maxQ < x * y ∧ x * y < maxQ) :
    leq (Ary.min (mul a1 (fin b1)) (mul a2 (fin b1)))
        (Ary.max (mul a1 (fin b2)) (mul a2 (fin b2))) = true ∨
    ((Ary.max (mul a1 (fin b2)) (mul a2 (fin b2))).isnan = false ∧
      in_wartosc ⟨Ary.min (mul a1 (fin b1)) (mul a2 (fin b1)),
        Ary.max (mul a1 (fin b2)) (mul a2 (fin b2)), true⟩ (fin (x * y)) = true) := by
  have hm := maxQ_pos
  have hm' : -maxQ < 0 := by linarith
  cases a1 with
  | nan => simp [Dbl.le] at hx1
  | pinf => simp [Dbl.le] at hx1
  | ninf =>
    cases a2 with
    | nan => simp [Dbl.le] at hx2
    | ninf => simp [Dbl.le] at hx2
    | pinf => exact absurd ⟨rfl, rfl⟩ ha
    | fin p2 =>
      left
      have hp2 : 0 < p2 := by simpa [Dbl.lt] using ha2
      have h1 : Dbl.le (mul ninf (fin b1)) (fin 0) = true := by
        rw [mul_ninf_fin, infTimes_neg _ (by linarith)]
        rfl
      rcases lt_or_le b2 0 with hb | hb
      · refine leq_of_sep _ _ 0 0 (min_le_left _ _ _ h1) (le_max_left _ _ _ ?_) le_rfl
        rw [mul_ninf_fin, infTimes_pos _ (by linarith)]
        rfl
      · exact leq_of_sep _ _ 0 0 (min_le_left _ _ _ h1)
          (le_max_right _ _ _ (fin_le_finOp _ _ _ _ (mul_nonneg (le_of_lt hp2) hb) hm')) le_rfl
  | fin p1 =>
    rw [le_fin_fin] at hx1
    rcases lt_or_le p1 0 with hp | hp
    · left
      have hz1 : p1 * b1 < 0 := mul_neg_of_neg_of_pos hp hb1
      have h1 : Dbl.le (mul (fin p1) (fin b1)) (fin 0) = true :=
        finOp_le_fin _ _ _ _ (le_of_lt hz1) hm
      rcases le_or_lt b2 0 with hb | hb
      · exact leq_of_sep _ _ 0 0 (min_le_left _ _ _ h1)
          (le_max_left _ _ _ (fin_le_finOp _ _ _ _
            (mul_nonneg_of_nonpos_of_nonpos (le_of_lt hp) hb) hm')) le_rfl
      · cases a2 with
        | nan => simp [Dbl.le] at hx2
        | ninf => simp [Dbl.le] at hx2
        | pinf =>
          refine leq_of_sep _ _ 0 0 (min_le_left _ _ _ h1) (le_max_right _ _ _ ?_) le_rfl
          rw [mul_pinf_fin, infTimes_pos _ hb]
          rfl
        | fin p2 =>
          have hp2 : 0 < p2 := by simpa [Dbl.lt] using ha2
          exact leq_of_sep _ _ 0 0 (min_le_left _ _ _ h1)
            (le_max_right _ _ _ (fin_le_finOp _ _ _ _ (le_of_lt (mul_pos hp2 hb)) hm')) le_rfl
    · right
      have hx0 : 0 ≤ x := le_trans hp hx1
      refine ⟨max_isnan_left _ _ (finOp_isnan _ _ _),
        in_wartosc_flipped_of (min_isnan_left _ _ (finOp_isnan _ _ _)) ?_⟩
      rcases hy with hy | hy
      · left
        refine (geq_of_le _ _ (min_le_left _ _ _ (finOp_le_fin _ _ _ _ ?_ hz.2))).2
        nlinarith [mul_nonneg (sub_nonneg.2 hx1) (le_of_lt hb1),
          mul_nonneg hx0 (sub_nonneg.2 hy)]
      · right
        rcases le_or_lt b2 0 with hb | hb
        · refine leq_of_le _ _ (le_max_left _ _ _ (fin_le_finOp _ _ _ _ ?_ hz.1))
          nlinarith [mul_nonneg hx0 (sub_nonneg.2 hy),
            mul_nonneg (sub_nonneg.2 hx1) (neg_nonneg.2 hb)]
        · cases a2 with
          | nan => simp [Dbl.le] at hx2
          | ninf => simp [Dbl.le] at hx2
          | pinf =>
            refine leq_of_le _ _ (le_max_right _ _ _ ?_)
            rw [mul_pinf_fin, infTimes_pos _ hb]
            rfl
          | fin p2 =>
            rw [le_fin_fin] at hx2
            refine leq_of_le _ _ (le_max_right _ _ _ (fin_le_finOp _ _ _ _ ?_ hz.1))
            nlinarith [mul_nonneg hx0 (sub_nonneg.2 hy),
              mul_nonneg (sub_nonneg.2 hx2) (le_of_lt hb)]

/-- Normalisation of the bounded operand of `mult_one_flipped`. -/
theorem normalise_bounded (a1 a2 : Dbl) (x : ℚ) (hx1 : Dbl.le a1 (fin x) = true)
    (hx2 : Dbl.le (fin x) a2 = true)
    (hz : ¬ (eq a1 (fin 0) = true ∧ eq a2 (fin 0) = true)) :
    (is_all_negative ⟨a1, a2, false⟩ = false ∧ Dbl.lt (fin 0) a2 = true) ∨
    (is_all_negative ⟨a1, a2, false⟩ = true ∧
      negative ⟨a1, a2, false⟩ = ⟨neg a2, neg a1, false⟩ ∧
      Dbl.lt (fin 0) (neg a1) = true ∧ Dbl.le (neg a2) (fin (-x)) = true ∧
      Dbl.le (fin (-x)) (neg a1) = true ∧ neg a2 ≠ ninf) := by
  have he := epsQ_pos
  cases a1 with
  | nan => simp [Dbl.le] at hx1
  | pinf => simp [Dbl.le] at hx1
  | ninf =>
    cases a2 with
    | nan => simp [Dbl.le] at hx2
    | ninf => simp [Dbl.le] at hx2
    | pinf =>
      left
      simp [is_all_negative, leq, Dbl.lt, eq_pinf_left]
    | fin p2 =>
      rw [le_fin_fin] at hx2
      rcases lt_or_le p2 epsQ with hp | hp
      · right
        refine ⟨?_, ?_, ?_, ?_, ?_, ?_⟩
        · simp [is_all_negative, leq_ninf_fin, leq_fin_zero, hp]
        · simp [negative, Dbl.isnan]
        · rfl
        · simpa [Dbl.neg, Dbl.le] using hx2
        · rfl
        · simp [Dbl.neg]
      · left
        constructor
        · simp [is_all_negative, leq_ninf_fin]
          rw [Bool.eq_false_iff, Ne, leq_fin_zero]
          linarith
        · simp [Dbl.lt]
          linarith
  | fin p1 =>
    rw [le_fin_fin] at hx1
    cases a2 with
    | nan => simp [Dbl.le] at hx2
    | ninf => simp [Dbl.le] at hx2
    | pinf =>
      left
      simp [is_all_negative, leq, Dbl.lt, eq_pinf_left]
    | fin p2 =>
      rw [le_fin_fin] at hx2
      rcases lt_or_le p2 epsQ with hp | hp
      · right
        have hp1 : p1 < 0 := by
          by_contra hc
          apply hz
          rw [eq_fin_zero, eq_fin_zero]
          simp only [decide_eq_true_eq, abs_lt]
          push_neg at hc
          exact ⟨⟨by linarith, by linarith⟩, ⟨by linarith, by linarith⟩⟩
        refine ⟨?_, ?_, ?_, ?_, ?_, ?_⟩
        · have h1 : leq (fin p1) (fin 0) = true := (leq_fin_zero p1).2 (by linarith)
          have h2 : leq (fin p2) (fin 0) = true := (leq_fin_zero p2).2 hp
          simp [is_all_negative, h1, h2]
        · simp [negative, Dbl.isnan]
        · simp [Dbl.neg, Dbl.lt]
          exact hp1
        · simpa [Dbl.neg, Dbl.le] using hx2
        · simpa [Dbl.neg, Dbl.le] using hx1
        · simp [Dbl.neg]
      · left
        constructor
        · simp only [is_all_negative, Bool.and_eq_false_iff]
          right
          rw [Bool.eq_false_iff, Ne, leq_fin_zero]
          linarith
        · simp [Dbl.lt]
          linarith

/-- Normalisation of the flipped operand of `mult_one_flipped`. -/
theorem normalise_flipped (b1 b2 : ℚ) (hgap : b2 + epsQ ≤ b1) :
    (is_all_negative ⟨fin b1, fin b2, true⟩ = false ∧ 0 < b1) ∨
    (is_all_negative ⟨fin b1, fin b2, true⟩ = true ∧
      negative ⟨fin b1, fin b2, true⟩ = ⟨fin (-b2), fin (-b1), true⟩ ∧ 0 < -b2) := by
  have he := epsQ_pos
  rcases lt_or_le b1 epsQ with hp | hp
  · right
    have h1 : leq (fin b1) (fin 0) = true := (leq_fin_zero b1).2 hp
    have h2 : leq (fin b2) (fin 0) = true := (leq_fin_zero b2).2 (by linarith)
    refine ⟨by simp [is_all_negative, h1, h2], by simp [negative, Dbl.isnan, Dbl.neg], ?_⟩
    linarith
  · left
    constructor
    · simp only [is_all_negative, Bool.and_eq_false_iff]
      left
      rw [Bool.eq_false_iff, Ne, leq_fin_zero]
      linarith
    · linarith

/-- The body of `mult_one_flipped` contains the products of the members of a bounded
operand (not the zero point, not the full line) and of a complement with finite
endpoints. -/
theorem mult_one_flipped_body_contains (a1 a2 : Dbl) (b1 b2 x y : ℚ)
    (hx1 : Dbl.le a1 (fin x) = true) (hx2 : Dbl.le (fin x) a2 = true)
    (hz : ¬ (eq a1 (fin 0) = true ∧ eq a2 (fin 0) = true))
    (hnf : ¬ (a1 = ninf ∧ a2 = pinf)) (hgap : b2 + epsQ ≤ b1) (hy : b1 ≤ y ∨ y ≤ b2)
    (hxy : -maxQ < x * y ∧ x * y < maxQ) :
    in_wartosc (mult_one_flipped_body ⟨a1, a2, false⟩ ⟨fin b1, fin b2, true⟩)
      (fin (x * y)) = true := by
  have hxy1 : -maxQ < x * -y ∧ x * -y < maxQ := by constructor <;> linarith [hxy.1, hxy.2]
  have hxy2 : -maxQ < -x * y ∧ -x * y < maxQ := by constructor <;> linarith [hxy.1, hxy.2]
  have hxy3 : -maxQ < -x * -y ∧ -x * -y < maxQ := by constructor <;> linarith [hxy.1, hxy.2]
  rcases normalise_bounded a1 a2 x hx1 hx2 hz with ⟨hna, ha2⟩ | ⟨hna, hneg, ha2, hx1n, hx2n, hnn⟩ <;>
    rcases normalise_flipped b1 b2 hgap with ⟨hnb, hb1⟩ | ⟨hnb, hnegb, hb1⟩
  · -- no operand negated
    have hc := one_flipped_core a1 a2 b1 b2 x y hx1 hx2 hnf ha2 hb1 hy hxy
    simp only [mult_one_flipped_body, hna, hnb, Bool.false_eq_true, if_false]
    split
    · exact in_wartosc_full _
    · rcases hc with hc | hc
      · contradiction
      · simpa using hc.2
  · -- the complement negated
    have hy' : -b2 ≤ -y ∨ -y ≤ -b1 := by
      rcases hy with h | h
      · exact Or.inr (by linarith)
      · exact Or.inl (by linarith)
    have hc := one_flipped_core a1 a2 (-b2) (-b1) x (-y) hx1 hx2 hnf ha2 hb1 hy' hxy1
    simp only [mult_one_flipped_body, hna, hnb, hnegb, Bool.false_eq_true, if_false, if_true]
    split
    · exact in_wartosc_full _
    · rcases hc with hc | hc
      · contradiction
      · have h := in_wartosc_negative _ _ _ hc.1 hc.2
        have hxy : -(x * -y) = x * y := by ring
        rw [hxy] at h
        simpa using h
  · -- the bounded operand negated
    have hnf' : ¬ (neg a2 = ninf ∧ neg a1 = pinf) := fun h => hnn h.1
    have hc := one_flipped_core (neg a2) (neg a1) b1 b2 (-x) y hx1n hx2n hnf' ha2 hb1 hy hxy2
    simp only [mult_one_flipped_body, hna, hnb, hneg, Bool.false_eq_true, if_false, if_true]
    split
    · exact in_wartosc_full _
    · rcases hc with hc | hc
      · contradiction
      · have h := in_wartosc_negative _ _ _ hc.1 hc.2
        have hxy : -(-x * y) = x * y := by ring
        rw [hxy] at h
        simpa using h
  · -- both operands negated
    have hnf' : ¬ (neg a2 = ninf ∧ neg a1 = pinf) := fun h => hnn h.1
    have hy' : -b2 ≤ -y ∨ -y ≤ -b1 := by
      rcases hy with h | h
      · exact Or.inr (by linarith)
      · exact Or.inl (by linarith)
    have hc := one_flipped_core (neg a2) (neg a1) (-b2) (-b1) (-x) (-y) hx1n hx2n hnf' ha2
      hb1 hy' hxy3
    simp only [mult_one_flipped_body, hna, hnb, hneg, hnegb, Bool.false_eq_true, if_false,
      if_true]
    split
    · exact in_wartosc_full _
    · rcases hc with hc | hc
      · contradiction
      · have hxy : -x * -y = x * y := by ring
        rw [hxy] at hc
        simpa using hc.2

/-- An operand that passes `zeroPointOrFar` and trips the zero-point guard is the zero
point, so its only member is zero. -/
theorem member_zero_point (w : wartosc) (x : ℚ) (hz : zeroPointOrFar w = true)
    (hg : (eq w.first (fin 0) && eq w.second (fin 0)) = true)
    (hx : member w (fin x) = true) : x = 0 := by
  simp only [zeroPointOrFar, hg, Bool.not_true, Bool.false_or, beq_iff_eq] at hz
  subst hz
  have h := member_bounded hx
  rw [le_fin_fin, le_fin_fin] at h
  exact le_antisymm h.2 h.1

/-- C8 (counterexample). Two failures. `a = [0, 1/2^34]` and `b = [2^34, 2^34]` are
well-formed bounded values, `x = 1/2^34` belongs to `a` and `y = 2^34` to `b`; both
endpoints of `a` are within `EPS` of zero, so `razy a b` is `(0, 0, false)`, which does not
contain `x * y = 1`. And `c = [2^1023, 2^1023]` and the complement `d` of `(-2, 2)` are
well-formed, no endpoint is within `EPS` of zero, `2^1023` belongs to `c` and `2` to `d`;
the products with `2^1023` overflow, `razy c d` is `(+inf, -inf, true)`, and `in_wartosc`
of it at `2^1023 * 2 = +inf` is false. -/
theorem razy_contains_counterexample :
    wfBounded ⟨fin 0, fin (1 / 2 ^ 34), false⟩ = true ∧
    wfBounded ⟨fin (2 ^ 34), fin (2 ^ 34), false⟩ = true ∧
    member ⟨fin 0, fin (1 / 2 ^ 34), false⟩ (fin (1 / 2 ^ 34)) = true ∧
    member ⟨fin (2 ^ 34), fin (2 ^ 34), false⟩ (fin (2 ^ 34)) = true ∧
    mul (fin (1 / 2 ^ 34)) (fin (2 ^ 34)) = fin 1 ∧
    razy ⟨fin 0, fin (1 / 2 ^ 34), false⟩ ⟨fin (2 ^ 34), fin (2 ^ 34), false⟩
      = some ⟨fin 0, fin 0, false⟩ ∧
    in_wartosc ⟨fin 0, fin 0, false⟩ (fin 1) = false ∧
    wfBounded ⟨fin (2 ^ 1023), fin (2 ^ 1023), false⟩ = true ∧
    wfComplement ⟨fin 2, fin (-2), true⟩ = true ∧
    zeroPointOrFar ⟨fin (2 ^ 1023), fin (2 ^ 1023), false⟩ = true ∧
    zeroPointOrFar ⟨fin 2, fin (-2), true⟩ = true ∧
    member ⟨fin (2 ^ 1023), fin (2 ^ 1023), false⟩ (fin (2 ^ 1023)) = true ∧
    member ⟨fin 2, fin (-2), true⟩ (fin 2) = true ∧
    mul (fin (2 ^ 1023)) (fin 2) = pinf ∧
    razy ⟨fin (2 ^ 1023), fin (2 ^ 1023), false⟩ ⟨fin 2, fin (-2), true⟩
      = some ⟨pinf, ninf, true⟩ ∧
    in_wartosc ⟨pinf, ninf, true⟩ pinf = false := by
  have hp : mul (fin (2 ^ 1023)) (fin 2) = pinf := by
    rw [mul_fin_fin, finOp_pinf _ _ _ (by norm_num [dblMax]) (by norm_num [dblMax])
      (by norm_num [maxQ])]
  have hn : mul (fin (2 ^ 1023)) (fin (-2)) = ninf := by
    rw [mul_fin_fin, finOp_ninf _ _ _ (by norm_num [dblMax]) (by norm_num [dblMax])
      (by norm_num [maxQ])]
  have hna : is_all_negative ⟨fin (2 ^ 1023), fin (2 ^ 1023), false⟩ = false := by
    rw [Bool.eq_false_iff]
    simp [is_all_negative, leq_fin_fin, epsQ]
    norm_num
  have hnb : is_all_negative ⟨fin 2, fin (-2), true⟩ = false := by
    rw [Bool.eq_false_iff]
    simp [is_all_negative, leq_fin_fin, epsQ]
    norm_num
  have hbody : mult_one_flipped_body ⟨fin (2 ^ 1023), fin (2 ^ 1023), false⟩
      ⟨fin 2, fin (-2), true⟩ = ⟨pinf, ninf, true⟩ := by
    simp [mult_one_flipped_body, hna, hnb, hp, hn, Ary.min, Ary.max, Dbl.isnan, Dbl.lt, leq,
      eq_pinf_left]
  refine ⟨?_, ?_, ?_, ?_, ?_, ?_, ?_, ?_, ?_, ?_, ?_, ?_, ?_, hp, ?_, ?_⟩
  · simp [wfBounded, Dbl.isnan, Dbl.le]
  · simp [wfBounded, Dbl.isnan, Dbl.le]
  · simp [member, Dbl.isnan, Dbl.le]
  · simp [member, Dbl.isnan, Dbl.le]
  · rw [mul_fin_fin, finOp_eq _ _ _ (by norm_num [maxQ]) (by norm_num [maxQ])]
    norm_num
  · simp [razy, zeroGuard, Dbl.isnan, eq_fin_fin, epsQ]
    norm_num [abs_lt]
  · simp [in_wartosc, Dbl.isnan, geq, leq, Dbl.gt, Dbl.lt, eq_fin_fin, epsQ]
    norm_num [abs_lt, le_abs]
  · simp [wfBounded, Dbl.isnan, Dbl.le]
  · exact (wfComplement_iff _).2 ⟨2, -2, rfl, by norm_num [epsQ]⟩
  · simp [zeroPointOrFar, eq_fin_fin, epsQ]
    norm_num [le_abs]
  · simp [zeroPointOrFar, eq_fin_fin, epsQ]
    norm_num [le_abs]
  · simp [member, Dbl.isnan, Dbl.le]
  · simp [member, Dbl.isnan, Dbl.le]
  · simp [razy, zeroGuard, fullGuard_eq, mult_one_flipped, swap, eq_fin_fin, Dbl.isnan,
      hbody, epsQ]
    norm_num [abs_lt]
  · simp [in_wartosc, Dbl.isnan, geq, leq, Dbl.gt, Dbl.lt, eq_pinf_left]

/-- C8 (amended). For all well-formed non-empty `a` and `b` (each a bounded value with
`first <= second` or a complement with finite endpoints) such that an operand whose two
endpoints are within `EPS` of zero is the zero point `(0, 0, false)` itself, and all finite
`x`, `y` such that `x` belongs to the set `a` denotes and `y` to the set `b` denotes (exact
bounds) and the product `x * y` is finite (it does not overflow), `razy a b` returns a
value and `in_wartosc` of it at `x * y` is true. -/
theorem razy_contains_products (a b : wartosc) (x y : ℚ)
    (ha : wfBounded a = true ∨ wfComplement a = true)
    (hb : wfBounded b = true ∨ wfComplement b = true)
    (hza : zeroPointOrFar a = true) (hzb : zeroPointOrFar b = true)
    (hx : member a (fin x) = true) (hy : member b (fin y) = true)
    (hfin : (ovf (x * y)).isFinite = true) :
    ∃ r, razy a b = some r ∧ in_wartosc r (mul (fin x) (fin y)) = true := by
  obtain ⟨hz1, hz2⟩ := ovf_isFinite _ hfin
  rw [mul_fin_fin, finOp_eq _ _ _ hz1 hz2]
  have hz : -maxQ < x * y ∧ x * y < maxQ := ⟨hz1, hz2⟩
  have hna : a.first.isnan = false := by
    cases h : a.first.isnan
    · rfl
    · simp [member, h] at hx
  have hnb : b.first.isnan = false := by
    cases h : b.first.isnan
    · rfl
    · simp [member, h] at hy
  cases hzg : zeroGuard a b
  · -- the zero-point guard does not fire
    have hzg' := hzg
    simp only [zeroGuard, Bool.or_eq_false_iff] at hzg'
    have hza' : ¬ (eq a.first (fin 0) = true ∧ eq a.second (fin 0) = true) := by
      intro h
      simp [h.1, h.2] at hzg'
    have hzb' : ¬ (eq b.first (fin 0) = true ∧ eq b.second (fin 0) = true) := by
      intro h
      simp [h.1, h.2] at hzg'
    by_cases hfull : (a.first = ninf ∧ a.second = pinf) ∨ (b.first = ninf ∧ b.second = pinf)
    · exact ⟨⟨ninf, pinf, false⟩, by simp [razy, hna, hnb, hzg, fullGuard_eq, hfull],
        in_wartosc_full _⟩
    · have hfa : ¬ (a.first = ninf ∧ a.second = pinf) := fun h => hfull (Or.inl h)
      have hfb : ¬ (b.first = ninf ∧ b.second = pinf) := fun h => hfull (Or.inr h)
      have hr : razy a b =
          if (a.is_flipped && b.is_flipped) = true then mult_both_flipped a b
          else if (a.is_flipped || b.is_flipped) = true then mult_one_flipped a b
          else mult_not_flipped a b := by
        simp [razy, hna, hnb, hzg, fullGuard_eq, hfull]
      rw [hr]
      rcases ha with ha | ha <;> rcases hb with hb | hb
      · -- both bounded
        rcases a with ⟨a1, a2, fa⟩
        rcases b with ⟨b1, b2, fb⟩
        obtain ⟨rfl, _, _, _⟩ := (wfBounded_iff _ _ _).1 ha
        obtain ⟨rfl, _, _, _⟩ := (wfBounded_iff _ _ _).1 hb
        have hx' := member_bounded hx
        have hy' := member_bounded hy
        simpa using mult_not_flipped_contains a1 a2 b1 b2 x y hx'.1 hx'.2 hy'.1 hy'.2 hfa hfb hz
      · -- `a` bounded, `b` flipped
        rcases a with ⟨a1, a2, fa⟩
        obtain ⟨rfl, _, _, _⟩ := (wfBounded_iff _ _ _).1 ha
        obtain ⟨q1, q2, rfl, hgap⟩ := (wfComplement_iff _).1 hb
        have hx' := member_bounded hx
        have hy' : q1 ≤ y ∨ y ≤ q2 := by
          simpa [le_fin_fin] using member_flipped hy
        refine ⟨mult_one_flipped_body ⟨a1, a2, false⟩ ⟨fin q1, fin q2, true⟩,
          by simp [mult_one_flipped], ?_⟩
        exact mult_one_flipped_body_contains a1 a2 q1 q2 x y hx'.1 hx'.2 hza' hfa hgap hy' hz
      · -- `a` flipped, `b` bounded
        rcases b with ⟨b1, b2, fb⟩
        obtain ⟨rfl, _, _, _⟩ := (wfBounded_iff _ _ _).1 hb
        obtain ⟨p1, p2, rfl, hgap⟩ := (wfComplement_iff _).1 ha
        have hy' := member_bounded hy
        have hx' : p1 ≤ x ∨ x ≤ p2 := by
          simpa [le_fin_fin] using member_flipped hx
        refine ⟨mult_one_flipped_body ⟨b1, b2, false⟩ ⟨fin p1, fin p2, true⟩,
          by simp [mult_one_flipped, swap], ?_⟩
        rw [mul_comm x y] at hz ⊢
        exact mult_one_flipped_body_contains b1 b2 p1 p2 y x hy'.1 hy'.2 hzb' hfb hgap hx' hz
      · -- both flipped
        obtain ⟨p1, p2, rfl, _⟩ := (wfComplement_iff _).1 ha
        obtain ⟨q1, q2, rfl, _⟩ := (wfComplement_iff _).1 hb
        have hx' : p1 ≤ x ∨ x ≤ p2 := by
          simpa [le_fin_fin] using member_flipped hx
        have hy' : q1 ≤ y ∨ y ≤ q2 := by
          simpa [le_fin_fin] using member_flipped hy
        simpa using mult_both_flipped_contains p1 p2 q1 q2 x y hx' hy' hz
  · -- the zero-point guard fires: one operand is the zero point
    refine ⟨⟨fin 0, fin 0, false⟩, by simp [razy, hna, hnb, hzg], ?_⟩
    have hxy : x * y = 0 := by
      simp only [zeroGuard, Bool.or_eq_true] at hzg
      rcases hzg with h | h
      · rw [member_zero_point a x hza h hx, zero_mul]
      · rw [member_zero_point b y hzb h hy, mul_zero]
    rw [hxy]
    exact in_wartosc_zero_point

/-- Witness of C8 (amended): the complement of `(-99, 101)` times the complement of
`(-100, 98)` (`test.c`, line 253), at `x = 101` and `y = 98`. -/
theorem razy_contains_products_witness :
    ∃ r, razy ⟨fin 101, fin (-99), true⟩ ⟨fin 98, fin (-100), true⟩ = some r ∧
      in_wartosc r (mul (fin 101) (fin 98)) = true :=
  razy_contains_products ⟨fin 101, fin (-99), true⟩ ⟨fin 98, fin (-100), true⟩ 101 98
    (Or.inr ((wfComplement_iff _).2 ⟨101, -99, rfl, by norm_num [epsQ]⟩))
    (Or.inr ((wfComplement_iff _).2 ⟨98, -100, rfl, by norm_num [epsQ]⟩))
    (by simp [zeroPointOrFar, eq_fin_fin, epsQ]; norm_num [le_abs])
    (by simp [zeroPointOrFar, eq_fin_fin, epsQ]; norm_num [le_abs])
    (by simp [member, Dbl.isnan, Dbl.le])
    (by simp [member, Dbl.isnan, Dbl.le])
    (by rw [ovf_eq _ (by norm_num [maxQ]) (by norm_num [maxQ])]; rfl)

/-! ## The midpoint -/

/-- Halving does not produce a NaN. -/
theorem div_two_ne_nan (d : Dbl) (h : d ≠ nan) : div d (fin 2) ≠ nan := by
  cases d with
  | nan => exact absurd rfl h
  | ninf => simp [Dbl.div]
  | pinf => simp [Dbl.div]
  | fin a =>
    have h2 : div (fin a) (fin 2) = finOp a 2 (a / 2) := by simp [Dbl.div]
    rw [h2]
    exact finOp_ne_nan _ _ _

/-- C9 (counterexample). For the canonical empty value `sr_wartosc` is NaN, while
`min_wartosc` is NaN and not `-inf`. -/
theorem sr_wartosc_nan_counterexample :
    sr_wartosc ⟨nan, nan, false⟩ = some nan ∧
    min_wartosc ⟨nan, nan, false⟩ = some nan ∧
    ¬ (sr_wartosc ⟨nan, nan, false⟩ = some nan ↔
      (min_wartosc ⟨nan, nan, false⟩ = some ninf ∧
        max_wartosc ⟨nan, nan, false⟩ = some pinf)) := by
  simp [sr_wartosc, min_wartosc, max_wartosc, is_inf, Dbl.isnan, Dbl.isinf, Dbl.add, Dbl.div]

/-- C9 (amended). For every `w` whose first field is not NaN and that is flipped or has
`first <= second`, `sr_wartosc w` is NaN if and only if `min_wartosc w` is `-inf` and
`max_wartosc w` is `+inf`. -/
theorem sr_wartosc_nan_iff (w : wartosc) (h : w.first ≠ nan)
    (hw : w.is_flipped = true ∨ Dbl.le w.first w.second = true) :
    sr_wartosc w = some nan ↔ (min_wartosc w = some ninf ∧ max_wartosc w = some pinf) := by
  rcases w with ⟨f, s, fl⟩
  cases fl
  · have hle : Dbl.le f s = true := by simpa using hw
    cases f <;> cases s <;>
      simp [sr_wartosc, min_wartosc, max_wartosc, is_inf_neg, is_inf_pos, Dbl.isnan, Dbl.add,
        Dbl.div, Dbl.le] at h hle ⊢
    exact div_two_ne_nan _ (finOp_ne_nan _ _ _)
  · cases f <;>
      simp [sr_wartosc, min_wartosc, max_wartosc, is_inf_neg, is_inf_pos, Dbl.isnan] at h ⊢

/-- Witness of C9 (amended): the full line, whose midpoint is NaN. -/
theorem sr_wartosc_nan_iff_witness :
    sr_wartosc fullW = some nan ↔ (min_wartosc fullW = some ninf ∧ max_wartosc fullW = some pinf) :=
  sr_wartosc_nan_iff fullW (by simp [fullW]) (Or.inr (by simp [fullW, Dbl.le]))

/-! ## The negation -/

/-- C10 (counterexample). `w = (1, NaN, false)` is not flipped and its first field is not
NaN; `negative w` has a NaN first field, so `negative (negative w)` is the canonical empty
value, whose first field is not within `EPS` of `1`. -/
theorem negative_involution_counterexample :
    (⟨fin 1, nan, false⟩ : wartosc).first ≠ nan ∧
    (⟨fin 1, nan, false⟩ : wartosc).is_flipped = false ∧
    negative (negative ⟨fin 1, nan, false⟩) = ⟨nan, nan, false⟩ ∧
    eq (negative (negative ⟨fin 1, nan, false⟩)).first (fin 1) = false := by
  simp [negative, Dbl.isnan, Dbl.neg, eq_nan_left]

/-- C10 (amended). For every `w`, flipped or not, whose two endpoints are not NaN,
`negative (negative w)` is `w` itself: the same first, second and `is_flipped`. -/
theorem negative_involution (w : wartosc) (h1 : w.first ≠ nan) (h2 : w.second ≠ nan) :
    negative (negative w) = w := by
  rcases w with ⟨f, s, fl⟩
  have hf : f.isnan = false := (isnan_false_iff _).2 h1
  have hs : (neg s).isnan = false :=
    (isnan_false_iff _).2 (fun hc => h2 ((neg_eq_nan_iff s).1 hc))
  simp [negative, hf, hs, dneg_neg]

/-- Witness of C10 (amended): the complement of `(-1/200, 1/100)`. -/
theorem negative_involution_witness :
    negative (negative ⟨fin (1 / 100), fin (-1 / 200), true⟩)
      = ⟨fin (1 / 100), fin (-1 / 200), true⟩ :=
  negative_involution ⟨fin (1 / 100), fin (-1 / 200), true⟩ (by simp) (by simp)


/-! ## The constructors -/

/-- The percentage `100 + p` of a finite `p > 0` does not overflow. -/
theorem add_hundred (q : ℚ) (hq : 0 < q) : add (fin 100) (fin q) = fin (100 + q) := by
  rw [add_fin_fin]
  unfold finOp
  split
  · rename_i h
    simp only [inRange, Bool.and_eq_true, decide_eq_true_eq] at h
    have h2 := (abs_le.1 h.2).2
    have h3 : dblMax + 100 < maxQ := by norm_num [dblMax, maxQ]
    exact ovf_eq _ (by linarith [maxQ_pos]) (by linarith)
  · rfl

/-- The quotient of a finite value by `100` does not overflow. -/
theorem div_hundred (v : ℚ) : div (fin v) (fin 100) = fin (v / 100) := by
  have h0 : div (fin v) (fin 100) = finOp v 100 (v / 100) := by simp [Dbl.div]
  rw [h0]
  unfold finOp
  split
  · rename_i h
    simp only [inRange, Bool.and_eq_true, decide_eq_true_eq] at h
    have h2 := abs_le.1 h.1
    have h3 := dblMax_lt_maxQ
    have h4 : (0 : ℚ) < dblMax := by norm_num [dblMax]
    exact ovf_eq _ (by linarith) (by linarith)
  · rfl

/-- A candidate endpoint of `wartosc_dokladnosc`, for the finite percentage `c`: the
product `x * c` overflows, or the candidate is `x * c / 100`. -/
theorem candidate_cases (x c : ℚ) :
    (maxQ ≤ x * c ∧ div (mul (fin x) (fin c)) (fin 100) = pinf) ∨
    (x * c ≤ -maxQ ∧ div (mul (fin x) (fin c)) (fin 100) = ninf) ∨
    div (mul (fin x) (fin c)) (fin 100) = fin (x * c / 100) := by
  rw [mul_fin_fin]
  rcases finOp_cases x c (x * c) with ⟨h1, h⟩ | ⟨h1, h⟩ | h <;> rw [h]
  · exact Or.inl ⟨h1, by simp [Dbl.div]⟩
  · exact Or.inr (Or.inl ⟨h1, by simp [Dbl.div]⟩)
  · exact Or.inr (Or.inr (div_hundred _))

theorem candidate_isnan (x c : ℚ) : (div (mul (fin x) (fin c)) (fin 100)).isnan = false := by
  rcases candidate_cases x c with ⟨_, h⟩ | ⟨_, h⟩ | h <;> rw [h] <;> rfl

theorem min_isnan_right (a b : Dbl) (h : b.isnan = false) : (Ary.min a b).isnan = false := by
  cases a <;> cases b <;> simp [Ary.min, Dbl.isnan, Dbl.lt] at h ⊢
  split_ifs <;> rfl

/-- The second candidate endpoint of `wartosc_dokladnosc` is not NaN. -/
theorem dokladnosc_second_candidate (x p : Dbl) (hx : x ≠ nan)
    (hp : Dbl.gt p (fin 0) = true) (hxp : ¬ (x = fin 0 ∧ p = pinf)) :
    (div (mul x (add (fin 100) p)) (fin 100)).isnan = false := by
  cases p with
  | nan => simp [Dbl.gt, Dbl.lt] at hp
  | ninf => simp [Dbl.gt, Dbl.lt] at hp
  | pinf =>
    cases x with
    | nan => exact absurd rfl hx
    | ninf => rfl
    | pinf => rfl
    | fin r =>
      have hr : r ≠ 0 := fun h => hxp ⟨by rw [h], rfl⟩
      rcases lt_or_gt_of_ne hr with h | h
      · simp [Dbl.add, Dbl.mul, infTimes_neg r h, Dbl.div, Dbl.isnan]
      · simp [Dbl.add, Dbl.mul, infTimes_pos r h, Dbl.div, Dbl.isnan]
  | fin q =>
    have hq : 0 < q := by simpa [Dbl.gt, Dbl.lt] using hp
    cases x with
    | nan => exact absurd rfl hx
    | ninf =>
      have h : mul ninf (add (fin 100) (fin q)) = ninf := by
        rw [add_hundred q hq, mul_ninf_fin, infTimes_neg _ (by linarith)]
      rw [h]
      simp [Dbl.div, Dbl.isnan]
    | pinf =>
      have h : mul pinf (add (fin 100) (fin q)) = pinf := by
        rw [add_hundred q hq, mul_pinf_fin, infTimes_pos _ (by linarith)]
      rw [h]
      simp [Dbl.div, Dbl.isnan]
    | fin r =>
      rw [add_hundred q hq]
      exact candidate_isnan r (100 + q)

/-- C12 (counterexample). `wartosc_dokladna` accepts every double; for NaN it returns
`(NaN, NaN, false)`, whose first field is NaN: an empty value. -/
theorem constructors_counterexample :
    wartosc_dokladna nan = ⟨nan, nan, false⟩ ∧ (wartosc_dokladna nan).first = nan :=
  ⟨rfl, rfl⟩

/-- C12 (amended). A constructor applied to an input that its precondition accepts returns
a value that is not flipped and whose first field is not NaN, provided the nominal value `x`
of `wartosc_dokladna` and of `wartosc_dokladnosc` is not NaN and `wartosc_dokladnosc` is not
applied to `x = 0` with `p = +inf`; `wartosc_od_do` needs no proviso. -/
theorem constructors_not_empty (x y p : Dbl) :
    (x ≠ nan →
      (wartosc_dokladna x).is_flipped = false ∧ (wartosc_dokladna x).first ≠ nan) ∧
    (∀ r, wartosc_od_do x y = some r → r.is_flipped = false ∧ r.first ≠ nan) ∧
    (x ≠ nan → ¬ (x = fin 0 ∧ p = pinf) →
      ∀ r, wartosc_dokladnosc x p = some r → r.is_flipped = false ∧ r.first ≠ nan) := by
  refine ⟨fun hx => ⟨rfl, hx⟩, ?_, ?_⟩
  · intro r hr
    cases hle : Dbl.le x y
    · simp [wartosc_od_do, hle] at hr
    · simp only [wartosc_od_do, hle, if_true, Option.some.injEq] at hr
      subst hr
      refine ⟨rfl, ?_⟩
      rintro rfl
      simp [Dbl.le] at hle
  · intro hx hxp r hr
    cases hp : Dbl.gt p (fin 0)
    · simp [wartosc_dokladnosc, hp] at hr
    · simp only [wartosc_dokladnosc, hp, if_true, Option.some.injEq] at hr
      subst hr
      refine ⟨rfl, ?_⟩
      have h := min_isnan_right (div (mul x (sub (fin 100) p)) (fin 100)) _
        (dokladnosc_second_candidate x p hx hp hxp)
      exact (isnan_false_iff _).1 h

/-- Witness of C12 (amended): the three constructors at `1`, `[1, 2]` and `1 ± 100%`. -/
theorem constructors_not_empty_witness :
    ((wartosc_dokladna (fin 1)).is_flipped = false ∧ (wartosc_dokladna (fin 1)).first ≠ nan) ∧
    wartosc_od_do (fin 1) (fin 2) = some ⟨fin 1, fin 2, false⟩ ∧
    (∀ r, wartosc_dokladnosc (fin 1) (fin 100) = some r →
      r.is_flipped = false ∧ r.first ≠ nan) :=
  ⟨(constructors_not_empty (fin 1) (fin 2) (fin 100)).1 (by simp),
    by simp [wartosc_od_do, Dbl.le],
    (constructors_not_empty (fin 1) (fin 2) (fin 100)).2.2 (by simp) (by simp)⟩

/-! ## The difference -/

/-- C13. For all `a` and `b` that are not flipped and have no NaN endpoint, `minus a b` is
`plus a (negative b)` and equals `(a.first - b.second, a.second - b.first, false)`. -/
theorem minus_bounded (a b : wartosc) (ha : a.is_flipped = false) (hb : b.is_flipped = false)
    (_ha1 : a.first ≠ nan) (_ha2 : a.second ≠ nan) (hb1 : b.first ≠ nan)
    (_hb2 : b.second ≠ nan) :
    minus a b = plus a (negative b) ∧
    minus a b = ⟨sub a.first b.second, sub a.second b.first, false⟩ := by
  have hn : b.first.isnan = false := (isnan_false_iff _).2 hb1
  refine ⟨rfl, ?_⟩
  simp [minus, plus, negative, hn, ha, hb, Dbl.sub]

/-- Witness of C13: `[0, 2] - [-2, 0] = [0, 4]`, whose midpoint is `2` (`test.c`,
line 164). -/
theorem minus_bounded_witness :
    minus ⟨fin 0, fin 2, false⟩ ⟨fin (-2), fin 0, false⟩ = ⟨fin 0, fin 4, false⟩ ∧
    sr_wartosc (minus ⟨fin 0, fin 2, false⟩ ⟨fin (-2), fin 0, false⟩) = some (fin 2) := by
  have h := (minus_bounded ⟨fin 0, fin 2, false⟩ ⟨fin (-2), fin 0, false⟩ rfl rfl
    (by simp) (by simp) (by simp) (by simp)).2
  have h2 : minus ⟨fin 0, fin 2, false⟩ ⟨fin (-2), fin 0, false⟩ = ⟨fin 0, fin 4, false⟩ := by
    rw [h]
    simp (disch := norm_num) [Dbl.sub, Dbl.neg, Dbl.add, finOp_small]
    norm_num
  refine ⟨h2, ?_⟩
  rw [h2]
  simp (disch := norm_num) [sr_wartosc, max_wartosc, min_wartosc, is_inf_neg,
    is_inf_pos, Dbl.isnan, Dbl.add, Dbl.div, finOp_small]
  norm_num

/-! ## The preconditions of the constructors -/

/-- C17. `wartosc_od_do x y` fails exactly when `x <= y` is false, which includes a NaN
`x` or `y`, and otherwise returns `(x, y, false)`; `wartosc_dokladnosc x p` fails exactly
when `p > 0` is false; `wartosc_dokladna x` is `(x, x, false)`. -/
theorem constructors_fail_iff (x y p : Dbl) :
    (wartosc_od_do x y = none ↔ Dbl.le x y = false) ∧
    (wartosc_od_do x y = some ⟨x, y, false⟩ ↔ Dbl.le x y = true) ∧
    wartosc_od_do nan y = none ∧ wartosc_od_do x nan = none ∧
    (wartosc_dokladnosc x p = none ↔ Dbl.gt p (fin 0) = false) ∧
    ((∃ r, wartosc_dokladnosc x p = some r) ↔ Dbl.gt p (fin 0) = true) ∧
    wartosc_dokladna x = ⟨x, x, false⟩ := by
  refine ⟨?_, ?_, ?_, ?_, ?_, ?_, rfl⟩
  · cases h : Dbl.le x y <;> simp [wartosc_od_do, h]
  · cases h : Dbl.le x y <;> simp [wartosc_od_do, h]
  · simp [wartosc_od_do, Dbl.le]
  · cases x <;> simp [wartosc_od_do, Dbl.le]
  · cases h : Dbl.gt p (fin 0) <;> simp [wartosc_dokladnosc, h]
  · cases h : Dbl.gt p (fin 0) <;> simp [wartosc_dokladnosc, h]


/-! ## The shape of the reciprocal -/

theorem eq_false_of_sgn_ne_zero (d : Dbl) (h : sgn d ≠ 0) : eq d (fin 0) = false := by
  cases he : eq d (fin 0)
  · rfl
  · simp [sgn, he] at h

/-- C14. For every `w` that is not flipped, with `sgn w.first = -1` and `sgn w.second = 1`,
`inverse w` is the full line when `1 / w.second` and `1 / w.first` are within `EPS` of each
other, and the flipped value `(1 / w.second, 1 / w.first, true)` otherwise. -/
theorem inverse_straddle (w : wartosc) (hf : w.is_flipped = false) (h1 : sgn w.first = -1)
    (h2 : sgn w.second = 1) :
    inverse w =
      if eq (div (fin 1) w.second) (div (fin 1) w.first) then ⟨ninf, pinf, false⟩
      else ⟨div (fin 1) w.second, div (fin 1) w.first, true⟩ := by
  rcases w with ⟨f, s, fl⟩
  simp only at hf h1 h2
  subst hf
  have hf0 : eq f (fin 0) = false := eq_false_of_sgn_ne_zero f (by rw [h1]; decide)
  have hs0 : eq s (fin 0) = false := eq_false_of_sgn_ne_zero s (by rw [h2]; decide)
  rw [inverse_far f s false hf0 hs0, h1, h2]
  simp

/-- The body of `mult_one_flipped` on finite operands neither of which is negated. -/
theorem mult_one_flipped_body_eval (a1 a2 b1 b2 : ℚ)
    (hna : is_all_negative ⟨fin a1, fin a2, false⟩ = false)
    (hnb : is_all_negative ⟨fin b1, fin b2, true⟩ = false) :
    mult_one_flipped_body ⟨fin a1, fin a2, false⟩ ⟨fin b1, fin b2, true⟩ =
      if leq (Ary.min (mul (fin a1) (fin b1)) (mul (fin a2) (fin b1)))
          (Ary.max (mul (fin a1) (fin b2)) (mul (fin a2) (fin b2))) then ⟨ninf, pinf, false⟩
      else ⟨Ary.min (mul (fin a1) (fin b1)) (mul (fin a2) (fin b1)),
        Ary.max (mul (fin a1) (fin b2)) (mul (fin a2) (fin b2)), true⟩ := by
  simp [mult_one_flipped_body, hna, hnb]

/-- Witness of C14: the reciprocal of the full line is the full line, and `1 / [-200, 100]`
is the complement of `(-1/200, 1/100)`, whose midpoint is NaN (`test.c`, line 111). -/
theorem inverse_straddle_witness :
    inverse fullW = fullW ∧
    inverse ⟨fin (-200), fin 100, false⟩ = ⟨fin (1 / 100), fin (-1 / 200), true⟩ ∧
    podzielic (wartosc_dokladna (fin 1)) ⟨fin (-200), fin 100, false⟩
      = some ⟨fin (1 / 100), fin (-1 / 200), true⟩ ∧
    sr_wartosc ⟨fin (1 / 100), fin (-1 / 200), true⟩ = some nan := by
  have hfull : inverse fullW = fullW := by
    rw [inverse_straddle fullW rfl sgn_ninf sgn_pinf]
    simp [fullW, div_one_ninf, div_one_pinf, eq_zero_zero]
  have hs1 : sgn (fin (-200)) = -1 := by
    rw [sgn_fin]
    norm_num [epsQ, abs_lt]
  have hs2 : sgn (fin 100) = 1 := by
    rw [sgn_fin]
    norm_num [epsQ, abs_lt]
  have hinv : inverse ⟨fin (-200), fin 100, false⟩
      = ⟨fin (1 / 100), fin (-1 / 200), true⟩ := by
    rw [inverse_straddle ⟨fin (-200), fin 100, false⟩ rfl hs1 hs2]
    simp only []
    rw [div_one_far 100 (by norm_num [epsQ, le_abs]),
      div_one_far (-200) (by norm_num [epsQ, le_abs])]
    simp [eq_fin_fin, epsQ]
    norm_num [abs_lt, le_abs]
  refine ⟨hfull, hinv, ?_, ?_⟩
  · have hna : is_all_negative ⟨fin 1, fin 1, false⟩ = false := by
      rw [Bool.eq_false_iff]
      simp [is_all_negative, leq_fin_fin, epsQ]
      norm_num
    have hnb : is_all_negative ⟨fin (1 / 100), fin (-1 / 200), true⟩ = false := by
      rw [Bool.eq_false_iff]
      simp [is_all_negative, leq_fin_fin, epsQ]
      norm_num
    have hm1 : mul (fin 1) (fin (1 / 100)) = fin (1 / 100) := by
      rw [mul_small _ _ (by norm_num) (by norm_num)]
      norm_num
    have hm2 : mul (fin 1) (fin (-1 / 200)) = fin (-1 / 200) := by
      rw [mul_small _ _ (by norm_num) (by norm_num)]
      norm_num
    have hl : leq (fin (1 / 100)) (fin (-1 / 200)) = false := by
      rw [Bool.eq_false_iff, ne_eq, leq_fin_fin]
      norm_num [epsQ]
    have hbody : mult_one_flipped_body ⟨fin 1, fin 1, false⟩
        ⟨fin (1 / 100), fin (-1 / 200), true⟩ = ⟨fin (1 / 100), fin (-1 / 200), true⟩ := by
      rw [mult_one_flipped_body_eval _ _ _ _ hna hnb, hm1, hm2, min_self_fin, max_self_fin, hl]
      rfl
    have hr : razy ⟨fin 1, fin 1, false⟩ ⟨fin (1 / 100), fin (-1 / 200), true⟩ =
        some (mult_one_flipped_body ⟨fin 1, fin 1, false⟩
          ⟨fin (1 / 100), fin (-1 / 200), true⟩) :=
      razy_bounded_flipped _ _ _ _ rfl rfl
        (zeroGuard_false _ _ (Or.inl (eq_zero_false 1 (by norm_num [epsQ])))
          (Or.inl (eq_zero_false (1 / 100) (by norm_num [epsQ, le_abs]))))
        (by simp) (by simp)
    rw [podzielic, hinv, wartosc_dokladna, hr, hbody]
  · simp [sr_wartosc, max_wartosc, min_wartosc, is_inf_neg, is_inf_pos, Dbl.isnan]


/-- The quotient of `[1, 2]` by `[0, h]` for a finite `h` not within `EPS` of zero. -/
theorem podzielic_snap (h : ℚ) (hh : epsQ ≤ h) :
    podzielic ⟨fin 1, fin 2, false⟩ ⟨fin 0, fin h, false⟩ = some ⟨fin (1 / h), pinf, false⟩ := by
  have he := epsQ_pos
  have hpos : 0 < h := lt_of_lt_of_le he hh
  have hh0 : eq (fin h) (fin 0) = false := by
    rw [eq_fin_zero, abs_of_pos hpos]
    simpa using hh
  have h1 : eq (fin 1) (fin 0) = false := by
    rw [eq_fin_zero]
    norm_num [epsQ]
  have hinv : inverse ⟨fin 0, fin h, false⟩ = ⟨fin (1 / h), pinf, false⟩ := by
    rw [inverse_first_zero _ _ _ eq_zero_zero hh0,
      div_one_far h (le_trans hh (le_abs_self h))]
  have hinvpos : 0 < h⁻¹ := inv_pos.2 hpos
  have hlt : h⁻¹ < 2 * h⁻¹ := by linarith
  have hle : h⁻¹ ≤ 1 / epsQ := by
    rw [← one_div]
    exact one_div_le_one_div_of_le he hh
  have hmx : 2 * (1 / epsQ) < maxQ := by norm_num [epsQ, maxQ]
  have hm := maxQ_pos
  have hm1 : finOp 1 h⁻¹ h⁻¹ = fin h⁻¹ := finOp_eq _ _ _ (by linarith) (by linarith)
  have hm2 : finOp 2 h⁻¹ (2 * h⁻¹) = fin (2 * h⁻¹) := finOp_eq _ _ _ (by linarith) (by linarith)
  rw [podzielic, hinv]
  simp [razy, zeroGuard, fullGuard_eq, Dbl.isnan, h1, eq_pinf_left, mult_not_flipped, Dbl.mul,
    infTimes, Ary.min, Ary.max, Dbl.lt, hlt, hm1, hm2]

/-- C15 (counterexample). With `h = 2^34`, which is above `EPS`, the quotient of `[1, 2]` by
`[0, h]` is `[1/2^34, +inf]`; its lower endpoint is within `EPS` of zero, so `in_wartosc` of
it at `0` is true. -/
theorem inverse_snap_counterexample :
    epsQ < 2 ^ 34 ∧
    podzielic ⟨fin 1, fin 2, false⟩ ⟨fin 0, fin (2 ^ 34), false⟩
      = some ⟨fin (1 / 2 ^ 34), pinf, false⟩ ∧
    in_wartosc ⟨fin (1 / 2 ^ 34), pinf, false⟩ (fin 0) = true := by
  refine ⟨by norm_num [epsQ], podzielic_snap (2 ^ 34) (by norm_num [epsQ]), ?_⟩
  apply @in_wartosc_bounded_of (fin (1 / 2 ^ 34)) pinf (fin 0) rfl
  · rw [geq_fin_fin]
    norm_num [epsQ]
  · exact leq_fin_pinf 0

/-- C15 (amended). For every `w` whose first field is within `EPS` of zero and whose second
field is not NaN and not within `EPS` of zero, `inverse w` is `(1 / w.second, +inf, false)`;
when the second field is within `EPS` of zero and the first is not NaN and not within `EPS`
of zero, `inverse w` is `(-inf, 1 / w.first, false)`. For every finite `h` with
`EPS < h <= 1 / EPS`, the quotient of `[1, 2]` by `[0, h]` is `[1/h, +inf]`, `in_wartosc` of
it at `0` is false and its midpoint is `+inf`. -/
theorem inverse_snap (w : wartosc) (h : ℚ) :
    (eq w.first (fin 0) = true → w.second ≠ nan → eq w.second (fin 0) = false →
      inverse w = ⟨div (fin 1) w.second, pinf, false⟩) ∧
    (eq w.second (fin 0) = true → w.first ≠ nan → eq w.first (fin 0) = false →
      inverse w = ⟨ninf, div (fin 1) w.first, false⟩) ∧
    (epsQ < h → h ≤ 1 / epsQ →
      podzielic ⟨fin 1, fin 2, false⟩ ⟨fin 0, fin h, false⟩
        = some ⟨fin (1 / h), pinf, false⟩ ∧
      in_wartosc ⟨fin (1 / h), pinf, false⟩ (fin 0) = false ∧
      sr_wartosc ⟨fin (1 / h), pinf, false⟩ = some pinf) := by
  have he := epsQ_pos
  refine ⟨fun h1 _ h2 => inverse_first_zero _ _ _ h1 h2,
    fun h1 _ h2 => inverse_second_zero _ _ _ h2 h1, fun h1 h2 => ⟨?_, ?_, ?_⟩⟩
  · exact podzielic_snap h (le_of_lt h1)
  · have hpos : 0 < h := lt_trans he h1
    have h3 : epsQ ≤ 1 / h := by
      rw [le_div_iff₀ hpos]
      have := (le_div_iff₀ he).1 h2
      linarith [mul_comm h epsQ]
    have h4 : geq (fin 0) (fin (1 / h)) = false := by
      rw [Bool.eq_false_iff, Ne, geq_fin_fin]
      linarith
    simp only [in_wartosc, Dbl.isnan, h4, Bool.false_and, Bool.false_eq_true, if_false]
  · simp [sr_wartosc, max_wartosc, min_wartosc, is_inf_neg, is_inf_pos, Dbl.isnan, Dbl.add,
      Dbl.div]

/-- Witness of C15 (amended): `[0, 31/6000]`, the divisor `j` of `test.c`, line 137. -/
theorem inverse_snap_witness :
    inverse ⟨fin 0, fin (31 / 6000), false⟩ = ⟨div (fin 1) (fin (31 / 6000)), pinf, false⟩ ∧
    inverse ⟨fin (-200), fin 0, false⟩ = ⟨ninf, div (fin 1) (fin (-200)), false⟩ ∧
    podzielic ⟨fin 1, fin 2, false⟩ ⟨fin 0, fin (31 / 6000), false⟩
      = some ⟨fin (1 / (31 / 6000)), pinf, false⟩ ∧
    in_wartosc ⟨fin (1 / (31 / 6000)), pinf, false⟩ (fin 0) = false ∧
    sr_wartosc ⟨fin (1 / (31 / 6000)), pinf, false⟩ = some pinf :=
  ⟨(inverse_snap ⟨fin 0, fin (31 / 6000), false⟩ (31 / 6000)).1 eq_zero_zero (by simp)
      (by simp [eq_fin_fin, epsQ]; norm_num [le_abs]),
    (inverse_snap ⟨fin (-200), fin 0, false⟩ (31 / 6000)).2.1 eq_zero_zero (by simp)
      (by simp [eq_fin_fin, epsQ]; norm_num [le_abs]),
    (inverse_snap ⟨fin 0, fin (31 / 6000), false⟩ (31 / 6000)).2.2 (by norm_num [epsQ])
      (by norm_num [epsQ])⟩


/-! ## Totality -/

theorem min_wartosc_total (w : wartosc) : ∃ d, min_wartosc w = some d := by
  rcases w with ⟨f, s, fl⟩
  cases f <;> cases fl <;> simp [min_wartosc, is_inf_neg, Dbl.isnan]

theorem max_wartosc_total (w : wartosc) : ∃ d, max_wartosc w = some d := by
  rcases w with ⟨f, s, fl⟩
  cases f <;> cases s <;> cases fl <;> simp [max_wartosc, is_inf_pos, Dbl.isnan]

theorem sr_wartosc_total (w : wartosc) : ∃ d, sr_wartosc w = some d := by
  obtain ⟨M, hM⟩ := max_wartosc_total w
  obtain ⟨m, hm⟩ := min_wartosc_total w
  simp only [sr_wartosc, hM, hm, is_inf_pos, is_inf_neg, Option.bind_eq_bind, Option.some_bind]
  split_ifs <;> simp

theorem razy_total (a b : wartosc) : ∃ r, razy a b = some r := by
  unfold razy
  rw [fullGuard_eq]
  simp only [Option.bind_eq_bind, Option.some_bind]
  cases ha : a.is_flipped <;> cases hb : b.is_flipped <;>
    simp [mult_both_flipped, mult_one_flipped, mult_not_flipped, ha, hb] <;>
    split_ifs <;> simp

/-- C16. For all values `a`, `b`: `razy`, `podzielic`, `min_wartosc`, `max_wartosc` and
`sr_wartosc` return a value (no assertion fails); each of the three multiplication helpers
returns a value exactly when the flags of its operands satisfy its assertion, and `is_inf`
returns a value for the signs `-1` and `1` with which it is called. The other operations
(`negative`, `plus`, `minus`, `inverse`, `in_wartosc`) contain no assertion. -/
theorem engine_total (a b : wartosc) (x : Dbl) :
    (∃ r, razy a b = some r) ∧ (∃ r, podzielic a b = some r) ∧
    (∃ d, min_wartosc a = some d) ∧ (∃ d, max_wartosc a = some d) ∧
    (∃ d, sr_wartosc a = some d) ∧
    ((mult_both_flipped a b).isSome = (a.is_flipped && b.is_flipped)) ∧
    ((mult_one_flipped a b).isSome = xor a.is_flipped b.is_flipped) ∧
    ((mult_not_flipped a b).isSome = (!a.is_flipped && !b.is_flipped)) ∧
    (∃ r, is_inf x (-1) = some r) ∧ (∃ r, is_inf x 1 = some r) := by
  refine ⟨razy_total a b, razy_total a (inverse b), min_wartosc_total a, max_wartosc_total a,
    sr_wartosc_total a, ?_, ?_, ?_, is_inf_neg_isSome x, is_inf_pos_isSome x⟩
  · cases ha : a.is_flipped <;> cases hb : b.is_flipped <;> simp [mult_both_flipped, ha, hb]
    split_ifs <;> rfl
  · cases ha : a.is_flipped <;> cases hb : b.is_flipped <;> simp [mult_one_flipped, ha, hb]
  · cases ha : a.is_flipped <;> cases hb : b.is_flipped <;> simp [mult_not_flipped, ha, hb]


/-! ## Complements with endpoints within the tolerance -/

/-- C18 (the code at the failing input). `a = (1/2^33, -1/2^33, true)` is a well-formed
complement that does not contain zero. `razy a a` takes the both-flipped path and returns
`(1/2^66, -1/2^66, true)`, a flipped value whose endpoints are within `EPS` of each other.
On the one-flipped path the same candidate endpoints are collapsed: `razy a [1/2^33, 1/2^33]`
is the full line. -/
theorem razy_both_flipped_gap :
    wfComplement ⟨fin (1 / 2 ^ 33), fin (-1 / 2 ^ 33), true⟩ = true ∧
    razy ⟨fin (1 / 2 ^ 33), fin (-1 / 2 ^ 33), true⟩ ⟨fin (1 / 2 ^ 33), fin (-1 / 2 ^ 33), true⟩
      = some ⟨fin (1 / 2 ^ 66), fin (-1 / 2 ^ 66), true⟩ ∧
    eq (fin (1 / 2 ^ 66)) (fin (-1 / 2 ^ 66)) = true ∧
    razy ⟨fin (1 / 2 ^ 33), fin (-1 / 2 ^ 33), true⟩ ⟨fin (1 / 2 ^ 33), fin (1 / 2 ^ 33), false⟩
      = some ⟨ninf, pinf, false⟩ := by
  refine ⟨?_, ?_, ?_, ?_⟩
  · exact (wfComplement_iff _).2 ⟨1 / 2 ^ 33, -1 / 2 ^ 33, rfl, by norm_num [epsQ]⟩
  · have h0 : in_wartosc ⟨fin (1 / 2 ^ 33), fin (-1 / 2 ^ 33), true⟩ (fin 0) = false := by
      simp [in_wartosc, Dbl.isnan, geq, leq, Dbl.gt, Dbl.lt, eq_fin_fin, epsQ]
      norm_num [abs_lt, le_abs]
    have hm1 : mul (fin (1 / 2 ^ 33)) (fin (1 / 2 ^ 33)) = fin (1 / 2 ^ 66) := by
      rw [mul_small _ _ (by norm_num) (by norm_num)]
      norm_num
    have hm2 : mul (fin (-1 / 2 ^ 33)) (fin (-1 / 2 ^ 33)) = fin (1 / 2 ^ 66) := by
      rw [mul_small _ _ (by norm_num) (by norm_num)]
      norm_num
    have hm3 : mul (fin (1 / 2 ^ 33)) (fin (-1 / 2 ^ 33)) = fin (-1 / 2 ^ 66) := by
      rw [mul_small _ _ (by norm_num) (by norm_num)]
      norm_num
    have hm4 : mul (fin (-1 / 2 ^ 33)) (fin (1 / 2 ^ 33)) = fin (-1 / 2 ^ 66) := by
      rw [mul_small _ _ (by norm_num) (by norm_num)]
      norm_num
    have hb : mult_both_flipped ⟨fin (1 / 2 ^ 33), fin (-1 / 2 ^ 33), true⟩
        ⟨fin (1 / 2 ^ 33), fin (-1 / 2 ^ 33), true⟩
        = some ⟨fin (1 / 2 ^ 66), fin (-1 / 2 ^ 66), true⟩ := by
      simp only [mult_both_flipped, Bool.and_self, if_true, h0, Bool.or_self,
        Bool.false_eq_true, if_false]
      rw [hm1, hm2, hm3, hm4, min_self_fin, max_self_fin]
    have hr : razy ⟨fin (1 / 2 ^ 33), fin (-1 / 2 ^ 33), true⟩
        ⟨fin (1 / 2 ^ 33), fin (-1 / 2 ^ 33), true⟩ =
        mult_both_flipped ⟨fin (1 / 2 ^ 33), fin (-1 / 2 ^ 33), true⟩
          ⟨fin (1 / 2 ^ 33), fin (-1 / 2 ^ 33), true⟩ :=
      razy_flipped_flipped _ _ _ _ rfl rfl
        (zeroGuard_false _ _ (Or.inl (eq_zero_false (1 / 2 ^ 33) (by norm_num [epsQ, le_abs])))
          (Or.inl (eq_zero_false (1 / 2 ^ 33) (by norm_num [epsQ, le_abs]))))
        (by simp) (by simp)
    rw [hr, hb]
  · simp [eq_fin_fin, epsQ]
    norm_num [abs_lt]
  · have hna : is_all_negative ⟨fin (1 / 2 ^ 33), fin (1 / 2 ^ 33), false⟩ = false := by
      rw [Bool.eq_false_iff]
      simp [is_all_negative, leq_fin_fin, epsQ]
      norm_num
    have hnb : is_all_negative ⟨fin (1 / 2 ^ 33), fin (-1 / 2 ^ 33), true⟩ = false := by
      rw [Bool.eq_false_iff]
      simp [is_all_negative, leq_fin_fin, epsQ]
      norm_num
    have hm1 : mul (fin (1 / 2 ^ 33)) (fin (1 / 2 ^ 33)) = fin (1 / 2 ^ 66) := by
      rw [mul_small _ _ (by norm_num) (by norm_num)]
      norm_num
    have hm3 : mul (fin (1 / 2 ^ 33)) (fin (-1 / 2 ^ 33)) = fin (-1 / 2 ^ 66) := by
      rw [mul_small _ _ (by norm_num) (by norm_num)]
      norm_num
    have hl : leq (fin (1 / 2 ^ 66)) (fin (-1 / 2 ^ 66)) = true := by
      rw [leq_fin_fin]
      norm_num [epsQ]
    have hbody : mult_one_flipped_body ⟨fin (1 / 2 ^ 33), fin (1 / 2 ^ 33), false⟩
        ⟨fin (1 / 2 ^ 33), fin (-1 / 2 ^ 33), true⟩ = ⟨ninf, pinf, false⟩ := by
      rw [mult_one_flipped_body_eval _ _ _ _ hna hnb, hm1, hm3, min_self_fin, max_self_fin,
        hl]
      rfl
    have hr : razy ⟨fin (1 / 2 ^ 33), fin (-1 / 2 ^ 33), true⟩
        ⟨fin (1 / 2 ^ 33), fin (1 / 2 ^ 33), false⟩ =
        some (mult_one_flipped_body ⟨fin (1 / 2 ^ 33), fin (1 / 2 ^ 33), false⟩
          ⟨fin (1 / 2 ^ 33), fin (-1 / 2 ^ 33), true⟩) :=
      razy_flipped_bounded _ _ _ _ rfl rfl
        (zeroGuard_false _ _ (Or.inl (eq_zero_false (1 / 2 ^ 33) (by norm_num [epsQ, le_abs])))
          (Or.inl (eq_zero_false (1 / 2 ^ 33) (by norm_num [epsQ, le_abs]))))
        (by simp) (by simp)
    rw [hr, hbody]

/-- C20 (the code at the failing input). `w = (2^20 + 1, 2^20, true)` is a well-formed
complement with positive endpoints. `inverse w` is `(1/2^20, 1/(2^20 + 1), true)`, a flipped
value whose endpoints are within `EPS` of each other: the test that collapses such endpoints
to the full line is made on the straddling path only, where `inverse [-2^35, 2^35]` is the
full line. -/
theorem inverse_flipped_gap :
    wfComplement ⟨fin (2 ^ 20 + 1), fin (2 ^ 20), true⟩ = true ∧
    inverse ⟨fin (2 ^ 20 + 1), fin (2 ^ 20), true⟩
      = ⟨fin (1 / 2 ^ 20), fin (1 / (2 ^ 20 + 1)), true⟩ ∧
    eq (fin (1 / 2 ^ 20)) (fin (1 / (2 ^ 20 + 1))) = true ∧
    inverse ⟨fin (-2 ^ 35), fin (2 ^ 35), false⟩ = ⟨ninf, pinf, false⟩ := by
  refine ⟨?_, ?_, ?_, ?_⟩
  · exact (wfComplement_iff _).2 ⟨2 ^ 20 + 1, 2 ^ 20, rfl, by norm_num [epsQ]⟩
  · have h1 : farPos (fin (2 ^ 20 + 1)) = true := by
      simp [farPos, epsQ]
      norm_num
    have h2 : farPos (fin (2 ^ 20)) = true := by
      simp [farPos, epsQ]
      norm_num
    rw [inverse_same_sign _ _ _ (farPos_eq _ h1).1 (farPos_eq _ h2).1
      (by rw [(farPos_eq _ h1).2, (farPos_eq _ h2).2]; rfl)]
    rw [div_one_far _ (by norm_num [epsQ, le_abs]), div_one_far _ (by norm_num [epsQ, le_abs])]
  · simp [eq_fin_fin, epsQ]
    norm_num [abs_lt]
  · have h1 : farNeg (fin (-2 ^ 35)) = true := by
      simp [farNeg, epsQ]
      norm_num
    have h2 : farPos (fin (2 ^ 35)) = true := by
      simp [farPos, epsQ]
      norm_num
    rw [inverse_far _ _ _ (farNeg_eq _ h1).1 (farPos_eq _ h2).1, (farNeg_eq _ h1).2,
      (farPos_eq _ h2).2]
    rw [div_one_far _ (by norm_num [epsQ, le_abs]), div_one_far _ (by norm_num [epsQ, le_abs])]
    simp [eq_fin_fin, epsQ]
    norm_num [abs_lt]


/-! ## The sum and the representation invariant -/

theorem wfBoundedProper_iff (w : wartosc) :
    wfBoundedProper w = true ↔
      ∃ a1 a2, w = ⟨a1, a2, false⟩ ∧ (a1 = ninf ∨ ∃ p, a1 = fin p) ∧
        (a2 = pinf ∨ ∃ p, a2 = fin p) ∧ Dbl.le a1 a2 = true := by
  rcases w with ⟨f, s, fl⟩
  constructor
  · intro h
    simp only [wfBoundedProper, wfBounded, Bool.and_eq_true, Bool.not_eq_true', bne_iff_ne,
      ne_eq] at h
    obtain ⟨⟨⟨⟨⟨rfl, hf⟩, hs⟩, hle⟩, hfp⟩, hsn⟩ := h
    refine ⟨f, s, rfl, ?_, ?_, hle⟩
    · cases f <;> simp [Dbl.isnan] at hf hfp ⊢
    · cases s <;> simp [Dbl.isnan] at hs hsn ⊢
  · rintro ⟨a1, a2, h, h1, h2, hle⟩
    injection h with e1 e2 e3
    subst e1 e2 e3
    rcases h1 with rfl | ⟨p, rfl⟩ <;> rcases h2 with rfl | ⟨q, rfl⟩ <;>
      simp [wfBoundedProper, wfBounded, Dbl.isnan, hle]

theorem wfValue_full : wfValue ⟨ninf, pinf, false⟩ = true := by
  simp [wfValue, wfBoundedProper, wfBounded, Dbl.isnan, Dbl.le]

theorem wfValue_empty : wfValue ⟨nan, nan, false⟩ = true := by
  simp [wfValue, emptyW]

theorem wfValue_cases (w : wartosc) (h : wfValue w = true) :
    w = emptyW ∨ wfBoundedProper w = true ∨ wfComplement w = true := by
  simpa [wfValue, or_assoc] using h

/-- A well-formed value with a NaN first field is the canonical empty value, and a flipped
well-formed value is a well-formed complement. -/
theorem wfValue_shape (w : wartosc) (h : wfValue w = true) :
    (w.first = nan → w = emptyW) ∧ (w.is_flipped = true → wfComplement w = true) := by
  rcases wfValue_cases w h with rfl | hB | hC
  · exact ⟨fun _ => rfl, fun hc => by simp [emptyW] at hc⟩
  · obtain ⟨a1, a2, rfl, h1, _, _⟩ := (wfBoundedProper_iff w).1 hB
    refine ⟨fun hc => ?_, fun hc => by simp at hc⟩
    rcases h1 with rfl | ⟨p, rfl⟩ <;> simp at hc
  · obtain ⟨f, s, rfl, _⟩ := (wfComplement_iff w).1 hC
    exact ⟨fun hc => by simp at hc, fun _ => hC⟩

theorem add_nan_right (d : Dbl) : add d nan = nan := by
  cases d <;> rfl

/-- The sum of two endpoints that are finite or `-inf` is finite or `-inf`, unless it
overflows to `+inf`. -/
theorem add_lower_cases (a b : Dbl) (h1 : a = ninf ∨ ∃ p, a = fin p)
    (h2 : b = ninf ∨ ∃ p, b = fin p) (hov : add a b ≠ pinf) :
    add a b = ninf ∨ ∃ p q, a = fin p ∧ b = fin q ∧ add a b = fin (p + q) := by
  rcases h1 with rfl | ⟨p, rfl⟩ <;> rcases h2 with rfl | ⟨q, rfl⟩
  · exact Or.inl rfl
  · exact Or.inl rfl
  · exact Or.inl rfl
  · rw [add_fin_fin] at hov ⊢
    rcases finOp_cases p q (p + q) with ⟨_, h⟩ | ⟨_, h⟩ | h
    · exact absurd h hov
    · exact Or.inl h
    · exact Or.inr ⟨p, q, rfl, rfl, h⟩

/-- The sum of two endpoints that are finite or `+inf` is finite or `+inf`, unless it
overflows to `-inf`. -/
theorem add_upper_cases (a b : Dbl) (h1 : a = pinf ∨ ∃ p, a = fin p)
    (h2 : b = pinf ∨ ∃ p, b = fin p) (hov : add a b ≠ ninf) :
    add a b = pinf ∨ ∃ p q, a = fin p ∧ b = fin q ∧ add a b = fin (p + q) := by
  rcases h1 with rfl | ⟨p, rfl⟩ <;> rcases h2 with rfl | ⟨q, rfl⟩
  · exact Or.inl rfl
  · exact Or.inl rfl
  · exact Or.inl rfl
  · rw [add_fin_fin] at hov ⊢
    rcases finOp_cases p q (p + q) with ⟨_, h⟩ | ⟨_, h⟩ | h
    · exact Or.inl h
    · exact absurd h hov
    · exact Or.inr ⟨p, q, rfl, rfl, h⟩

/-- The sum of a well-formed bounded value and a flipped value with finite endpoints is
well-formed, when the sum of the first fields does not overflow to `+inf` and the sum of
the second fields does not overflow to `-inf`. -/
theorem plus_bounded_flipped_wf (a1 a2 : Dbl) (c1 c2 : ℚ)
    (h1 : a1 = ninf ∨ ∃ p, a1 = fin p) (h2 : a2 = pinf ∨ ∃ p, a2 = fin p)
    (hov1 : add a1 (fin c1) ≠ pinf) (hov2 : add a2 (fin c2) ≠ ninf) :
    wfValue (if leq (add a1 (fin c1)) (add a2 (fin c2)) then ⟨ninf, pinf, false⟩
      else ⟨add a1 (fin c1), add a2 (fin c2), true⟩) = true := by
  rcases add_lower_cases a1 (fin c1) h1 (Or.inr ⟨c1, rfl⟩) hov1 with hl | ⟨p, c, _, hc, hl⟩ <;>
    rcases add_upper_cases a2 (fin c2) h2 (Or.inr ⟨c2, rfl⟩) hov2 with hu | ⟨q, d, _, hd, hu⟩ <;>
    rw [hl, hu]
  · rw [leq_ninf_pinf]
    exact wfValue_full
  · rw [leq_ninf_fin]
    exact wfValue_full
  · rw [leq_fin_pinf]
    exact wfValue_full
  · split
    · exact wfValue_full
    · rename_i hleq
      have h3 : ¬ (p + c < q + d + epsQ) := by
        intro hc
        exact hleq ((leq_fin_fin _ _).2 hc)
      have hC : wfComplement ⟨fin (p + c), fin (q + d), true⟩ = true :=
        (wfComplement_iff _).2 ⟨p + c, q + d, rfl, by linarith⟩
      simp [wfValue, hC]

/-- C19 (counterexample). Three failures. `[+inf, +inf]` and `[-inf, 5]` are bounded values
with non-NaN endpoints and `first <= second`; their sum is `(NaN, +inf, false)`, a NaN first
field with a second field that is not NaN. The sum of the complement `(1, -1, true)` and the
canonical empty value is `(NaN, NaN, true)`, a NaN first field with `is_flipped = true`. The
sum of `[2^1023, 2^1023]` and the complement `(2^1023, 0, true)` overflows in its first
field: it is `(+inf, 2^1023, true)`, a flipped value with an infinite endpoint. -/
theorem plus_invariant_counterexample :
    wfBounded ⟨pinf, pinf, false⟩ = true ∧ wfBounded ⟨ninf, fin 5, false⟩ = true ∧
    plus ⟨pinf, pinf, false⟩ ⟨ninf, fin 5, false⟩ = ⟨nan, pinf, false⟩ ∧
    wfComplement ⟨fin 1, fin (-1), true⟩ = true ∧
    plus ⟨fin 1, fin (-1), true⟩ ⟨nan, nan, false⟩ = ⟨nan, nan, true⟩ ∧
    wfBounded ⟨fin (2 ^ 1023), fin (2 ^ 1023), false⟩ = true ∧
    wfComplement ⟨fin (2 ^ 1023), fin 0, true⟩ = true ∧
    plus ⟨fin (2 ^ 1023), fin (2 ^ 1023), false⟩ ⟨fin (2 ^ 1023), fin 0, true⟩
      = ⟨pinf, fin (2 ^ 1023), true⟩ ∧
    wfComplement ⟨pinf, fin (2 ^ 1023), true⟩ = false := by
  have h1 : add (fin (2 ^ 1023)) (fin (2 ^ 1023)) = pinf := by
    rw [add_fin_fin, finOp_pinf _ _ _ (by norm_num [dblMax]) (by norm_num [dblMax])
      (by norm_num [maxQ])]
  have h2 : add (fin (2 ^ 1023)) (fin 0) = fin (2 ^ 1023) := by
    rw [add_fin_fin, finOp_eq _ _ _ (by norm_num [maxQ]) (by norm_num [maxQ])]
    norm_num
  refine ⟨?_, ?_, ?_, ?_, ?_, ?_, ?_, ?_, ?_⟩
  · simp [wfBounded, Dbl.isnan, Dbl.le]
  · simp [wfBounded, Dbl.isnan, Dbl.le]
  · simp [plus, Dbl.add]
  · exact (wfComplement_iff _).2 ⟨1, -1, rfl, by norm_num [epsQ]⟩
  · simp [plus, Dbl.add, leq, eq, Dbl.sub, Dbl.neg, Dbl.fabs, Dbl.lt, EPS]
  · simp [wfBounded, Dbl.isnan, Dbl.le]
  · exact (wfComplement_iff _).2 ⟨2 ^ 1023, 0, rfl, by norm_num [epsQ]⟩
  · simp only [plus, Bool.false_and, Bool.false_or, Bool.true_and, Bool.or_true,
      Bool.false_eq_true, if_false]
    rw [h1, h2]
    simp [leq, Dbl.lt, eq_pinf_left]
  · simp [wfComplement, Dbl.isFinite]

/-- C19 (amended). For all well-formed `a` and `b` (each the canonical empty value, a
bounded value with non-NaN endpoints and `first <= second` other than `[+inf, +inf]` and
`[-inf, -inf]`, or a complement with finite endpoints and `second < first` by at least
`EPS`), unless one is the empty value and the other is flipped, and provided the sum of the
first fields does not overflow to `+inf` and the sum of the second fields does not overflow
to `-inf`, `plus a b` is well-formed in the same sense; a result whose first field is NaN is
the canonical empty value, and a flipped result is a well-formed complement. -/
theorem plus_preserves_wf (a b : wartosc) (ha : wfValue a = true) (hb : wfValue b = true)
    (hmix : ¬ ((a = emptyW ∧ b.is_flipped = true) ∨ (b = emptyW ∧ a.is_flipped = true)))
    (hov : add a.first b.first ≠ pinf ∧ add a.second b.second ≠ ninf) :
    wfValue (plus a b) = true ∧ ((plus a b).first = nan → plus a b = emptyW) ∧
    ((plus a b).is_flipped = true → wfComplement (plus a b) = true) := by
  have hwf : wfValue (plus a b) = true := by
    rcases wfValue_cases a ha with rfl | haB | haC <;>
      rcases wfValue_cases b hb with rfl | hbB | hbC
    · simpa [plus, emptyW, Dbl.add] using wfValue_empty
    · obtain ⟨b1, b2, rfl, _, _, _⟩ := (wfBoundedProper_iff b).1 hbB
      simpa [plus, emptyW, Dbl.add] using wfValue_empty
    · obtain ⟨f, s, rfl, _⟩ := (wfComplement_iff b).1 hbC
      exact absurd (Or.inl ⟨rfl, rfl⟩) hmix
    · obtain ⟨a1, a2, rfl, _, _, _⟩ := (wfBoundedProper_iff a).1 haB
      simpa [plus, emptyW, add_nan_right] using wfValue_empty
    · obtain ⟨a1, a2, rfl, h1, h2, hle⟩ := (wfBoundedProper_iff a).1 haB
      obtain ⟨b1, b2, rfl, h3, h4, hle2⟩ := (wfBoundedProper_iff b).1 hbB
      have hB : wfBoundedProper ⟨add a1 b1, add a2 b2, false⟩ = true := by
        rw [wfBoundedProper_iff]
        refine ⟨_, _, rfl, ?_, ?_, ?_⟩
        · rcases add_lower_cases a1 b1 h1 h3 hov.1 with h | ⟨p, q, _, _, h⟩
          · exact Or.inl h
          · exact Or.inr ⟨_, h⟩
        · rcases add_upper_cases a2 b2 h2 h4 hov.2 with h | ⟨p, q, _, _, h⟩
          · exact Or.inl h
          · exact Or.inr ⟨_, h⟩
        · rcases add_lower_cases a1 b1 h1 h3 hov.1 with hl | ⟨p1, q1, rfl, rfl, hl⟩ <;>
            rcases add_upper_cases a2 b2 h2 h4 hov.2 with hu | ⟨p2, q2, rfl, rfl, hu⟩ <;>
            rw [hl, hu]
          · rfl
          · rfl
          · rfl
          · rw [le_fin_fin] at hle hle2 ⊢
            linarith
      simp [plus, wfValue, hB]
    · obtain ⟨a1, a2, rfl, h1, h2, _⟩ := (wfBoundedProper_iff a).1 haB
      obtain ⟨c1, c2, rfl, _⟩ := (wfComplement_iff b).1 hbC
      simpa [plus] using plus_bounded_flipped_wf a1 a2 c1 c2 h1 h2 hov.1 hov.2
    · obtain ⟨f, s, rfl, _⟩ := (wfComplement_iff a).1 haC
      exact absurd (Or.inr ⟨rfl, rfl⟩) hmix
    · obtain ⟨b1, b2, rfl, h1, h2, _⟩ := (wfBoundedProper_iff b).1 hbB
      obtain ⟨c1, c2, rfl, _⟩ := (wfComplement_iff a).1 haC
      have h := plus_bounded_flipped_wf b1 b2 c1 c2 h1 h2
        (by rw [dadd_comm]; exact hov.1) (by rw [dadd_comm]; exact hov.2)
      rw [dadd_comm b1, dadd_comm b2] at h
      simpa [plus] using h
    · obtain ⟨c1, c2, rfl, _⟩ := (wfComplement_iff a).1 haC
      obtain ⟨d1, d2, rfl, _⟩ := (wfComplement_iff b).1 hbC
      simpa [plus] using wfValue_full
  exact ⟨hwf, wfValue_shape _ hwf⟩

/-- Witness of C19 (amended): the complement of `(-100, 100)` plus `[1, 1]` is the
complement of `(-99, 101)` (`test.c`, line 233). -/
theorem plus_preserves_wf_witness :
    wfValue (plus ⟨fin 100, fin (-100), true⟩ ⟨fin 1, fin 1, false⟩) = true ∧
    wfComplement (plus ⟨fin 100, fin (-100), true⟩ ⟨fin 1, fin 1, false⟩) = true := by
  have hC : wfComplement ⟨fin 100, fin (-100), true⟩ = true :=
    (wfComplement_iff _).2 ⟨100, -100, rfl, by norm_num [epsQ]⟩
  have hB : wfBoundedProper ⟨fin 1, fin 1, false⟩ = true :=
    (wfBoundedProper_iff _).2 ⟨fin 1, fin 1, rfl, Or.inr ⟨1, rfl⟩, Or.inr ⟨1, rfl⟩,
      by simp [Dbl.le]⟩
  have h1 : add (fin 100) (fin 1) = fin 101 := by
    rw [add_small _ _ (by norm_num) (by norm_num)]
    norm_num
  have h2 : add (fin (-100)) (fin 1) = fin (-99) := by
    rw [add_small _ _ (by norm_num) (by norm_num)]
    norm_num
  have hl : leq (fin 101) (fin (-99)) = false := by
    rw [Bool.eq_false_iff, ne_eq, leq_fin_fin]
    norm_num [epsQ]
  have h := plus_preserves_wf ⟨fin 100, fin (-100), true⟩ ⟨fin 1, fin 1, false⟩
    (by simp [wfValue, hC]) (by simp [wfValue, hB]) (by simp [emptyW])
    (by rw [h1, h2]; simp)
  refine ⟨h.1, h.2.2 ?_⟩
  simp only [plus, Bool.true_and, Bool.false_eq_true, if_false, Bool.true_or, h1, h2, hl]

/-! ## The product and NaN -/

theorem properOperand_of_wf (w : wartosc)
    (h : wfBoundedProper w = true ∨ wfComplement w = true) : properOperand w = true := by
  rcases h with h | h
  · obtain ⟨a1, a2, rfl, h1, h2, _⟩ := (wfBoundedProper_iff w).1 h
    rcases h1 with rfl | ⟨p, rfl⟩ <;> rcases h2 with rfl | ⟨q, rfl⟩ <;>
      simp [properOperand, Dbl.isnan]
  · rcases w with ⟨f, s, fl⟩
    simp only [wfComplement, Bool.and_eq_true] at h
    obtain ⟨⟨⟨⟨hfl, hf⟩, hs⟩, _⟩, _⟩ := h
    simp [properOperand, hfl, hf, hs]

theorem properOperand_flipped (f s : Dbl) (h : properOperand ⟨f, s, true⟩ = true) :
    ∃ p q, f = fin p ∧ s = fin q := by
  cases f <;> cases s <;> simp [properOperand, Dbl.isFinite] at h ⊢

theorem properOperand_bounded (f s : Dbl) (h : properOperand ⟨f, s, false⟩ = true)
    (hfull : ¬ (f = ninf ∧ s = pinf)) :
    f ≠ nan ∧ s ≠ nan ∧ ((∃ p, f = fin p) ∨ (∃ p, s = fin p)) := by
  cases f <;> cases s <;> simp [properOperand, Dbl.isnan] at h hfull ⊢

theorem properOperand_first (w : wartosc) (h : properOperand w = true) :
    w.first.isnan = false := by
  rcases w with ⟨f, s, fl⟩
  cases fl <;> cases f <;> simp [properOperand, Dbl.isnan, Dbl.isFinite] at h ⊢

theorem neg_isnan (x : Dbl) : (neg x).isnan = x.isnan := by
  cases x <;> rfl

theorem fold_min_isnan (p1 p2 p3 p4 : Dbl)
    (h : p1.isnan = false ∨ p2.isnan = false ∨ p3.isnan = false ∨ p4.isnan = false) :
    (Ary.min (Ary.min (Ary.min (Ary.min nan p1) p2) p3) p4).isnan = false := by
  rcases h with h | h | h | h
  · exact min_isnan_left _ _ (min_isnan_left _ _ (min_isnan_left _ _ (min_isnan_right _ _ h)))
  · exact min_isnan_left _ _ (min_isnan_left _ _ (min_isnan_right _ _ h))
  · exact min_isnan_left _ _ (min_isnan_right _ _ h)
  · exact min_isnan_right _ _ h

theorem fold_max_isnan (p1 p2 p3 p4 : Dbl)
    (h : p1.isnan = false ∨ p2.isnan = false ∨ p3.isnan = false ∨ p4.isnan = false) :
    (Ary.max (Ary.max (Ary.max (Ary.max nan p1) p2) p3) p4).isnan = false := by
  rcases h with h | h | h | h
  · exact max_isnan_left _ _ (max_isnan_left _ _ (max_isnan_left _ _ (max_isnan_right _ _ h)))
  · exact max_isnan_left _ _ (max_isnan_left _ _ (max_isnan_right _ _ h))
  · exact max_isnan_left _ _ (max_isnan_right _ _ h)
  · exact max_isnan_right _ _ h

/-- The product of two values that are not flipped, each with a finite endpoint: one of
the four cross products is a product of finite values, and the two folds skip the NaN
ones. -/
theorem mult_not_flipped_no_nan (a1 a2 b1 b2 : Dbl)
    (ha : (∃ p, a1 = fin p) ∨ (∃ p, a2 = fin p))
    (hb : (∃ p, b1 = fin p) ∨ (∃ p, b2 = fin p)) :
    ∃ r, mult_not_flipped ⟨a1, a2, false⟩ ⟨b1, b2, false⟩ = some r ∧
      r.first.isnan = false ∧ r.second.isnan = false := by
  have h : (mul a1 b1).isnan = false ∨ (mul a1 b2).isnan = false ∨
      (mul a2 b1).isnan = false ∨ (mul a2 b2).isnan = false := by
    rcases ha with ⟨p, rfl⟩ | ⟨p, rfl⟩ <;> rcases hb with ⟨q, rfl⟩ | ⟨q, rfl⟩
    · exact Or.inl (finOp_isnan _ _ _)
    · exact Or.inr (Or.inl (finOp_isnan _ _ _))
    · exact Or.inr (Or.inr (Or.inl (finOp_isnan _ _ _)))
    · exact Or.inr (Or.inr (Or.inr (finOp_isnan _ _ _)))
  exact ⟨⟨Ary.min (Ary.min (Ary.min (Ary.min nan (mul a1 b1)) (mul a1 b2)) (mul a2 b1)) (mul a2 b2),
    Ary.max (Ary.max (Ary.max (Ary.max nan (mul a1 b1)) (mul a1 b2)) (mul a2 b1)) (mul a2 b2),
    false⟩, by simp [mult_not_flipped], fold_min_isnan _ _ _ _ h, fold_max_isnan _ _ _ _ h⟩

/-- The last step of `mult_one_flipped`, from the two candidate endpoints on. -/
theorem one_flipped_tail_no_nan (x1 x2 : Dbl) (y1 y2 : ℚ) (s : Int)
    (hx : (∃ p, x1 = fin p) ∨ (∃ p, x2 = fin p)) (r : wartosc)
    (hr : r = if leq (Ary.min (mul x1 (fin y1)) (mul x2 (fin y1)))
          (Ary.max (mul x1 (fin y2)) (mul x2 (fin y2))) then ⟨ninf, pinf, false⟩
        else if s < 0 then
          negative ⟨Ary.min (mul x1 (fin y1)) (mul x2 (fin y1)),
            Ary.max (mul x1 (fin y2)) (mul x2 (fin y2)), true⟩
        else ⟨Ary.min (mul x1 (fin y1)) (mul x2 (fin y1)),
            Ary.max (mul x1 (fin y2)) (mul x2 (fin y2)), true⟩) :
    r.first.isnan = false ∧ r.second.isnan = false := by
  have h1 : (Ary.min (mul x1 (fin y1)) (mul x2 (fin y1))).isnan = false := by
    rcases hx with ⟨p, rfl⟩ | ⟨p, rfl⟩
    · exact min_isnan_left _ _ (finOp_isnan _ _ _)
    · exact min_isnan_right _ _ (finOp_isnan _ _ _)
  have h2 : (Ary.max (mul x1 (fin y2)) (mul x2 (fin y2))).isnan = false := by
    rcases hx with ⟨p, rfl⟩ | ⟨p, rfl⟩
    · exact max_isnan_left _ _ (finOp_isnan _ _ _)
    · exact max_isnan_right _ _ (finOp_isnan _ _ _)
  subst hr
  split_ifs
  · exact ⟨rfl, rfl⟩
  · simp [negative, h1, h2, neg_isnan]
  · exact ⟨h1, h2⟩

/-- The product of a value that is not flipped, with non-NaN endpoints one of which is
finite, and a flipped value with finite endpoints. -/
theorem mult_one_flipped_body_no_nan (a1 a2 : Dbl) (b1 b2 : ℚ) (h1 : a1 ≠ nan)
    (h2 : a2 ≠ nan) (ha : (∃ p, a1 = fin p) ∨ (∃ p, a2 = fin p)) :
    (mult_one_flipped_body ⟨a1, a2, false⟩ ⟨fin b1, fin b2, true⟩).first.isnan = false ∧
    (mult_one_flipped_body ⟨a1, a2, false⟩ ⟨fin b1, fin b2, true⟩).second.isnan = false := by
  have hn1 : a1.isnan = false := (isnan_false_iff a1).2 h1
  have hna : negative ⟨a1, a2, false⟩ = ⟨neg a2, neg a1, false⟩ := by simp [negative, hn1]
  have hnb : negative ⟨fin b1, fin b2, true⟩ = ⟨fin (-b2), fin (-b1), true⟩ := by
    simp [negative, Dbl.isnan, Dbl.neg]
  have ha' : (∃ p, neg a2 = fin p) ∨ (∃ p, neg a1 = fin p) := by
    rcases ha with ⟨p, rfl⟩ | ⟨p, rfl⟩
    · exact Or.inr ⟨-p, rfl⟩
    · exact Or.inl ⟨-p, rfl⟩
  by_cases na : is_all_negative ⟨a1, a2, false⟩ = true <;>
    by_cases nb : is_all_negative ⟨fin b1, fin b2, true⟩ = true
  · exact one_flipped_tail_no_nan (neg a2) (neg a1) (-b2) (-b1) (1 * -1 * -1) ha' _
      (by simp [mult_one_flipped_body, na, nb, hna, hnb])
  · exact one_flipped_tail_no_nan (neg a2) (neg a1) b1 b2 (1 * -1) ha' _
      (by simp [mult_one_flipped_body, na, nb, hna])
  · exact one_flipped_tail_no_nan a1 a2 (-b2) (-b1) (1 * -1) ha _
      (by simp [mult_one_flipped_body, na, nb, hnb])
  · exact one_flipped_tail_no_nan a1 a2 b1 b2 1 ha _
      (by simp [mult_one_flipped_body, na, nb])

/-- The product of two flipped values with finite endpoints. -/
theorem mult_both_flipped_no_nan (a1 a2 b1 b2 : ℚ) :
    ∃ r, mult_both_flipped ⟨fin a1, fin a2, true⟩ ⟨fin b1, fin b2, true⟩ = some r ∧
      r.first.isnan = false ∧ r.second.isnan = false := by
  by_cases h : (in_wartosc ⟨fin a1, fin a2, true⟩ (fin 0) ||
      in_wartosc ⟨fin b1, fin b2, true⟩ (fin 0)) = true
  · exact ⟨⟨ninf, pinf, false⟩, by simp [mult_both_flipped, h], rfl, rfl⟩
  · exact ⟨⟨Ary.min (mul (fin a1) (fin b1)) (mul (fin a2) (fin b2)),
      Ary.max (mul (fin a1) (fin b2)) (mul (fin a2) (fin b1)), true⟩,
      by simp [mult_both_flipped, h],
      min_isnan_left (mul (fin a1) (fin b1)) (mul (fin a2) (fin b2)) (finOp_isnan _ _ _),
      max_isnan_left (mul (fin a1) (fin b2)) (mul (fin a2) (fin b1)) (finOp_isnan _ _ _)⟩

/-- C21. For all operands `a` and `b` without a NaN endpoint such that a value that is not
flipped has neither `first = +inf` nor `second = -inf` and a flipped value has finite
endpoints (every well-formed non-Empty value other than `[+inf, +inf]` and `[-inf, -inf]`
is of this kind, see `properOperand_of_wf`), `razy a b` returns a value whose `first` and
`second` are not NaN. -/
theorem razy_no_nan (a b : wartosc) (ha : properOperand a = true)
    (hb : properOperand b = true) :
    ∃ r, razy a b = some r ∧ r.first ≠ nan ∧ r.second ≠ nan := by
  have key : ∃ r, razy a b = some r ∧ r.first.isnan = false ∧ r.second.isnan = false := by
    have hna := properOperand_first a ha
    have hnb := properOperand_first b hb
    unfold razy
    rw [fullGuard_eq]
    simp only [hna, hnb, Bool.or_self, Bool.false_eq_true, if_false, Option.bind_eq_bind,
      Option.some_bind]
    by_cases hz : zeroGuard a b = true
    · exact ⟨⟨fin 0, fin 0, false⟩, by simp [hz], rfl, rfl⟩
    by_cases hg : (a.first = ninf ∧ a.second = pinf) ∨ (b.first = ninf ∧ b.second = pinf)
    · exact ⟨⟨ninf, pinf, false⟩, by simp [hz, hg], rfl, rfl⟩
    simp only [hz, hg, Bool.false_eq_true, if_false, decide_False]
    rw [not_or] at hg
    rcases a with ⟨a1, a2, fa⟩
    rcases b with ⟨b1, b2, fb⟩
    cases fa <;> cases fb
    · obtain ⟨_, _, hfa⟩ := properOperand_bounded a1 a2 ha hg.1
      obtain ⟨_, _, hfb⟩ := properOperand_bounded b1 b2 hb hg.2
      simpa using mult_not_flipped_no_nan a1 a2 b1 b2 hfa hfb
    · obtain ⟨h1, h2, hfa⟩ := properOperand_bounded a1 a2 ha hg.1
      obtain ⟨p, q, rfl, rfl⟩ := properOperand_flipped b1 b2 hb
      exact ⟨_, by simp [mult_one_flipped, swap],
        mult_one_flipped_body_no_nan a1 a2 p q h1 h2 hfa⟩
    · obtain ⟨h1, h2, hfb⟩ := properOperand_bounded b1 b2 hb hg.2
      obtain ⟨p, q, rfl, rfl⟩ := properOperand_flipped a1 a2 ha
      exact ⟨_, by simp [mult_one_flipped, swap],
        mult_one_flipped_body_no_nan b1 b2 p q h1 h2 hfb⟩
    · obtain ⟨p, q, rfl, rfl⟩ := properOperand_flipped a1 a2 ha
      obtain ⟨p', q', rfl, rfl⟩ := properOperand_flipped b1 b2 hb
      simpa using mult_both_flipped_no_nan p q p' q'
  obtain ⟨r, hr, h1, h2⟩ := key
  exact ⟨r, hr, (isnan_false_iff _).1 h1, (isnan_false_iff _).1 h2⟩

/-- Witness of C21: at the operands of `test.c` (`razy(ac, ac)` for `ac = [0, +inf]`) two
of the four cross products are `0 * inf = NaN`, and the product is `[0, +inf]`. -/
theorem razy_no_nan_witness :
    properOperand ⟨fin 0, pinf, false⟩ = true ∧ mul (fin 0) pinf = nan ∧
    razy ⟨fin 0, pinf, false⟩ ⟨fin 0, pinf, false⟩ = some ⟨fin 0, pinf, false⟩ ∧
    ∃ r, razy ⟨fin 0, pinf, false⟩ ⟨fin 0, pinf, false⟩ = some r ∧ r.first ≠ nan ∧
      r.second ≠ nan :=
  ⟨by simp [properOperand, Dbl.isnan], by simp [Dbl.mul, infTimes],
    by simp [razy, zeroGuard, fullGuard_eq, mult_not_flipped, eq_fin_fin, eq_pinf_left,
      Dbl.isnan, Dbl.mul, infTimes, Ary.min, Ary.max, Dbl.lt, epsQ,
      finOp_small 0 0 0 (by norm_num) (by norm_num)],
    razy_no_nan ⟨fin 0, pinf, false⟩ ⟨fin 0, pinf, false⟩
      (by simp [properOperand, Dbl.isnan]) (by simp [properOperand, Dbl.isnan])⟩


/-! ## The product is commutative -/

theorem min_comm_nan (x y : Dbl) : Ary.min x y = Ary.min y x := by
  cases x <;> cases y <;> simp [Ary.min, Dbl.isnan, Dbl.lt]
  split_ifs with h1 h2 h2
  · exact absurd h2 (not_lt.2 h1.le)
  · rfl
  · rfl
  · exact congrArg fin (le_antisymm (not_lt.1 h1) (not_lt.1 h2))

theorem max_comm_nan (x y : Dbl) : Ary.max x y = Ary.max y x := by
  cases x <;> cases y <;> simp [Ary.max, Dbl.isnan, Dbl.lt]
  split_ifs with h1 h2 h2
  · exact absurd h2 (not_lt.2 h1.le)
  · rfl
  · rfl
  · exact congrArg fin (le_antisymm (not_lt.1 h2) (not_lt.1 h1))

theorem min_right_comm_nan (x y z : Dbl) :
    Ary.min (Ary.min x y) z = Ary.min (Ary.min x z) y := by
  cases x <;> cases y <;> cases z <;> simp [Ary.min, Dbl.isnan, Dbl.lt] <;>
    split_ifs <;> simp_all [Dbl.isnan, Dbl.lt] <;> linarith

theorem max_right_comm_nan (x y z : Dbl) :
    Ary.max (Ary.max x y) z = Ary.max (Ary.max x z) y := by
  cases x <;> cases y <;> cases z <;> simp [Ary.max, Dbl.isnan, Dbl.lt] <;>
    split_ifs <;> simp_all [Dbl.isnan, Dbl.lt] <;> linarith

theorem zeroGuard_comm (a b : wartosc) : zeroGuard a b = zeroGuard b a := by
  simp [zeroGuard, Bool.or_comm]

theorem fullGuard_comm (a b : wartosc) : fullGuard a b = fullGuard b a := by
  rw [fullGuard_eq, fullGuard_eq]
  simp only [or_comm]

theorem mult_both_flipped_comm (a b : wartosc) :
    mult_both_flipped a b = mult_both_flipped b a := by
  simp only [mult_both_flipped, Bool.and_comm a.is_flipped, Bool.or_comm (in_wartosc a (fin 0)),
    dmul_comm a.first, dmul_comm a.second,
    max_comm_nan (mul b.second a.first) (mul b.first a.second)]

theorem mult_one_flipped_comm (a b : wartosc) :
    mult_one_flipped a b = mult_one_flipped b a := by
  cases ha : a.is_flipped <;> cases hb : b.is_flipped <;> simp [mult_one_flipped, swap, ha, hb]

theorem mult_not_flipped_comm (a b : wartosc) :
    mult_not_flipped a b = mult_not_flipped b a := by
  simp only [mult_not_flipped, Bool.and_comm (!a.is_flipped), dmul_comm a.first,
    dmul_comm a.second,
    min_right_comm_nan (Ary.min nan (mul b.first a.first)) (mul b.second a.first),
    max_right_comm_nan (Ary.max nan (mul b.first a.first)) (mul b.second a.first)]

/-- C22. For all values `a` and `b` (well-formed or not), `razy a b` and `razy b a` return
the same value: the same `first`, `second` and `is_flipped`. -/
theorem razy_comm (a b : wartosc) : ∃ r, razy a b = some r ∧ razy b a = some r := by
  obtain ⟨r, hr⟩ := razy_total a b
  refine ⟨r, hr, ?_⟩
  rw [← hr]
  simp only [razy, zeroGuard_comm b a, fullGuard_comm b a, mult_both_flipped_comm b a,
    mult_one_flipped_comm b a, mult_not_flipped_comm b a, Bool.or_comm b.first.isnan,
    Bool.and_comm b.is_flipped, Bool.or_comm b.is_flipped]

/-- The two orders of a product printed by `test.c`: the interval `[-10, -5]` and the
complement of `(-3, 2)`. -/
theorem razy_two_orders :
    razy ⟨fin 2, fin (-3), true⟩ ⟨fin (-10), fin (-5), false⟩ =
      some ⟨fin 15, fin (-10), true⟩ ∧
    razy ⟨fin (-10), fin (-5), false⟩ ⟨fin 2, fin (-3), true⟩ =
      some ⟨fin 15, fin (-10), true⟩ := by
  have na : is_all_negative ⟨fin (-10), fin (-5), false⟩ = true := by
    simp [is_all_negative, leq_fin_fin, epsQ]
    norm_num
  have nb : is_all_negative ⟨fin 2, fin (-3), true⟩ = false := by
    rw [Bool.eq_false_iff]
    simp [is_all_negative, leq_fin_fin, epsQ]
    norm_num
  have h : leq (fin 10) (fin (-15)) = false := by
    rw [Bool.eq_false_iff, ne_eq, leq_fin_fin]
    norm_num [epsQ]
  have body : mult_one_flipped_body ⟨fin (-10), fin (-5), false⟩ ⟨fin 2, fin (-3), true⟩ =
      ⟨fin 15, fin (-10), true⟩ := by
    simp only [mult_one_flipped_body, na, nb, if_true, Bool.false_eq_true, if_false]
    norm_num [negative, Dbl.isnan, Dbl.neg, Dbl.mul, Ary.min, Ary.max, Dbl.lt, h,
      finOp_small 5 2 10 (by norm_num) (by norm_num),
      finOp_small 10 2 20 (by norm_num) (by norm_num),
      finOp_small 5 (-3) (-15) (by norm_num) (by norm_num),
      finOp_small 10 (-3) (-30) (by norm_num) (by norm_num)]
  constructor
  · simp [razy, zeroGuard, fullGuard_eq, mult_one_flipped, swap, eq_fin_fin, Dbl.isnan,
      body, epsQ]
    norm_num [abs_lt]
  · simp [razy, zeroGuard, fullGuard_eq, mult_one_flipped, swap, eq_fin_fin, Dbl.isnan,
      body, epsQ]
    norm_num [abs_lt]

end Ary
